import Mathlib

/-!
# Searching algorithms for a reward-collecting maze game

A shallow embedding of the C++ sources

* `CollectNum/CollectNum/MazeState.cpp`          (random play, `H = 3`, `W = 4`, `END_TURN = 4`)
* `CollectNum/CollectNum/TestRandomScore.cpp`    (greedy play, `H = 3`, `W = 4`, `END_TURN = 4`)
* `CollectNum/CollectNum/BeamSearchWithTime.cpp` (beam search, `H = W = 30`, `END_TURN = 100`)
* `HeuristicGame/HeuristicGame/HillClimb.cpp`    (hill climbing, `H = W = 5`, `END_TURN = 5`)

Conventions of the embedding.

* A C++ `int` / `int64_t` is a Lean `Int`.  The accumulation `game_score_ += point` of
  `MazeState::advance` is a 32-bit addition: its result is reduced into
  `[-2^31, 2^31)` by `wrapInt32`, as the compiled code does.  `game_score_` is a public member
  and the start cell keeps what the storage held, so a run can reach the bound.  Positions and
  `turn_` change by one per move and are compared with small constants; they are not reduced.
  The score of `AutoMoveMazeState` is kept as an unbounded integer.
* `int points_[H][W]` is a total function `Int → Int → Int`; only the cells with
  `0 ≤ y < H` and `0 ≤ x < W` exist in the program, an access outside that range is undefined
  behaviour in C++ and no statement below relies on it.
* The three `MazeState` classes differ only in the compile-time constants `H`, `W`, `END_TURN`,
  which are collected in `Consts`.
-/

set_option autoImplicit false

namespace CollectNum

/-! ## Data model (`struct Coord`, `class MazeState`) -/

/-- The source's `struct Coord { int y_; int x_; }`. -/
structure Coord where
  y_ : Int
  x_ : Int
deriving DecidableEq

/-- The compile-time constants `H`, `W`, `END_TURN` of one translation unit. -/
structure Consts where
  H : Int
  W : Int
  END_TURN : Int

/-- Constants of `BeamSearchWithTime.cpp`. -/
def beamConsts : Consts := { H := 30, W := 30, END_TURN := 100 }

/-- Constants of `MazeState.cpp` and `TestRandomScore.cpp`. -/
def smallConsts : Consts := { H := 3, W := 4, END_TURN := 4 }

/-- The source's `constexpr const ScoreType INF = 1000000000LL`. -/
def INF : Int := 1000000000

/-- The source's `static constexpr const int dx[4] = { 1,-1,0,0 }`, as a function of the index. -/
def dx (action : Int) : Int :=
  if action = 0 then 1 else if action = 1 then -1 else 0

/-- The source's `static constexpr const int dy[4] = { 0,0,1,-1 }`, as a function of the index. -/
def dy (action : Int) : Int :=
  if action = 2 then 1 else if action = 3 then -1 else 0

/-- The source's `class MazeState` (data members; `first_action_` and `evaluated_score_` exist in
`BeamSearchWithTime.cpp`, `evaluated_score_` also in `TestRandomScore.cpp`). -/
structure MazeState where
  points_ : Int → Int → Int
  turn_ : Int
  character_ : Coord
  game_score_ : Int
  first_action_ : Int
  evaluated_score_ : Int

/-- Assignment `points_[y][x] = v`. -/
def setPoint (points : Int → Int → Int) (y x v : Int) : Int → Int → Int :=
  fun y1 x1 => if y1 = y ∧ x1 = x then v else points y1 x1

/-- The source's `MazeState::evaluateScore`. -/
def evaluateScore (s : MazeState) : MazeState :=
  { s with evaluated_score_ := s.game_score_ }

/-- The source's `MazeState::isDone`. -/
def isDone (c : Consts) (s : MazeState) : Bool :=
  s.turn_ == c.END_TURN

/-- The largest value of a 32-bit `int`. -/
def INT_MAX : Int := 2147483647

/-- The smallest value of a 32-bit `int`. -/
def INT_MIN : Int := -2147483648

/-- The value a 32-bit `int` holds after an arithmetic result `v`: `v` reduced modulo `2^32`
into `[-2^31, 2^31)`. -/
def wrapInt32 (v : Int) : Int :=
  (v + 2147483648) % 4294967296 - 2147483648

/-- The source's `MazeState::advance`; `game_score_` is an `int`, so `game_score_ += point`
wraps around at 32 bits. -/
def advance (s : MazeState) (action : Int) : MazeState :=
  let x := s.character_.x_ + dx action
  let y := s.character_.y_ + dy action
  let point := s.points_ y x
  if point > 0 then
    { s with
      character_ := { y_ := y, x_ := x }
      game_score_ := wrapInt32 (s.game_score_ + point)
      points_ := setPoint s.points_ y x 0
      turn_ := s.turn_ + 1 }
  else
    { s with
      character_ := { y_ := y, x_ := x }
      turn_ := s.turn_ + 1 }

/-- The source's `MazeState::legalActions`: the loop `for (action = 0; action < 4; action++)`
appends `action` when the target cell is inside the grid. -/
def legalActions (c : Consts) (s : MazeState) : List Int :=
  [0, 1, 2, 3].filter fun action =>
    let ty := s.character_.y_ + dy action
    let tx := s.character_.x_ + dx action
    decide (ty ≥ 0 ∧ ty < c.H ∧ tx ≥ 0 ∧ tx < c.W)

/-! ## Predicates used in the statements -/

/-- The cell `(y, x)` is inside the grid `[0,H) × [0,W)`. -/
def inGrid (c : Consts) (y x : Int) : Prop :=
  0 ≤ y ∧ y < c.H ∧ 0 ≤ x ∧ x < c.W

instance (c : Consts) (y x : Int) : Decidable (inGrid c y x) := by
  unfold inGrid; infer_instance

/-- The agent stands on a cell of the grid. -/
def agentInBounds (c : Consts) (s : MazeState) : Prop :=
  inGrid c s.character_.y_ s.character_.x_

instance (c : Consts) (s : MazeState) : Decidable (agentInBounds c s) := by
  unfold agentInBounds; infer_instance

/-- Every cell of the grid holds a non-negative value. -/
def nonNegGrid (c : Consts) (s : MazeState) : Prop :=
  ∀ y x : Int, inGrid c y x → 0 ≤ s.points_ y x

/-- A state used to instantiate the statements: every cell holds `1`, the agent is at `(1, 1)`. -/
def sampleState : MazeState :=
  { points_ := fun _ _ => 1
    turn_ := 0
    character_ := { y_ := 1, x_ := 1 }
    game_score_ := 0
    first_action_ := -1
    evaluated_score_ := 0 }

/-- The state `sampleState` with `game_score_` at the largest 32-bit value. -/
def overflowState : MazeState :=
  { sampleState with game_score_ := 2147483647 }

/-- A state of the 3 x 4 grid with the agent in the corner `(0, 0)`: the cell to the right holds
`5`, the cell below holds `3`, every other cell holds `1`. -/
def cornerState : MazeState :=
  { points_ := fun y x => if y = 0 ∧ x = 1 then 5 else if y = 1 ∧ x = 0 then 3 else 1
    turn_ := 0
    character_ := { y_ := 0, x_ := 0 }
    game_score_ := 0
    first_action_ := -1
    evaluated_score_ := 0 }

/-! ## Running a sequence of actions -/

/-- Repeated `state.advance(action)` for the actions of a list, in order. -/
def run (s : MazeState) (actions : List Int) : MazeState :=
  actions.foldl advance s

/-- The cells `(y, x)` the agent enters while the actions of a list are applied, in order. -/
def path (s : MazeState) : List Int → List (Int × Int)
  | [] => []
  | action :: rest =>
    ((advance s action).character_.y_, (advance s action).character_.x_) ::
      path (advance s action) rest

/-- Every action of the list is legal in the state it is applied to. -/
def legalSeq (c : Consts) (s : MazeState) : List Int → Prop
  | [] => True
  | action :: rest => action ∈ legalActions c s ∧ legalSeq c (advance s action) rest

instance legalSeqDecidable (c : Consts) :
    (s : MazeState) → (actions : List Int) → Decidable (legalSeq c s actions)
  | _, [] => isTrue trivial
  | s, action :: rest =>
    @instDecidableAnd _ _ _ (legalSeqDecidable c (advance s action) rest)

/-- The body of the loop of `greedyAction`: the pair is `(best_score, best_action)`. -/
def greedyStep (state : MazeState) (best : Int × Int) (action : Int) : Int × Int :=
  let now_state := evaluateScore (advance state action)
  if now_state.evaluated_score_ > best.1 then (now_state.evaluated_score_, action) else best

/-- The source's `greedyAction`. -/
def greedyAction (c : Consts) (state : MazeState) : Int :=
  ((legalActions c state).foldl (greedyStep state) (-INF, -1)).2

/-! ## `std::priority_queue<State>`

The queue is the standard binary max-heap stored in a vector: `push` is `push_back` followed by
`std::push_heap` (sift the new value up while its parent is smaller), `pop` is `std::pop_heap`
(move the hole at the root down to the bottom along the larger children, then sift the former
last value up from there) followed by `pop_back`, and `top` is the front of the vector.  This is
the algorithm of the MSVC and GNU standard libraries. -/

/-- The source's `operator <` on `MazeState`. -/
def lt (maze_1 maze_2 : MazeState) : Bool :=
  decide (maze_1.evaluated_score_ < maze_2.evaluated_score_)

/-- The container of a `std::priority_queue<State>`. -/
abbrev PriorityQueue := List MazeState

/-- Sift-up of `std::push_heap`: the hole moves to its parent `(hole - 1) / 2` while the parent
is smaller than `val`; `val` is stored where the hole stops. -/
def pushHeapByIndex (v : List MazeState) (hole : Nat) (val : MazeState) : List MazeState :=
  if h : 0 < hole then
    if lt (v.getD ((hole - 1) / 2) val) val then
      pushHeapByIndex (v.set hole (v.getD ((hole - 1) / 2) val)) ((hole - 1) / 2) val
    else v.set hole val
  else v.set hole val
termination_by hole
decreasing_by omega

/-- First loop of `std::pop_heap`: while the hole has two children, move the larger child
(the right one unless it is smaller than the left one) into the hole. -/
def siftHoleDown (v : List MazeState) (hole bottom : Nat) (val : MazeState) :
    List MazeState × Nat :=
  if h : hole < (bottom - 1) / 2 then
    if lt (v.getD (2 * hole + 2) val) (v.getD (2 * hole + 1) val) then
      siftHoleDown (v.set hole (v.getD (2 * hole + 1) val)) (2 * hole + 1) bottom val
    else
      siftHoleDown (v.set hole (v.getD (2 * hole + 2) val)) (2 * hole + 2) bottom val
  else (v, hole)
termination_by bottom - hole
decreasing_by all_goals omega

/-- The hole-based `std::pop_heap` on the first `bottom` elements: move the hole from `hole` to
the bottom, handle an only child at the bottom, then sift `val` up from there. -/
def popHeapHoleByIndex (v : List MazeState) (hole bottom : Nat) (val : MazeState) :
    List MazeState :=
  let r := siftHoleDown v hole bottom val
  if r.2 = (bottom - 1) / 2 ∧ bottom % 2 = 0 then
    pushHeapByIndex (r.1.set r.2 (r.1.getD (bottom - 1) val)) (bottom - 1) val
  else pushHeapByIndex r.1 r.2 val

namespace PriorityQueue

/-- The member `priority_queue::top`; `none` on an empty queue (`empty()` is true), where C++
leaves it undefined. -/
def top (q : PriorityQueue) : Option MazeState := q.head?

/-- The member `priority_queue::push`: `push_back`, then `push_heap`. -/
def push (q : PriorityQueue) (x : MazeState) : PriorityQueue :=
  pushHeapByIndex (q ++ [x]) q.length x

/-- The member `priority_queue::pop`: `pop_heap` (which acts on two or more elements), then
`pop_back`. -/
def pop (q : PriorityQueue) : PriorityQueue :=
  match q.getLast? with
  | none => []
  | some last =>
    if 2 ≤ q.length then popHeapHoleByIndex q.dropLast 0 (q.length - 1) last
    else q.dropLast

end PriorityQueue

/-- The front of the queue is a largest element: no element has a larger `evaluated_score_`. -/
def rootMax (q : PriorityQueue) : Prop :=
  ∀ r, PriorityQueue.top q = some r → ∀ y ∈ q, y.evaluated_score_ ≤ r.evaluated_score_

/-! ## Beam search (`beamSearchAction`, `beamSearchActionWithTimeThreshold`) -/

/-- A default-constructed `State best_state;`: the member initialisers of the class, the grid
(left uninitialised by `MazeState()` and never read from this object) filled with zeros. -/
def defaultState : MazeState :=
  { points_ := fun _ _ => 0
    turn_ := 0
    character_ := { y_ := 0, x_ := 0 }
    game_score_ := 0
    first_action_ := -1
    evaluated_score_ := 0 }

/-- The node `next_state` built in the innermost loop of both beam searches at depth level `t`. -/
def nextState (t : Nat) (now_state : MazeState) (action : Int) : MazeState :=
  let next_state := evaluateScore (advance now_state action)
  if t = 0 then { next_state with first_action_ := action } else next_state

/-- The loop `for (const auto& action : legal_actions)`: push every child on `next_beam`. -/
def pushChildren (c : Consts) (t : Nat) (now_state : MazeState) (next_beam : PriorityQueue) :
    PriorityQueue :=
  (legalActions c now_state).foldl
    (fun beam action => PriorityQueue.push beam (nextState t now_state action)) next_beam

/-- The loop `for (int i = 0; i < beam_width; i++)` of `beamSearchAction`; the first argument is
the number of iterations left. The branch `none` is `if (now_beam.empty()) break;`. The result
is `next_beam`. -/
def expandBeam (c : Consts) (t : Nat) : Nat → PriorityQueue → PriorityQueue → PriorityQueue
  | 0, _, next_beam => next_beam
  | i + 1, now_beam, next_beam =>
    match PriorityQueue.top now_beam with
    | none => next_beam
    | some now_state =>
      expandBeam c t i (PriorityQueue.pop now_beam) (pushChildren c t now_state next_beam)

/-- The loop `for (int t = 0; t < beam_depth; t++)` of `beamSearchAction`; the first argument is
the number of depth levels left. The result is the final `best_state`, or `none` when
`now_beam.top()` is taken of an empty queue (undefined in C++). -/
def beamLoop (c : Consts) (beam_width : Nat) :
    Nat → Nat → PriorityQueue → MazeState → Option MazeState
  | 0, _, _, best_state => some best_state
  | d + 1, t, now_beam, _ =>
    let next_beam := expandBeam c t beam_width now_beam []
    match PriorityQueue.top next_beam with
    | none => none
    | some best_state =>
      if isDone c best_state then some best_state
      else beamLoop c beam_width d (t + 1) next_beam best_state

/-- The source's `beamSearchAction`; a `beam_width` or `beam_depth` that is not positive runs
the respective loop zero times, like `0`. -/
def beamSearchAction (c : Consts) (state : MazeState) (beam_width beam_depth : Nat) :
    Option Int :=
  (beamLoop c beam_width beam_depth 0 (PriorityQueue.push [] state) defaultState).map
    fun best_state => best_state.first_action_

/-- The invariant of the frontier at depth level `t` behind the reported action: the agent of
every node is in bounds, and the node either is expanded with the root's legal actions (level 0)
or already carries one of them as its `first_action_`. -/
def frontierInv (c : Consts) (root : MazeState) (t : Nat) (y : MazeState) : Prop :=
  agentInBounds c y ∧
    (if t = 0 then legalActions c y = legalActions c root
     else y.first_action_ ∈ legalActions c root)

/-- The source's `TimeKeeper::isTimeOver` at the poll number `poll`, when the monotonic clock
shows `elapsed poll` milliseconds since the construction of the time keeper. -/
def isTimeOver (time_threshold : Int) (elapsed : Nat → Nat) (poll : Nat) : Bool :=
  decide ((elapsed poll : Int) ≥ time_threshold)

/-- The loop `for (int i = 0; i < beam_width; i++)` of `beamSearchActionWithTimeThreshold`;
`timeOver poll` is the answer of the poll number `poll` of `isTimeOver()`. The result is `none`
when a poll answers true (the function returns at once), else `next_beam` and the number of
polls made so far. -/
def expandBeamTimed (c : Consts) (timeOver : Nat → Bool) (t : Nat) :
    Nat → Nat → PriorityQueue → PriorityQueue → Option (PriorityQueue × Nat)
  | 0, polls, _, next_beam => some (next_beam, polls)
  | i + 1, polls, now_beam, next_beam =>
    if timeOver polls then none
    else
      match PriorityQueue.top now_beam with
      | none => some (next_beam, polls + 1)
      | some now_state =>
        expandBeamTimed c timeOver t i (polls + 1) (PriorityQueue.pop now_beam)
          (pushChildren c t now_state next_beam)

/-- The unbounded loop `for (int t = 0;; t++)` of `beamSearchActionWithTimeThreshold`, run for
at most `fuel` depth levels. The result is the final `best_state`; `none` when the fuel runs out
or `now_beam.top()` is taken of an empty queue. -/
def timedLoop (c : Consts) (timeOver : Nat → Bool) (beam_width : Nat) :
    Nat → Nat → Nat → PriorityQueue → MazeState → Option MazeState
  | 0, _, _, _, _ => none
  | fuel + 1, t, polls, now_beam, best_state =>
    match expandBeamTimed c timeOver t beam_width polls now_beam [] with
    | none => some best_state
    | some (next_beam, polls1) =>
      match PriorityQueue.top next_beam with
      | none => none
      | some best_state1 =>
        if isDone c best_state1 then some best_state1
        else timedLoop c timeOver beam_width fuel (t + 1) polls1 next_beam best_state1

/-- The source's `beamSearchActionWithTimeThreshold`, with the answers of the time keeper given
by `timeOver` and the unbounded loop run for at most `fuel` depth levels. -/
def beamSearchActionWithTimeThreshold (c : Consts) (fuel : Nat) (timeOver : Nat → Bool)
    (state : MazeState) (beam_width : Nat) : Option Int :=
  (timedLoop c timeOver beam_width fuel 0 0 (PriorityQueue.push [] state) defaultState).map
    fun best_state => best_state.first_action_

end CollectNum

/-! # `HillClimb.cpp`: hill climbing over the initial placement of the agents

`struct Coord`, `dx`, `dy` and `INF` of this file are those of `CollectNum`. The global generator
`std::mt19937 mt_for_action` is a sequence `mt : Nat → Nat` of outputs together with the number
`k` of outputs consumed so far; a function that draws from the generator returns the new count. -/

namespace HeuristicGame

open CollectNum (Coord dx dy INF setPoint)

/-- The source's `constexpr const int H = 5`. -/
def H : Int := 5

/-- The source's `constexpr const int W = 5`. -/
def W : Int := 5

/-- The source's `constexpr int END_TURN = 5`. -/
def END_TURN : Int := 5

/-- The source's `constexpr int CHARACTER_N = 3`. -/
def CHARACTER_N : Nat := 3

/-- The source's `class AutoMoveMazeState` (data members); `Coord characters_[CHARACTER_N]` is
a function of the index. -/
structure AutoMoveMazeState where
  points_ : Int → Int → Int
  turn_ : Int
  characters_ : Fin CHARACTER_N → Coord
  game_score_ : Int
  evaluated_score_ : Int

/-- The source's `AutoMoveMazeState::setCharacter`. -/
def setCharacter (s : AutoMoveMazeState) (character_id : Fin CHARACTER_N) (y x : Int) :
    AutoMoveMazeState :=
  { s with characters_ := Function.update s.characters_ character_id { y_ := y, x_ := x } }

/-- The source's `AutoMoveMazeState::isDone`. -/
def isDone (s : AutoMoveMazeState) : Bool :=
  s.turn_ == END_TURN

/-- The body of the loop of `movePlayer`: the pair is `(best_point, best_action_index)`. -/
def movePlayerStep (s : AutoMoveMazeState) (character : Coord) (best : Int × Int)
    (action : Int) : Int × Int :=
  let ty := character.y_ + dy action
  let tx := character.x_ + dx action
  if ty ≥ 0 ∧ ty < H ∧ tx ≥ 0 ∧ tx < W then
    let point := s.points_ ty tx
    if point > best.1 then (point, action) else best
  else best

/-- The source's `AutoMoveMazeState::movePlayer`. -/
def movePlayer (s : AutoMoveMazeState) (character_id : Fin CHARACTER_N) : AutoMoveMazeState :=
  let character := s.characters_ character_id
  let best := [0, 1, 2, 3].foldl (movePlayerStep s character) (-INF, 0)
  setCharacter s character_id (character.y_ + dy best.2) (character.x_ + dx best.2)

/-- The body of the second loop of `advance`: credit and clear the cell of one agent. -/
def collect (s : AutoMoveMazeState) (character_id : Fin CHARACTER_N) : AutoMoveMazeState :=
  let character := s.characters_ character_id
  { s with
    game_score_ := s.game_score_ + s.points_ character.y_ character.x_
    points_ := setPoint s.points_ character.y_ character.x_ 0 }

/-- The source's `AutoMoveMazeState::advance`. -/
def advance (s : AutoMoveMazeState) : AutoMoveMazeState :=
  let moved := (List.finRange CHARACTER_N).foldl movePlayer s
  let collected := (List.finRange CHARACTER_N).foldl collect moved
  { collected with turn_ := collected.turn_ + 1 }

/-- The loop `while (!tmp_state.isDone()) tmp_state.advance()` of `getScore`, run for at most
`fuel` iterations; `none` when the fuel runs out. -/
def getScoreLoop : Nat → AutoMoveMazeState → Option AutoMoveMazeState
  | 0, tmp_state => if isDone tmp_state then some tmp_state else none
  | fuel + 1, tmp_state =>
    if isDone tmp_state then some tmp_state else getScoreLoop fuel (advance tmp_state)

/-- The first loop of `getScore`: the copy of the state with the cells of all agents cleared. -/
def clearStartCells (s : AutoMoveMazeState) : AutoMoveMazeState :=
  (List.finRange CHARACTER_N).foldl
    (fun tmp_state character_id =>
      { tmp_state with
        points_ := setPoint tmp_state.points_ (s.characters_ character_id).y_
          (s.characters_ character_id).x_ 0 }) s

/-- The source's `AutoMoveMazeState::getScore` (without printing). Every iteration of the loop
adds one to `turn_`, so the loop ends after `END_TURN - turn_` iterations when
`turn_ ≤ END_TURN` and never otherwise; the fuel is this number, and the result is `none`
exactly when the loop does not end. -/
def getScore (s : AutoMoveMazeState) : Option Int :=
  (getScoreLoop (END_TURN - s.turn_).toNat (clearStartCells s)).map
    fun tmp_state => tmp_state.game_score_

/-- The source's `AutoMoveMazeState::init`, drawing from output number `k` on. -/
def init (mt : Nat → Nat) (k : Nat) (s : AutoMoveMazeState) : AutoMoveMazeState × Nat :=
  (List.finRange CHARACTER_N).foldl
    (fun (st : AutoMoveMazeState × Nat) character_id =>
      (setCharacter st.1 character_id ((mt st.2 : Int) % H) ((mt (st.2 + 1) : Int) % W),
        st.2 + 2)) (s, k)

/-- The source's `AutoMoveMazeState::transition`, drawing from output number `k` on. -/
def transition (mt : Nat → Nat) (k : Nat) (s : AutoMoveMazeState) : AutoMoveMazeState × Nat :=
  (setCharacter s ⟨mt k % CHARACTER_N, Nat.mod_lt _ (by decide)⟩
    ((mt (k + 1) : Int) % H) ((mt (k + 2) : Int) % W), k + 3)

/-- The variables of the loop of `hillClimb`: `now_state`, `best_score` and the number of
generator outputs consumed. -/
structure ClimbVars where
  now_state : AutoMoveMazeState
  best_score : Int
  drawn : Nat

/-- The body of the loop of `hillClimb`; `none` when `getScore` does not end. -/
def hillClimbStep (mt : Nat → Nat) (v : ClimbVars) : Option ClimbVars :=
  let next := transition mt v.drawn v.now_state
  match getScore next.1 with
  | none => none
  | some next_score =>
    if next_score > v.best_score then
      some { now_state := next.1, best_score := next_score, drawn := next.2 }
    else some { v with drawn := next.2 }

/-- The loop `for (int i = 0; i < number; i++)` of `hillClimb`; the first argument is the
number of iterations left. -/
def hillClimbLoop (mt : Nat → Nat) : Nat → ClimbVars → Option ClimbVars
  | 0, v => some v
  | i + 1, v =>
    match hillClimbStep mt v with
    | none => none
    | some v1 => hillClimbLoop mt i v1

/-- The variables of `hillClimb` when its loop is entered: `now_state` after `init()` and its
score. -/
def hillClimbStart (mt : Nat → Nat) (k : Nat) (state : AutoMoveMazeState) : Option ClimbVars :=
  let started := init mt k state
  match getScore started.1 with
  | none => none
  | some score => some { now_state := started.1, best_score := score, drawn := started.2 }

/-- The variables of `hillClimb` after `number` iterations of its loop. -/
def hillClimbVars (mt : Nat → Nat) (k : Nat) (state : AutoMoveMazeState) (number : Nat) :
    Option ClimbVars :=
  match hillClimbStart mt k state with
  | none => none
  | some v => hillClimbLoop mt number v

/-- The source's `hillClimb`, started when `k` outputs of the generator have been consumed; a
negative `number` runs the loop zero times, like `0`. -/
def hillClimb (mt : Nat → Nat) (k : Nat) (state : AutoMoveMazeState) (number : Nat) :
    Option AutoMoveMazeState :=
  (hillClimbVars mt k state number).map fun v => v.now_state

/-- The configuration number `i` generated during `hillClimb`: number `0` is the one `init()`
produces, number `i + 1` is the one the call of `transition()` in iteration `i` of the loop
produces from the `now_state` and the generator left by the iterations before it. -/
def candidate (mt : Nat → Nat) (k : Nat) (state : AutoMoveMazeState) :
    Nat → Option AutoMoveMazeState
  | 0 => some (init mt k state).1
  | i + 1 =>
    (hillClimbVars mt k state i).map fun v => (transition mt v.drawn v.now_state).1

/-- A state of the hill-climbing game used to instantiate the statements: every cell holds
its row number plus one, all agents at `(0, 0)`, turn 0. -/
def sampleAuto : AutoMoveMazeState :=
  { points_ := fun y _ => y + 1
    turn_ := 0
    characters_ := fun _ => { y_ := 0, x_ := 0 }
    game_score_ := 0
    evaluated_score_ := 0 }

end HeuristicGame

namespace HeuristicGame

/-! ## Predicates on the hill-climbing state -/

/-- The cell `(y, x)` is inside the 5 x 5 grid. -/
def inGrid (y x : Int) : Prop :=
  0 ≤ y ∧ y < H ∧ 0 ≤ x ∧ x < W

instance (y x : Int) : Decidable (inGrid y x) := by
  unfold inGrid; infer_instance

/-- Every agent stands on a cell of the grid. -/
def agentsInGrid (s : AutoMoveMazeState) : Prop :=
  ∀ i : Fin CHARACTER_N, inGrid (s.characters_ i).y_ (s.characters_ i).x_

instance (s : AutoMoveMazeState) : Decidable (agentsInGrid s) := by
  unfold agentsInGrid; infer_instance

end HeuristicGame

namespace HeuristicGame

open CollectNum (Coord dx dy INF setPoint)

/-! ## Auto-play: destination of a move, occupied and visited cells -/

/-- The loop of `movePlayer` for an agent standing at `character`: the final pair
`(best_point, best_action_index)`. -/
def bestNeighbour (s : AutoMoveMazeState) (character : Coord) : Int × Int :=
  [0, 1, 2, 3].foldl (movePlayerStep s character) (-INF, 0)

/-- The cell `movePlayer` moves an agent standing at `character` to. -/
def destination (s : AutoMoveMazeState) (character : Coord) : Coord :=
  { y_ := character.y_ + dy (bestNeighbour s character).2
    x_ := character.x_ + dx (bestNeighbour s character).2 }

/-- The cell `(y, x)` of agent `i`. -/
def position (s : AutoMoveMazeState) (i : Fin CHARACTER_N) : Int × Int :=
  ((s.characters_ i).y_, (s.characters_ i).x_)

/-- The set of cells occupied by some agent. -/
def occupied (s : AutoMoveMazeState) : Finset (Int × Int) :=
  ((List.finRange CHARACTER_N).map (position s)).toFinset

/-- The set of cells occupied by some agent after one of the first `n` auto-play steps from
`s` on (the placement in `s` itself does not count). -/
def visitedAfter : Nat → AutoMoveMazeState → Finset (Int × Int)
  | 0, _ => ∅
  | n + 1, s => occupied (advance s) ∪ visitedAfter n (advance s)

/-- Every cell of the grid holds a value above `-INF`, the initial `best_point` of
`movePlayer`; the constructor fills the grid with values in `1..9` and the only later
assignment to a cell is `point = 0`. -/
def pointsAboveMinusInf (s : AutoMoveMazeState) : Prop :=
  ∀ y x : Int, inGrid y x → -INF < s.points_ y x

/-- Every cell of the grid holds a non-negative value. -/
def nonNegGrid (s : AutoMoveMazeState) : Prop :=
  ∀ y x : Int, inGrid y x → 0 ≤ s.points_ y x

end HeuristicGame

namespace CollectNum

/-! ## The constructor `MazeState(const int seed)` and `randomAction` -/

/-- The cells of the grid in the order of the loops `for (y = 0; y < H; y++)`,
`for (x = 0; x < W; x++)`. -/
def gridCells (c : Consts) : List (Int × Int) :=
  (List.range c.H.toNat).flatMap fun (y : Nat) =>
    (List.range c.W.toNat).map fun (x : Nat) => ((y : Int), (x : Int))

/-- The body of the loops of the constructor for one cell: the pair is the grid and the number
of generator outputs consumed. The cell of the agent is skipped (`continue`), every other cell
receives `mt_for_construct() % 10`. -/
def fillCell (mt_for_construct : Nat → Nat) (cy cx : Int) (st : (Int → Int → Int) × Nat)
    (cell : Int × Int) : (Int → Int → Int) × Nat :=
  if cell.1 = cy ∧ cell.2 = cx then st
  else (setPoint st.1 cell.1 cell.2 ((mt_for_construct st.2 % 10 : Nat) : Int), st.2 + 1)

/-- The source's constructor `MazeState(const int seed)`. `mt_for_construct` is the sequence of
outputs of `std::mt19937(seed)`; `storage` is what the memory of `points_` holds when the
constructor starts, the member `int points_[H][W];` having no initialiser. -/
def MazeState.ofSeed (c : Consts) (mt_for_construct : Nat → Nat) (storage : Int → Int → Int) :
    MazeState :=
  let cy := (mt_for_construct 0 : Int) % c.H
  let cx := (mt_for_construct 1 : Int) % c.W
  { points_ := ((gridCells c).foldl (fillCell mt_for_construct cy cx) (storage, 2)).1
    turn_ := 0
    character_ := { y_ := cy, x_ := cx }
    game_score_ := 0
    first_action_ := -1
    evaluated_score_ := 0 }

/-- The source's `randomAction`; `r` is the output `mt_for_action()` of the generator consumed
by the call. The result is `none` when `legal_actions` is empty, where the source divides by
zero. -/
def randomAction (c : Consts) (state : MazeState) (r : Nat) : Option Int :=
  (legalActions c state)[r % (legalActions c state).length]?

/-- The number of 32-bit generator outputs `r` for which `randomAction` returns `action`. -/
def selections (c : Consts) (state : MazeState) (action : Int) : Nat :=
  Nat.count (fun r => randomAction c state r = some action) (2 ^ 32)

/-- A state of the 30 x 30 grid with the agent on the upper edge at `(0, 1)`, where three
actions are legal; every cell holds `1`. -/
def edgeState : MazeState :=
  { points_ := fun _ _ => 1
    turn_ := 0
    character_ := { y_ := 0, x_ := 1 }
    game_score_ := 0
    first_action_ := -1
    evaluated_score_ := 0 }

end CollectNum

namespace CollectNum

/-! ## The frontiers of the beam searches -/

/-- The frontier `now_beam` with which depth level `t` of either beam search starts, when the
search gets that far: the root alone at level 0, then the result of the loop over `i` applied
to the frontier of the level before. -/
def frontierAt (c : Consts) (beam_width : Nat) (state : MazeState) : Nat → PriorityQueue
  | 0 => PriorityQueue.push [] state
  | t + 1 => expandBeam c t beam_width (frontierAt c beam_width state t) []

end CollectNum

namespace CollectNum

/-- The node `y` is what the beam search makes of the state reached from `s` by `actions`: it
has the grid, turn, position and score of `run s actions` and, when `actions` is not empty, that
score as `evaluated_score_` and the first of the actions as `first_action_`. -/
def reaches (s : MazeState) (actions : List Int) (y : MazeState) : Prop :=
  y.points_ = (run s actions).points_ ∧ y.turn_ = (run s actions).turn_ ∧
  y.character_ = (run s actions).character_ ∧
  y.game_score_ = (run s actions).game_score_ ∧
  (actions ≠ [] →
    y.evaluated_score_ = (run s actions).game_score_ ∧ actions.head? = some y.first_action_)

end CollectNum

namespace HeuristicGame

open CollectNum (Coord dx dy INF setPoint)

/-! ## The constructor `AutoMoveMazeState(const int seed)` -/

/-- The body of the loops of the constructor for one cell,
`points_[y][x] = mt_for_construct() % 9 + 1`: the pair is the grid and the number of generator
outputs consumed. -/
def fillAutoCell (mt_for_construct : Nat → Nat) (st : (Int → Int → Int) × Nat)
    (cell : Int × Int) : (Int → Int → Int) × Nat :=
  (setPoint st.1 cell.1 cell.2 (((mt_for_construct st.2 % 9 : Nat) : Int) + 1), st.2 + 1)

/-- The source's constructor `AutoMoveMazeState(const int seed)`; `mt_for_construct` is the
sequence of outputs of `std::mt19937(seed)`. The members `int points_[H][W] = {}` and
`Coord characters_[CHARACTER_N] = {}` start from zeros. -/
def AutoMoveMazeState.ofSeed (mt_for_construct : Nat → Nat) : AutoMoveMazeState :=
  { points_ :=
      ((CollectNum.gridCells { H := H, W := W, END_TURN := END_TURN }).foldl
        (fillAutoCell mt_for_construct) (fun _ _ => 0, 0)).1
    turn_ := 0
    characters_ := fun _ => { y_ := 0, x_ := 0 }
    game_score_ := 0
    evaluated_score_ := 0 }

end HeuristicGame

namespace CollectNum

/-! ## `legalActions` and `advance` -/

theorem mem_legalActions (c : Consts) (s : MazeState) (a : Int) :
    a ∈ legalActions c s ↔
      (0 ≤ a ∧ a ≤ 3) ∧ inGrid c (s.character_.y_ + dy a) (s.character_.x_ + dx a) := by
  unfold legalActions inGrid
  simp only [List.mem_filter, List.mem_cons, List.mem_singleton, List.not_mem_nil, or_false,
    decide_eq_true_eq, ge_iff_le]
  constructor
  · rintro ⟨h, h1⟩
    refine ⟨?_, h1⟩
    rcases h with h | h | h | h <;> subst h <;> decide
  · rintro ⟨⟨h0, h3⟩, h1⟩
    refine ⟨?_, h1⟩
    omega

theorem legalActions_sorted (c : Consts) (s : MazeState) :
    (legalActions c s).Sorted (· < ·) := by
  unfold legalActions
  apply List.Pairwise.filter
  decide

/-- C1: `legalActions()` returns exactly the actions `a ∈ {0,1,2,3}` (0: x+1, 1: x-1, 2: y+1,
3: y-1) whose target cell `(y+dy[a], x+dx[a])` lies in `[0,H) × [0,W)`, listed in strictly
increasing order of `a`; this holds for the constants of every translation unit. -/
theorem legalActions_exact (c : Consts) (s : MazeState) :
    (dx 0 = 1 ∧ dy 0 = 0) ∧ (dx 1 = -1 ∧ dy 1 = 0) ∧
    (dx 2 = 0 ∧ dy 2 = 1) ∧ (dx 3 = 0 ∧ dy 3 = -1) ∧
    (∀ a : Int, a ∈ legalActions c s ↔
      (0 ≤ a ∧ a ≤ 3) ∧
        0 ≤ s.character_.y_ + dy a ∧ s.character_.y_ + dy a < c.H ∧
        0 ≤ s.character_.x_ + dx a ∧ s.character_.x_ + dx a < c.W) ∧
    (legalActions c s).Sorted (· < ·) :=
  ⟨by decide, by decide, by decide, by decide,
    fun a => mem_legalActions c s a, legalActions_sorted c s⟩

end CollectNum

namespace CollectNum

/-! ## Effect of one `advance` -/

theorem advance_y (s : MazeState) (a : Int) :
    (advance s a).character_.y_ = s.character_.y_ + dy a := by
  unfold advance; simp only []; split <;> rfl

theorem advance_x (s : MazeState) (a : Int) :
    (advance s a).character_.x_ = s.character_.x_ + dx a := by
  unfold advance; simp only []; split <;> rfl

theorem advance_turn (s : MazeState) (a : Int) :
    (advance s a).turn_ = s.turn_ + 1 := by
  unfold advance; simp only []; split <;> rfl

theorem advance_first_action (s : MazeState) (a : Int) :
    (advance s a).first_action_ = s.first_action_ := by
  unfold advance; simp only []; split <;> rfl

theorem wrapInt32_eq_self (v : Int) (h1 : INT_MIN ≤ v) (h2 : v ≤ INT_MAX) : wrapInt32 v = v := by
  unfold wrapInt32
  unfold INT_MIN at h1
  unfold INT_MAX at h2
  omega

theorem advance_game_score (s : MazeState) (a : Int) :
    (advance s a).game_score_ =
      if 0 < s.points_ (s.character_.y_ + dy a) (s.character_.x_ + dx a) then
        wrapInt32 (s.game_score_ + s.points_ (s.character_.y_ + dy a) (s.character_.x_ + dx a))
      else s.game_score_ := by
  unfold advance; simp only []
  split <;> rfl

/-- When the sum fits into a 32-bit `int`, a move adds the positive value of the entered cell
to `game_score_`. -/
theorem advance_game_score_of_fits (s : MazeState) (a : Int)
    (hmin : INT_MIN ≤ s.game_score_)
    (hmax : s.game_score_ +
      max (s.points_ (s.character_.y_ + dy a) (s.character_.x_ + dx a)) 0 ≤ INT_MAX) :
    (advance s a).game_score_ =
      s.game_score_ + max (s.points_ (s.character_.y_ + dy a) (s.character_.x_ + dx a)) 0 := by
  rw [advance_game_score]
  split
  · next h =>
    rw [max_eq_left (le_of_lt h)] at hmax ⊢
    exact wrapInt32_eq_self _ (by omega) hmax
  · next h =>
    rw [max_eq_right (not_lt.mp h), add_zero]

theorem advance_points (s : MazeState) (a : Int) (y x : Int) :
    (advance s a).points_ y x =
      if y = s.character_.y_ + dy a ∧ x = s.character_.x_ + dx a then
        min (s.points_ y x) 0
      else s.points_ y x := by
  unfold advance; simp only []
  split
  · next h =>
    simp only [setPoint]
    split
    · next hyx => obtain ⟨rfl, rfl⟩ := hyx; rw [min_eq_right (le_of_lt h)]
    · rfl
  · next h =>
    simp only []
    split
    · next hyx => obtain ⟨rfl, rfl⟩ := hyx; rw [min_eq_left (not_lt.mp h)]
    · rfl

theorem advance_inBounds (c : Consts) (s : MazeState) (a : Int) (ha : a ∈ legalActions c s) :
    agentInBounds c (advance s a) := by
  unfold agentInBounds
  rw [advance_y, advance_x]
  exact ((mem_legalActions c s a).mp ha).2

theorem sampleState_inBounds : agentInBounds beamConsts sampleState := by
  decide

theorem sampleState_nonNeg (c : Consts) : nonNegGrid c sampleState := by
  intro y x _
  show (0 : Int) ≤ 1
  decide

theorem sampleState_legal : legalActions beamConsts sampleState = [0, 1, 2, 3] := by
  decide

theorem overflowState_inBounds : agentInBounds beamConsts overflowState := by
  decide

theorem overflowState_nonNeg (c : Consts) : nonNegGrid c overflowState := by
  intro y x _
  show (0 : Int) ≤ 1
  decide

theorem overflowState_legal : legalActions beamConsts overflowState = [0, 1, 2, 3] := by
  decide

end CollectNum

namespace CollectNum

/-! ## Greedy policy -/

theorem greedyStep_eq (state : MazeState) (best : Int × Int) (a : Int) :
    greedyStep state best a =
      if (advance state a).game_score_ > best.1 then ((advance state a).game_score_, a)
      else best := rfl

/-- The loop of `greedyAction` started with `(bs, ba)`: either no action beats `bs` and the pair
is unchanged, or the result is the first action of the list attaining the largest score. -/
theorem greedyFold_spec (state : MazeState) (l : List Int) (bs ba : Int) :
    ((∀ a ∈ l, (advance state a).game_score_ ≤ bs) ∧
        l.foldl (greedyStep state) (bs, ba) = (bs, ba)) ∨
    (∃ pre post : List Int,
        l = pre ++ (l.foldl (greedyStep state) (bs, ba)).2 :: post ∧
        (l.foldl (greedyStep state) (bs, ba)).1 =
          (advance state (l.foldl (greedyStep state) (bs, ba)).2).game_score_ ∧
        bs < (advance state (l.foldl (greedyStep state) (bs, ba)).2).game_score_ ∧
        (∀ a ∈ pre, (advance state a).game_score_ <
          (advance state (l.foldl (greedyStep state) (bs, ba)).2).game_score_) ∧
        (∀ a ∈ post, (advance state a).game_score_ ≤
          (advance state (l.foldl (greedyStep state) (bs, ba)).2).game_score_)) := by
  induction l generalizing bs ba with
  | nil => left; exact ⟨by simp, rfl⟩
  | cons a l ih =>
    rw [List.foldl_cons, greedyStep_eq]
    by_cases h : (advance state a).game_score_ > bs
    · simp only [h, if_true]
      right
      rcases ih (advance state a).game_score_ a with ⟨hall, heq⟩ | ⟨pre, post, hl, h1, h2, h3, h4⟩
      · rw [heq]
        exact ⟨[], l, rfl, rfl, h, by simp, hall⟩
      · refine ⟨a :: pre, post, ?_, h1, lt_trans h h2, ?_, h4⟩
        · rw [List.cons_append, ← hl]
        · intro b hb
          rcases List.mem_cons.mp hb with rfl | hb
          · exact h2
          · exact h3 b hb
    · simp only [h, if_false]
      rcases ih bs ba with ⟨hall, heq⟩ | ⟨pre, post, hl, h1, h2, h3, h4⟩
      · left
        refine ⟨?_, heq⟩
        intro b hb
        rcases List.mem_cons.mp hb with rfl | hb
        · exact not_lt.mp h
        · exact hall b hb
      · right
        refine ⟨a :: pre, post, ?_, h1, h2, ?_, h4⟩
        · rw [List.cons_append, ← hl]
        · intro b hb
          rcases List.mem_cons.mp hb with rfl | hb
          · exact lt_of_le_of_lt (not_lt.mp h) h2
          · exact h3 b hb

/-- The loop of `greedyAction` forgets where it started as soon as an action beats the larger of
two starting scores. -/
theorem greedyFold_start_irrelevant (state : MazeState) (l : List Int) (b1 x1 b2 x2 : Int)
    (hle : b2 ≤ b1) (hex : ∃ a ∈ l, b1 < (advance state a).game_score_) :
    l.foldl (greedyStep state) (b1, x1) = l.foldl (greedyStep state) (b2, x2) := by
  induction l generalizing b1 x1 b2 x2 with
  | nil =>
    obtain ⟨a, ha, _⟩ := hex
    simp at ha
  | cons h t ih =>
    rw [List.foldl_cons, List.foldl_cons, greedyStep_eq, greedyStep_eq]
    by_cases h1 : (advance state h).game_score_ > b1
    · have h2 : (advance state h).game_score_ > b2 := lt_of_le_of_lt hle h1
      simp only [h1, h2, if_true]
    · simp only [h1, if_false]
      have hex2 : ∃ a ∈ t, b1 < (advance state a).game_score_ := by
        obtain ⟨a, ha, hlt⟩ := hex
        rcases List.mem_cons.mp ha with rfl | ha
        · exact absurd hlt h1
        · exact ⟨a, ha, hlt⟩
      by_cases h2 : (advance state h).game_score_ > b2
      · simp only [h2, if_true]
        exact ih b1 x1 _ h (not_lt.mp h1) hex2
      · simp only [h2, if_false]
        exact ih b1 x1 b2 x2 hle hex2

/-- With a non-negative grid and `game_score_ ≥ 0`, a legal move whose addition fits into a
32-bit `int` leads to a score above the initial `best_score = -INF` of `greedyAction`. -/
theorem exists_child_above (c : Consts) (s : MazeState) (hg : nonNegGrid c s)
    (hs : 0 ≤ s.game_score_)
    (hfit : ∃ a ∈ legalActions c s,
      s.game_score_ + s.points_ (s.character_.y_ + dy a) (s.character_.x_ + dx a) ≤ INT_MAX) :
    ∃ a ∈ legalActions c s, -INF < (advance s a).game_score_ := by
  obtain ⟨a, ha, hmax⟩ := hfit
  refine ⟨a, ha, ?_⟩
  have h0 := hg _ _ ((mem_legalActions c s a).mp ha).2
  have hmin : INT_MIN ≤ s.game_score_ := by
    unfold INT_MIN
    omega
  rw [advance_game_score_of_fits s a hmin (by rw [max_eq_left h0]; exact hmax), max_eq_left h0]
  unfold INF
  omega

/-- When some legal action leads to a score above `-INF`, the result of `greedyAction` splits
the list of legal actions into strictly worse actions before it and no better ones after it. -/
theorem greedyAction_split (c : Consts) (s : MazeState)
    (hex : ∃ a ∈ legalActions c s, -INF < (advance s a).game_score_) :
    ∃ pre post : List Int,
      legalActions c s = pre ++ greedyAction c s :: post ∧
      (∀ a ∈ pre, (advance s a).game_score_ < (advance s (greedyAction c s)).game_score_) ∧
      (∀ a ∈ post, (advance s a).game_score_ ≤ (advance s (greedyAction c s)).game_score_) := by
  unfold greedyAction
  rcases greedyFold_spec s (legalActions c s) (-INF) (-1) with
    ⟨hall, _⟩ | ⟨pre, post, hl1, _, _, h3, h4⟩
  · exfalso
    obtain ⟨a, ha, hlt⟩ := hex
    exact absurd hlt (not_lt.mpr (hall a ha))
  · exact ⟨pre, post, hl1, h3, h4⟩

/-- C3 (as amended): with the agent in bounds, a non-negative grid, `game_score_ ≥ 0` and at
least one legal action whose destination value added to `game_score_` does not exceed `INT_MAX`
(the 32-bit addition of that move does not wrap), `greedyAction` returns a legal action (so not
`-1`) whose resulting game score is at least that of every legal action, and it is the earliest
such action in `legalActions()` order: the actions listed before it are strictly worse. With two
legal actions leading to scores 5 and 3 it returns the one leading to 5. -/
theorem greedyAction_first_best (c : Consts) (s : MazeState)
    (_hb : agentInBounds c s) (hg : nonNegGrid c s) (hs : 0 ≤ s.game_score_)
    (hfit : ∃ a ∈ legalActions c s,
      s.game_score_ + s.points_ (s.character_.y_ + dy a) (s.character_.x_ + dx a) ≤ INT_MAX) :
    greedyAction c s ∈ legalActions c s ∧
    greedyAction c s ≠ -1 ∧
    (∀ a ∈ legalActions c s,
      (advance s a).game_score_ ≤ (advance s (greedyAction c s)).game_score_) ∧
    (∃ pre post : List Int,
      legalActions c s = pre ++ greedyAction c s :: post ∧
      ∀ a ∈ pre, (advance s a).game_score_ < (advance s (greedyAction c s)).game_score_) ∧
    (∀ a b : Int, legalActions c s = [a, b] →
      ((advance s a).game_score_ = 5 ∧ (advance s b).game_score_ = 3 → greedyAction c s = a) ∧
      ((advance s a).game_score_ = 3 ∧ (advance s b).game_score_ = 5 → greedyAction c s = b)) := by
  obtain ⟨pre, post, hsplit, hpre, hpost⟩ :=
    greedyAction_split c s (exists_child_above c s hg hs hfit)
  have hmem : greedyAction c s ∈ legalActions c s := by
    rw [hsplit]; simp
  have hmax : ∀ a ∈ legalActions c s,
      (advance s a).game_score_ ≤ (advance s (greedyAction c s)).game_score_ := by
    intro a ha
    rw [hsplit] at ha
    rcases List.mem_append.mp ha with h | h
    · exact le_of_lt (hpre a h)
    · rcases List.mem_cons.mp h with h | h
      · rw [h]
      · exact hpost a h
  refine ⟨hmem, ?_, hmax, ⟨pre, post, hsplit, hpre⟩, ?_⟩
  · intro h
    have := ((mem_legalActions c s _).mp hmem).1.1
    omega
  · intro a b hab
    have ha : a ∈ legalActions c s := by rw [hab]; simp
    have hb : b ∈ legalActions c s := by rw [hab]; simp
    have hma := hmax a ha
    have hmb := hmax b hb
    rw [hab] at hsplit
    constructor
    · rintro ⟨h5, h3⟩
      match pre, hsplit, hpre with
      | [], hsp, _ =>
        simp only [List.nil_append, List.cons.injEq] at hsp
        exact hsp.1.symm
      | [x], hsp, hp =>
        simp only [List.cons_append, List.nil_append, List.cons.injEq] at hsp
        have hx := hp x (by simp)
        rw [← hsp.1, ← hsp.2.1] at hx
        omega
      | x :: y :: rest, hsp, _ =>
        simp at hsp
    · rintro ⟨h3, h5⟩
      match pre, hsplit, hpre with
      | [], hsp, _ =>
        simp only [List.nil_append, List.cons.injEq] at hsp
        rw [← hsp.1] at hmb
        omega
      | [x], hsp, _ =>
        simp only [List.cons_append, List.nil_append, List.cons.injEq] at hsp
        exact hsp.2.1.symm
      | x :: y :: rest, hsp, _ =>
        simp at hsp

theorem sampleState_legal_ne_nil : legalActions beamConsts sampleState ≠ [] := by
  rw [sampleState_legal]; decide

theorem cornerState_inBounds : agentInBounds smallConsts cornerState := by
  decide

theorem cornerState_nonNeg (c : Consts) : nonNegGrid c cornerState := by
  intro y x _
  show (0 : Int) ≤ if y = 0 ∧ x = 1 then 5 else if y = 1 ∧ x = 0 then 3 else 1
  split
  · decide
  · split <;> decide

theorem cornerState_legal : legalActions smallConsts cornerState = [0, 2] := by
  decide

/-- Instance of C3 at `cornerState`, whose two legal actions `0` and `2` lead to the scores
`5` and `3`. -/
theorem greedyAction_first_best_witness :
    (legalActions smallConsts cornerState = [0, 2] ∧
      (advance cornerState 0).game_score_ = 5 ∧ (advance cornerState 2).game_score_ = 3) ∧
    greedyAction smallConsts cornerState = 0 :=
  ⟨⟨cornerState_legal, by decide, by decide⟩,
    ((greedyAction_first_best smallConsts cornerState cornerState_inBounds
      (cornerState_nonNeg smallConsts) (by decide)
      ⟨0, by rw [cornerState_legal]; decide, by decide⟩).2.2.2.2 0 2 cornerState_legal).1
      ⟨by decide, by decide⟩⟩

/-- C3 (as stated) fails at `overflowState`, a state of the 30 x 30 grid with the agent in
bounds at `(1, 1)`, every cell holding `1`, `game_score_ = 2147483647` and the four legal actions
`0, 1, 2, 3`: every move wraps the 32-bit score to `-2147483648`, which does not exceed the
initial `best_score = -INF`, and `greedyAction` returns `-1`, which is not a legal action. -/
theorem greedyAction_overflow_returns_sentinel :
    agentInBounds beamConsts overflowState ∧ nonNegGrid beamConsts overflowState ∧
    0 ≤ overflowState.game_score_ ∧ legalActions beamConsts overflowState = [0, 1, 2, 3] ∧
    (∀ a ∈ legalActions beamConsts overflowState,
      (advance overflowState a).game_score_ = -2147483648) ∧
    greedyAction beamConsts overflowState = -1 ∧
    greedyAction beamConsts overflowState ∉ legalActions beamConsts overflowState :=
  ⟨overflowState_inBounds, overflowState_nonNeg beamConsts, by decide, overflowState_legal,
    by rw [overflowState_legal]; decide, by decide, by decide⟩

end CollectNum

namespace CollectNum

/-! ## The priority queue: which elements it holds -/

theorem getD_mem_or_eq (v : List MazeState) (i : Nat) (d : MazeState) :
    v.getD i d ∈ v ∨ v.getD i d = d := by
  by_cases h : i < v.length
  · left; rw [List.getD_eq_getElem v d h]; exact List.getElem_mem h
  · right; exact List.getD_eq_default v d (not_lt.mp h)

theorem pushHeapByIndex_mem (v : List MazeState) (hole : Nat) (val y : MazeState)
    (hy : y ∈ pushHeapByIndex v hole val) : y ∈ v ∨ y = val := by
  induction hole using Nat.strong_induction_on generalizing v with
  | _ hole ih =>
    rw [pushHeapByIndex] at hy
    split at hy
    · next h =>
      split at hy
      · rcases ih ((hole - 1) / 2) (by omega) _ hy with h1 | h1
        · rcases List.mem_or_eq_of_mem_set h1 with h2 | h2
          · exact Or.inl h2
          · rw [h2]; exact getD_mem_or_eq v _ val
        · exact Or.inr h1
      · exact List.mem_or_eq_of_mem_set hy
    · exact List.mem_or_eq_of_mem_set hy

theorem pushHeapByIndex_length (v : List MazeState) (hole : Nat) (val : MazeState) :
    (pushHeapByIndex v hole val).length = v.length := by
  induction hole using Nat.strong_induction_on generalizing v with
  | _ hole ih =>
    rw [pushHeapByIndex]
    split
    · next h =>
      split
      · rw [ih ((hole - 1) / 2) (by omega), List.length_set]
      · rw [List.length_set]
    · rw [List.length_set]

theorem siftHoleDown_mem (v : List MazeState) (hole bottom : Nat) (val y : MazeState)
    (hy : y ∈ (siftHoleDown v hole bottom val).1) : y ∈ v ∨ y = val := by
  generalize hn : bottom - hole = n
  induction n using Nat.strong_induction_on generalizing v hole with
  | _ n ih =>
    subst hn
    rw [siftHoleDown] at hy
    split at hy
    · next hlt =>
      split at hy
      · rcases ih (bottom - (2 * hole + 1)) (by omega) _ _ hy rfl with h1 | h1
        · rcases List.mem_or_eq_of_mem_set h1 with h2 | h2
          · exact Or.inl h2
          · rw [h2]; exact getD_mem_or_eq v _ val
        · exact Or.inr h1
      · rcases ih (bottom - (2 * hole + 2)) (by omega) _ _ hy rfl with h1 | h1
        · rcases List.mem_or_eq_of_mem_set h1 with h2 | h2
          · exact Or.inl h2
          · rw [h2]; exact getD_mem_or_eq v _ val
        · exact Or.inr h1
    · exact Or.inl hy

theorem siftHoleDown_length (v : List MazeState) (hole bottom : Nat) (val : MazeState) :
    (siftHoleDown v hole bottom val).1.length = v.length := by
  generalize hn : bottom - hole = n
  induction n using Nat.strong_induction_on generalizing v hole with
  | _ n ih =>
    subst hn
    rw [siftHoleDown]
    split
    · next hlt =>
      split
      · rw [ih (bottom - (2 * hole + 1)) (by omega) _ _ rfl, List.length_set]
      · rw [ih (bottom - (2 * hole + 2)) (by omega) _ _ rfl, List.length_set]
    · rfl

theorem popHeapHoleByIndex_mem (v : List MazeState) (hole bottom : Nat) (val y : MazeState)
    (hy : y ∈ popHeapHoleByIndex v hole bottom val) : y ∈ v ∨ y = val := by
  unfold popHeapHoleByIndex at hy
  simp only [] at hy
  split at hy
  · rcases pushHeapByIndex_mem _ _ _ _ hy with h1 | h1
    · rcases List.mem_or_eq_of_mem_set h1 with h2 | h2
      · exact siftHoleDown_mem v hole bottom val y h2
      · rw [h2]
        rcases getD_mem_or_eq (siftHoleDown v hole bottom val).1 (bottom - 1) val with h3 | h3
        · exact siftHoleDown_mem v hole bottom val _ h3
        · exact Or.inr h3
    · exact Or.inr h1
  · rcases pushHeapByIndex_mem _ _ _ _ hy with h1 | h1
    · exact siftHoleDown_mem v hole bottom val y h1
    · exact Or.inr h1

theorem popHeapHoleByIndex_length (v : List MazeState) (hole bottom : Nat) (val : MazeState) :
    (popHeapHoleByIndex v hole bottom val).length = v.length := by
  unfold popHeapHoleByIndex
  simp only []
  split
  · rw [pushHeapByIndex_length, List.length_set, siftHoleDown_length]
  · rw [pushHeapByIndex_length, siftHoleDown_length]

namespace PriorityQueue

theorem mem_of_top (q : PriorityQueue) (r : MazeState) (h : top q = some r) : r ∈ q :=
  List.mem_of_mem_head? h

theorem top_ne_none (q : PriorityQueue) (h : q ≠ []) : ∃ r, top q = some r := by
  cases q with
  | nil => exact absurd rfl h
  | cons a l => exact ⟨a, rfl⟩

theorem mem_push (q : PriorityQueue) (x y : MazeState) (hy : y ∈ push q x) :
    y ∈ q ∨ y = x := by
  unfold push at hy
  rcases pushHeapByIndex_mem _ _ _ _ hy with h | h
  · rcases List.mem_append.mp h with h1 | h1
    · exact Or.inl h1
    · exact Or.inr (List.mem_singleton.mp h1)
  · exact Or.inr h

theorem length_push (q : PriorityQueue) (x : MazeState) :
    (push q x).length = q.length + 1 := by
  unfold push
  rw [pushHeapByIndex_length, List.length_append, List.length_singleton]

theorem mem_pop (q : PriorityQueue) (y : MazeState) (hy : y ∈ pop q) : y ∈ q := by
  unfold pop at hy
  split at hy
  · simp at hy
  · next last hlast =>
    have hl : last ∈ q := List.mem_of_mem_getLast? hlast
    split at hy
    · rcases popHeapHoleByIndex_mem _ _ _ _ _ hy with h | h
      · exact List.mem_of_mem_dropLast h
      · rw [h]; exact hl
    · exact List.mem_of_mem_dropLast hy

theorem length_pop (q : PriorityQueue) : (pop q).length = q.length - 1 := by
  unfold pop
  split
  · next h => rw [List.getLast?_eq_none_iff.mp h]; rfl
  · split
    · rw [popHeapHoleByIndex_length, List.length_dropLast]
    · rw [List.length_dropLast]

end PriorityQueue

end CollectNum

namespace CollectNum

/-! ## Frontier expansion -/

theorem PriorityQueue.push_nil (x : MazeState) : PriorityQueue.push [] x = [x] := by
  unfold PriorityQueue.push
  rw [pushHeapByIndex]
  simp

theorem nextState_first_action (t : Nat) (p : MazeState) (a : Int) :
    (nextState t p a).first_action_ = if t = 0 then a else p.first_action_ := by
  unfold nextState
  simp only []
  split
  · rfl
  · exact advance_first_action p a

theorem nextState_turn (t : Nat) (p : MazeState) (a : Int) :
    (nextState t p a).turn_ = p.turn_ + 1 := by
  unfold nextState
  simp only []
  split <;> exact advance_turn p a

theorem nextState_character (t : Nat) (p : MazeState) (a : Int) :
    (nextState t p a).character_ = (advance p a).character_ := by
  unfold nextState
  simp only []
  split <;> rfl

theorem nextState_evaluated_score (t : Nat) (p : MazeState) (a : Int) :
    (nextState t p a).evaluated_score_ = (advance p a).game_score_ := by
  unfold nextState
  simp only []
  split <;> rfl

theorem nextState_game_score (t : Nat) (p : MazeState) (a : Int) :
    (nextState t p a).game_score_ = (advance p a).game_score_ := by
  unfold nextState
  simp only []
  split <;> rfl

theorem nextState_points (t : Nat) (p : MazeState) (a : Int) :
    (nextState t p a).points_ = (advance p a).points_ := by
  unfold nextState
  simp only []
  split <;> rfl

theorem nextState_inBounds (c : Consts) (t : Nat) (p : MazeState) (a : Int)
    (ha : a ∈ legalActions c p) : agentInBounds c (nextState t p a) := by
  have h := advance_inBounds c p a ha
  unfold agentInBounds at h ⊢
  rw [nextState_character]
  exact h

/-- A grid with two rows or two columns leaves an in-bounds agent at least one legal action. -/
theorem legalActions_ne_nil (c : Consts) (hc : 2 ≤ c.H ∨ 2 ≤ c.W) (s : MazeState)
    (hb : agentInBounds c s) : legalActions c s ≠ [] := by
  obtain ⟨hy0, hy1, hx0, hx1⟩ := hb
  have key : ∃ a, a ∈ legalActions c s := by
    rcases hc with hc | hc
    · by_cases h : s.character_.y_ + 1 < c.H
      · refine ⟨2, (mem_legalActions c s 2).mpr ⟨by decide, ?_⟩⟩
        have e1 : dy 2 = 1 := by decide
        have e2 : dx 2 = 0 := by decide
        rw [e1, e2]
        exact ⟨by omega, h, by omega, by omega⟩
      · refine ⟨3, (mem_legalActions c s 3).mpr ⟨by decide, ?_⟩⟩
        have e1 : dy 3 = -1 := by decide
        have e2 : dx 3 = 0 := by decide
        rw [e1, e2]
        exact ⟨by omega, by omega, by omega, by omega⟩
    · by_cases h : s.character_.x_ + 1 < c.W
      · refine ⟨0, (mem_legalActions c s 0).mpr ⟨by decide, ?_⟩⟩
        have e1 : dy 0 = 0 := by decide
        have e2 : dx 0 = 1 := by decide
        rw [e1, e2]
        exact ⟨by omega, by omega, by omega, h⟩
      · refine ⟨1, (mem_legalActions c s 1).mpr ⟨by decide, ?_⟩⟩
        have e1 : dy 1 = 0 := by decide
        have e2 : dx 1 = -1 := by decide
        rw [e1, e2]
        exact ⟨by omega, by omega, by omega, by omega⟩
  obtain ⟨a, ha⟩ := key
  exact List.ne_nil_of_mem ha

theorem foldl_push_mem (f : Int → MazeState) (l : List Int) (q : PriorityQueue)
    (y : MazeState)
    (hy : y ∈ l.foldl (fun beam action => PriorityQueue.push beam (f action)) q) :
    y ∈ q ∨ ∃ a ∈ l, y = f a := by
  induction l generalizing q with
  | nil => exact Or.inl hy
  | cons a l ih =>
    rw [List.foldl_cons] at hy
    rcases ih _ hy with h | ⟨b, hb, hyb⟩
    · rcases PriorityQueue.mem_push q (f a) y h with h1 | h1
      · exact Or.inl h1
      · exact Or.inr ⟨a, List.mem_cons_self a l, h1⟩
    · exact Or.inr ⟨b, List.mem_cons_of_mem a hb, hyb⟩

theorem foldl_push_length (f : Int → MazeState) (l : List Int) (q : PriorityQueue) :
    (l.foldl (fun beam action => PriorityQueue.push beam (f action)) q).length =
      q.length + l.length := by
  induction l generalizing q with
  | nil => rfl
  | cons a l ih =>
    rw [List.foldl_cons, ih, PriorityQueue.length_push, List.length_cons]
    omega

theorem pushChildren_mem (c : Consts) (t : Nat) (p : MazeState) (next : PriorityQueue)
    (y : MazeState) (hy : y ∈ pushChildren c t p next) :
    y ∈ next ∨ ∃ a ∈ legalActions c p, y = nextState t p a :=
  foldl_push_mem (nextState t p) (legalActions c p) next y hy

theorem pushChildren_length (c : Consts) (t : Nat) (p : MazeState) (next : PriorityQueue) :
    (pushChildren c t p next).length = next.length + (legalActions c p).length :=
  foldl_push_length (nextState t p) (legalActions c p) next

/-- Every node of the next frontier was there before or is a child of a node of the current
frontier by one of its legal actions. -/
theorem expandBeam_mem (c : Consts) (t n : Nat) (now next : PriorityQueue) (y : MazeState)
    (hy : y ∈ expandBeam c t n now next) :
    y ∈ next ∨ ∃ p ∈ now, ∃ a ∈ legalActions c p, y = nextState t p a := by
  induction n generalizing now next with
  | zero => exact Or.inl hy
  | succ n ih =>
    unfold expandBeam at hy
    split at hy
    · exact Or.inl hy
    · next now_state htop =>
      rcases ih _ _ hy with h | ⟨p, hp, a, ha, hya⟩
      · rcases pushChildren_mem c t now_state next y h with h1 | ⟨a, ha, hya⟩
        · exact Or.inl h1
        · exact Or.inr ⟨now_state, PriorityQueue.mem_of_top now now_state htop, a, ha, hya⟩
      · exact Or.inr ⟨p, PriorityQueue.mem_pop now p hp, a, ha, hya⟩

theorem expandBeam_length_le (c : Consts) (t n : Nat) (now next : PriorityQueue) :
    next.length ≤ (expandBeam c t n now next).length := by
  induction n generalizing now next with
  | zero => exact le_refl _
  | succ n ih =>
    unfold expandBeam
    split
    · exact le_refl _
    · next now_state htop =>
      refine le_trans ?_ (ih _ _)
      rw [pushChildren_length]
      omega

/-- A non-empty frontier whose nodes all have a legal action has a non-empty successor as soon
as the beam width is positive. -/
theorem expandBeam_ne_nil (c : Consts) (t n : Nat) (now next : PriorityQueue)
    (hn : 0 < n) (hnow : now ≠ []) (hlegal : ∀ p ∈ now, legalActions c p ≠ []) :
    expandBeam c t n now next ≠ [] := by
  obtain ⟨m, rfl⟩ : ∃ m, n = m + 1 := ⟨n - 1, by omega⟩
  obtain ⟨r, hr⟩ := PriorityQueue.top_ne_none now hnow
  unfold expandBeam
  rw [hr]
  simp only []
  have h1 := expandBeam_length_le c t m (PriorityQueue.pop now) (pushChildren c t r next)
  rw [pushChildren_length] at h1
  have h2 : 0 < (legalActions c r).length :=
    List.length_pos.mpr (hlegal r (PriorityQueue.mem_of_top now r hr))
  exact List.ne_nil_of_length_pos (by omega)

theorem frontierInv_expand (c : Consts) (root : MazeState) (t n : Nat) (now : PriorityQueue)
    (hinv : ∀ y ∈ now, frontierInv c root t y) :
    ∀ y ∈ expandBeam c t n now [], frontierInv c root (t + 1) y := by
  intro y hy
  rcases expandBeam_mem c t n now [] y hy with h | ⟨p, hp, a, ha, rfl⟩
  · simp at h
  · obtain ⟨hb, hf⟩ := hinv p hp
    refine ⟨nextState_inBounds c t p a ha, ?_⟩
    rw [if_neg (Nat.succ_ne_zero t), nextState_first_action]
    split
    · next h0 => rw [if_pos h0] at hf; rw [← hf]; exact ha
    · next h0 => rw [if_neg h0] at hf; exact hf

theorem beamLoop_first_action (c : Consts) (hc : 2 ≤ c.H ∨ 2 ≤ c.W) (root : MazeState)
    (beam_width : Nat) (hw : 0 < beam_width) (d t : Nat) (now : PriorityQueue)
    (best : MazeState) (hnow : now ≠ []) (hinv : ∀ y ∈ now, frontierInv c root t y)
    (hbest : d = 0 → best.first_action_ ∈ legalActions c root) :
    ∃ r, beamLoop c beam_width d t now best = some r ∧
      r.first_action_ ∈ legalActions c root := by
  induction d generalizing t now best with
  | zero => exact ⟨best, rfl, hbest rfl⟩
  | succ d ih =>
    have hne := expandBeam_ne_nil c t beam_width now [] hw hnow
      (fun p hp => legalActions_ne_nil c hc p (hinv p hp).1)
    have hinv1 := frontierInv_expand c root t beam_width now hinv
    obtain ⟨b, hb⟩ := PriorityQueue.top_ne_none _ hne
    have hbinv := hinv1 b (PriorityQueue.mem_of_top _ b hb)
    have hbf : b.first_action_ ∈ legalActions c root := by
      have := hbinv.2
      rw [if_neg (Nat.succ_ne_zero t)] at this
      exact this
    unfold beamLoop
    simp only [hb]
    split
    · exact ⟨b, rfl, hbf⟩
    · exact ih (t + 1) _ b hne hinv1 (fun _ => hbf)

end CollectNum

namespace CollectNum

theorem beamConsts_dims : 2 ≤ beamConsts.H ∨ 2 ≤ beamConsts.W := by
  left; decide

theorem frontierInv_root (c : Consts) (root : MazeState) (hb : agentInBounds c root) :
    ∀ y ∈ PriorityQueue.push [] root, frontierInv c root 0 y := by
  intro y hy
  rw [PriorityQueue.push_nil, List.mem_singleton] at hy
  subst hy
  exact ⟨hb, by rw [if_pos rfl]⟩

/-- C4: on the 30 x 30 grid, for a root with the agent in bounds, `beam_width ≥ 1` and
`beam_depth ≥ 1`, `beamSearchAction` returns an element of the root's `legalActions()`, never
the sentinel `-1`: a node created at depth level 0 records its action as `first_action_`, and a
node created at a later level inherits the `first_action_` of its parent. -/
theorem beamSearchAction_legal (s : MazeState) (beam_width beam_depth : Nat)
    (hb : agentInBounds beamConsts s) (hw : 1 ≤ beam_width) (hd : 1 ≤ beam_depth) :
    (∃ a, beamSearchAction beamConsts s beam_width beam_depth = some a ∧
      a ∈ legalActions beamConsts s ∧ a ≠ -1) ∧
    (∀ (p : MazeState) (a : Int), (nextState 0 p a).first_action_ = a) ∧
    (∀ (t : Nat) (p : MazeState) (a : Int), t ≠ 0 →
      (nextState t p a).first_action_ = p.first_action_) := by
  refine ⟨?_, ?_, ?_⟩
  · obtain ⟨r, hr, hmem⟩ := beamLoop_first_action beamConsts beamConsts_dims s beam_width hw
      beam_depth 0 (PriorityQueue.push [] s) defaultState
      (by rw [PriorityQueue.push_nil]; exact List.cons_ne_nil _ _)
      (frontierInv_root beamConsts s hb) (fun h => by omega)
    refine ⟨r.first_action_, ?_, hmem, ?_⟩
    · unfold beamSearchAction
      rw [hr]
      rfl
    · intro h
      have := ((mem_legalActions beamConsts s _).mp hmem).1.1
      omega
  · intro p a
    rw [nextState_first_action, if_pos rfl]
  · intro t p a ht
    rw [nextState_first_action, if_neg ht]

/-- Instance of C4 at `sampleState` with beam width 2 and beam depth 3. -/
theorem beamSearchAction_legal_witness :
    (∃ a, beamSearchAction beamConsts sampleState 2 3 = some a ∧
      a ∈ legalActions beamConsts sampleState ∧ a ≠ -1) ∧
    (∀ (p : MazeState) (a : Int), (nextState 0 p a).first_action_ = a) ∧
    (∀ (t : Nat) (p : MazeState) (a : Int), t ≠ 0 →
      (nextState t p a).first_action_ = p.first_action_) :=
  beamSearchAction_legal sampleState 2 3 sampleState_inBounds (by decide) (by decide)

end CollectNum

namespace CollectNum

/-! ## The priority queue: which element is on top after a push -/

theorem head?_set_pos (v : List MazeState) (n : Nat) (x : MazeState) (hn : 0 < n) :
    (v.set n x).head? = v.head? := by
  cases v with
  | nil => rfl
  | cons a l =>
    cases n with
    | zero => omega
    | succ n => rfl

theorem getD_set_ne (v : List MazeState) (n i : Nat) (x d : MazeState) (h : n ≠ i) :
    (v.set n x).getD i d = v.getD i d := by
  rw [List.getD_eq_getElem?_getD, List.getD_eq_getElem?_getD, List.getElem?_set_ne h]

/-- A value that is not larger than the front never reaches the front. -/
theorem pushHeapByIndex_head_keep (v : List MazeState) (hole : Nat) (val : MazeState)
    (hpos : 0 < hole) (hle : lt (v.getD 0 val) val = false) :
    (pushHeapByIndex v hole val).head? = v.head? := by
  induction hole using Nat.strong_induction_on generalizing v with
  | _ hole ih =>
    rw [pushHeapByIndex]
    rw [dif_pos hpos]
    split
    · next hlt =>
      have hp : 0 < (hole - 1) / 2 := by
        rcases Nat.eq_zero_or_pos ((hole - 1) / 2) with h0 | h0
        · rw [h0, hle] at hlt; exact absurd hlt (by decide)
        · exact h0
      rw [ih ((hole - 1) / 2) (by omega) _ hp]
      · exact head?_set_pos v hole _ hpos
      · rw [getD_set_ne v hole 0 _ val (by omega)]; exact hle
    · exact head?_set_pos v hole val hpos

/-- A value that is larger than every element before the hole ends at the front. -/
theorem pushHeapByIndex_head_new (v : List MazeState) (hole : Nat) (val : MazeState)
    (hlen : hole < v.length) (hall : ∀ i, i < hole → lt (v.getD i val) val = true) :
    (pushHeapByIndex v hole val).head? = some val := by
  induction hole using Nat.strong_induction_on generalizing v with
  | _ hole ih =>
    rw [pushHeapByIndex]
    split
    · next hpos =>
      rw [if_pos (hall ((hole - 1) / 2) (by omega))]
      apply ih ((hole - 1) / 2) (by omega)
      · rw [List.length_set]; omega
      · intro i hi
        rw [getD_set_ne v hole i _ val (by omega)]
        exact hall i (by omega)
    · next hpos =>
      have h0 : hole = 0 := by omega
      subst h0
      cases v with
      | nil => simp at hlen
      | cons a l => rfl

namespace PriorityQueue

/-- After `push(x)` the top is `x` when the queue was empty or its top was smaller than `x`,
and the former top otherwise. -/
theorem top_push (q : PriorityQueue) (x : MazeState) (hq : rootMax q) :
    top (push q x) =
      some (match top q with
        | none => x
        | some r => if lt r x then x else r) := by
  cases q with
  | nil => rw [push_nil]; rfl
  | cons r l =>
    have htop : top (r :: l) = some r := rfl
    rw [htop]
    simp only []
    unfold push top
    by_cases hlt : lt r x = true
    · rw [if_pos hlt]
      apply pushHeapByIndex_head_new
      · simp
      · intro i hi
        have hi2 : i < (r :: l ++ [x]).length := by
          rw [List.length_append]; omega
        rw [List.getD_eq_getElem _ x hi2, List.getElem_append_left hi]
        have hle := hq r htop _ (List.getElem_mem hi)
        unfold lt at hlt ⊢
        rw [decide_eq_true_eq] at hlt ⊢
        omega
    · rw [if_neg hlt]
      rw [pushHeapByIndex_head_keep]
      · rfl
      · simp
      · have : (r :: l ++ [x]).getD 0 x = r := rfl
        rw [this]
        simpa using hlt

theorem rootMax_push (q : PriorityQueue) (x : MazeState) (hq : rootMax q) :
    rootMax (push q x) := by
  intro r1 hr1 y hy
  rw [top_push q x hq] at hr1
  have hyx := mem_push q x y hy
  cases q with
  | nil =>
    simp only [top, List.head?_nil, Option.some.injEq] at hr1
    subst hr1
    rcases hyx with h | h
    · simp at h
    · rw [h]
  | cons r l =>
    have htop : top (r :: l) = some r := rfl
    simp only [htop, Option.some.injEq] at hr1
    by_cases hlt : lt r x = true
    · rw [if_pos hlt] at hr1
      subst hr1
      rcases hyx with h | h
      · have := hq r htop y h
        unfold lt at hlt
        rw [decide_eq_true_eq] at hlt
        omega
      · rw [h]
    · rw [if_neg hlt] at hr1
      subst hr1
      rcases hyx with h | h
      · exact hq r htop y h
      · rw [h]
        unfold lt at hlt
        rw [decide_eq_true_eq] at hlt
        omega

end PriorityQueue

theorem rootMax_singleton (x : MazeState) : rootMax [x] := by
  intro r hr y hy
  simp only [PriorityQueue.top, List.head?_cons, Option.some.injEq] at hr
  rw [List.mem_singleton] at hy
  rw [hy, hr]

/-- Pushing the children of `state` at depth level 0 keeps on top the node that the loop of
`greedyAction` would have kept as `(best_score, best_action)`. -/
theorem top_foldl_push_greedy (state : MazeState) (l : List Int) (q : PriorityQueue)
    (r0 : MazeState) (hq : rootMax q) (htop : PriorityQueue.top q = some r0) :
    ∃ r, PriorityQueue.top
        (l.foldl (fun beam action => PriorityQueue.push beam (nextState 0 state action)) q) =
          some r ∧
      (r.evaluated_score_, r.first_action_) =
        l.foldl (greedyStep state) (r0.evaluated_score_, r0.first_action_) := by
  induction l generalizing q r0 with
  | nil => exact ⟨r0, htop, rfl⟩
  | cons a l ih =>
    rw [List.foldl_cons, List.foldl_cons]
    have h1 := PriorityQueue.top_push q (nextState 0 state a) hq
    rw [htop] at h1
    simp only [] at h1
    have h2 := PriorityQueue.rootMax_push q (nextState 0 state a) hq
    obtain ⟨r, hr, hpair⟩ := ih _ _ h2 h1
    refine ⟨r, hr, ?_⟩
    rw [hpair, greedyStep_eq]
    congr 1
    unfold lt
    rw [nextState_evaluated_score]
    by_cases h : r0.evaluated_score_ < (advance state a).game_score_
    · have hd : decide (r0.evaluated_score_ < (advance state a).game_score_) = true :=
        decide_eq_true h
      rw [if_pos hd, if_pos h, nextState_evaluated_score, nextState_first_action, if_pos rfl]
    · have hd : ¬ decide (r0.evaluated_score_ < (advance state a).game_score_) = true := by
        simpa using h
      rw [if_neg hd, if_neg h]

/-- With width 1 and depth 1 the frontier after the only exchange holds the children of the
root, and the reported node is its top. -/
theorem beamLoop_one_one (c : Consts) (s : MazeState) (best : MazeState) :
    beamLoop c 1 1 0 (PriorityQueue.push [] s) best =
      PriorityQueue.top (pushChildren c 0 s []) := by
  rw [PriorityQueue.push_nil]
  unfold beamLoop
  simp only []
  have h1 : expandBeam c 0 1 [s] [] = pushChildren c 0 s [] := by
    unfold expandBeam
    simp only [PriorityQueue.top, List.head?_cons]
    unfold expandBeam
    rfl
  rw [h1]
  cases h : PriorityQueue.top (pushChildren c 0 s []) with
  | none => rfl
  | some b =>
    simp only []
    split
    · rfl
    · unfold beamLoop; rfl

/-- With width 1 and depth 1 the search reports the action the loop of `greedyAction` would keep
when started at the first legal action instead of `(-INF, -1)`. -/
theorem beamSearchAction_one_one_fold (c : Consts) (s : MazeState) (a : Int) (l : List Int)
    (hla : legalActions c s = a :: l) :
    beamSearchAction c s 1 1 =
      some (l.foldl (greedyStep s) ((advance s a).game_score_, a)).2 := by
  unfold beamSearchAction
  rw [beamLoop_one_one]
  unfold pushChildren
  rw [hla, List.foldl_cons, PriorityQueue.push_nil]
  obtain ⟨r, hr, hpair⟩ := top_foldl_push_greedy s l [nextState 0 s a] (nextState 0 s a)
    (rootMax_singleton _) rfl
  rw [hr]
  rw [nextState_evaluated_score, nextState_first_action, if_pos rfl] at hpair
  rw [← hpair]
  rfl

theorem beamSearchAction_one_one (c : Consts) (s : MazeState)
    (hex : ∃ a ∈ legalActions c s, -INF < (advance s a).game_score_) :
    beamSearchAction c s 1 1 = some (greedyAction c s) := by
  cases hla : legalActions c s with
  | nil =>
    obtain ⟨a, ha, _⟩ := hex
    rw [hla] at ha
    simp at ha
  | cons a l =>
    rw [beamSearchAction_one_one_fold c s a l hla]
    unfold greedyAction
    rw [hla, List.foldl_cons, greedyStep_eq]
    by_cases h : (advance s a).game_score_ > (-INF, (-1 : Int)).1
    · rw [if_pos h]
    · rw [if_neg h]
      have hle : (advance s a).game_score_ ≤ -INF := not_lt.mp h
      have hex2 : ∃ b ∈ l, -INF < (advance s b).game_score_ := by
        obtain ⟨b, hb, hlt⟩ := hex
        rw [hla] at hb
        rcases List.mem_cons.mp hb with rfl | hb
        · exact absurd hlt (not_lt.mpr hle)
        · exact ⟨b, hb, hlt⟩
      rw [greedyFold_start_irrelevant s l (-INF) (-1) (advance s a).game_score_ a hle hex2]

/-- C5 (as amended): on the 30 x 30 grid, with the agent in bounds, a non-negative grid,
`game_score_ ≥ 0` and at least one legal action whose destination value added to `game_score_`
does not exceed `INT_MAX` (the 32-bit addition of that move does not wrap),
`beamSearchAction(state, 1, 1)` returns the action `greedyAction(state)` returns, ties included:
the binary max-heap keeps the first-pushed node of maximal `evaluated_score_` on top, as the
strict `>` of `greedyAction` keeps the first-seen action. -/
theorem beamSearchAction_one_one_eq_greedy (s : MazeState)
    (_hb : agentInBounds beamConsts s) (hg : nonNegGrid beamConsts s)
    (hs : 0 ≤ s.game_score_)
    (hfit : ∃ a ∈ legalActions beamConsts s,
      s.game_score_ + s.points_ (s.character_.y_ + dy a) (s.character_.x_ + dx a) ≤ INT_MAX) :
    beamSearchAction beamConsts s 1 1 = some (greedyAction beamConsts s) :=
  beamSearchAction_one_one beamConsts s (exists_child_above beamConsts s hg hs hfit)

/-- Instance of C5 at `sampleState`, where the four legal actions tie at the score 1 and both
policies return the first of them. -/
theorem beamSearchAction_one_one_eq_greedy_witness :
    (∀ a ∈ legalActions beamConsts sampleState, (advance sampleState a).game_score_ = 1) ∧
    greedyAction beamConsts sampleState = 0 ∧
    beamSearchAction beamConsts sampleState 1 1 = some (greedyAction beamConsts sampleState) :=
  ⟨by rw [sampleState_legal]; decide, by decide,
    beamSearchAction_one_one_eq_greedy sampleState sampleState_inBounds
      (sampleState_nonNeg beamConsts) (by decide)
      ⟨0, by rw [sampleState_legal]; decide, by decide⟩⟩

/-- C5 (as stated) fails at `overflowState`, a state of the 30 x 30 grid with the agent in
bounds at `(1, 1)`, every cell holding `1` and `game_score_ = 2147483647`: every move wraps the
32-bit score to `-2147483648`; `beamSearchAction(state, 1, 1)` returns the first legal action
`0`, the top of the heap, while `greedyAction(state)` returns `-1`. -/
theorem beamSearchAction_one_one_ne_greedy_on_overflow :
    agentInBounds beamConsts overflowState ∧ nonNegGrid beamConsts overflowState ∧
    0 ≤ overflowState.game_score_ ∧
    beamSearchAction beamConsts overflowState 1 1 = some 0 ∧
    greedyAction beamConsts overflowState = -1 ∧
    beamSearchAction beamConsts overflowState 1 1 ≠
      some (greedyAction beamConsts overflowState) := by
  have hbeam : beamSearchAction beamConsts overflowState 1 1 = some 0 := by
    rw [beamSearchAction_one_one_fold beamConsts overflowState 0 [1, 2, 3] overflowState_legal]
    decide
  have hgreedy : greedyAction beamConsts overflowState = -1 := by decide
  refine ⟨overflowState_inBounds, overflowState_nonNeg beamConsts, by decide, hbeam, hgreedy, ?_⟩
  rw [hbeam, hgreedy]
  decide

end CollectNum

namespace CollectNum

/-! ## Deadline-bounded beam search -/

/-- With a budget of `0` ms the first poll of `isTimeOver()` answers true. -/
theorem isTimeOver_zero (elapsed : Nat → Nat) (poll : Nat) : isTimeOver 0 elapsed poll = true := by
  unfold isTimeOver
  rw [decide_eq_true_eq]
  exact Int.ofNat_nonneg _

/-- When the first poll answers true, the deadline-bounded search returns the `first_action_`
of the default-constructed `best_state`, the sentinel `-1`, whatever the root is. -/
theorem timed_first_poll_true (c : Consts) (fuel : Nat) (timeOver : Nat → Bool)
    (s : MazeState) (beam_width : Nat) (h0 : timeOver 0 = true) :
    beamSearchActionWithTimeThreshold c (fuel + 1) timeOver s (beam_width + 1) = some (-1) := by
  unfold beamSearchActionWithTimeThreshold timedLoop expandBeamTimed
  rw [if_pos h0]
  rfl

/-- C6 (evaluation of the code): with a time budget of 0 ms, beam width 5 and the root
`sampleState`, which has the four legal actions `0, 1, 2, 3`, the deadline-bounded search
returns `-1`, which is not a legal action, whatever the clock shows. -/
theorem timed_zero_budget_returns_sentinel :
    legalActions beamConsts sampleState = [0, 1, 2, 3] ∧
    (∀ (elapsed : Nat → Nat) (fuel : Nat),
      beamSearchActionWithTimeThreshold beamConsts (fuel + 1) (isTimeOver 0 elapsed)
        sampleState 5 = some (-1)) ∧
    (-1 : Int) ∉ legalActions beamConsts sampleState :=
  ⟨sampleState_legal,
    fun elapsed fuel =>
      timed_first_poll_true beamConsts fuel (isTimeOver 0 elapsed) sampleState 4
        (isTimeOver_zero elapsed 0),
    by rw [sampleState_legal]; decide⟩

theorem expandBeamTimed_never_over (c : Consts) (timeOver : Nat → Bool)
    (hover : ∀ k, timeOver k = false) (t n polls : Nat) (now next : PriorityQueue) :
    ∃ polls1, expandBeamTimed c timeOver t n polls now next =
      some (expandBeam c t n now next, polls1) := by
  induction n generalizing polls now next with
  | zero => exact ⟨polls, rfl⟩
  | succ n ih =>
    unfold expandBeamTimed expandBeam
    rw [hover polls]
    simp only [Bool.false_eq_true, if_false]
    cases PriorityQueue.top now with
    | none => exact ⟨polls + 1, rfl⟩
    | some now_state => exact ih _ _ _

/-- The nodes of the next frontier are in bounds and one turn later than those of the current
frontier. -/
theorem expandBeam_turn (c : Consts) (t n : Nat) (now : PriorityQueue) (T : Int)
    (h : ∀ y ∈ now, agentInBounds c y ∧ y.turn_ = T) :
    ∀ y ∈ expandBeam c t n now [], agentInBounds c y ∧ y.turn_ = T + 1 := by
  intro y hy
  rcases expandBeam_mem c t n now [] y hy with h1 | ⟨p, hp, a, ha, rfl⟩
  · simp at h1
  · exact ⟨nextState_inBounds c t p a ha, by rw [nextState_turn, (h p hp).2]⟩

/-- When no poll answers true and the depth budget reaches the end of the episode, both loops
stop at the same frontier, the first one whose best node `isDone()`, with the same node. -/
theorem timedLoop_eq_beamLoop (c : Consts) (hc : 2 ≤ c.H ∨ 2 ≤ c.W) (timeOver : Nat → Bool)
    (hover : ∀ k, timeOver k = false) (beam_width : Nat) (hw : 0 < beam_width)
    (fuel d t polls : Nat) (now : PriorityQueue) (best1 best2 : MazeState) (T : Int)
    (hnow : now ≠ []) (hinv : ∀ y ∈ now, agentInBounds c y ∧ y.turn_ = T)
    (hT : T < c.END_TURN) (hfuel : c.END_TURN - T ≤ fuel) (hd : c.END_TURN - T ≤ d) :
    timedLoop c timeOver beam_width fuel t polls now best1 =
        beamLoop c beam_width d t now best2 ∧
    ∃ r, beamLoop c beam_width d t now best2 = some r := by
  induction fuel generalizing d t polls now best1 best2 T with
  | zero => exfalso; simp at hfuel; omega
  | succ fuel ih =>
    obtain ⟨d, rfl⟩ : ∃ d1, d = d1 + 1 := ⟨d - 1, by omega⟩
    obtain ⟨polls1, hex⟩ := expandBeamTimed_never_over c timeOver hover t beam_width polls now []
    have hne := expandBeam_ne_nil c t beam_width now [] hw hnow
      (fun p hp => legalActions_ne_nil c hc p (hinv p hp).1)
    have hinv1 := expandBeam_turn c t beam_width now T hinv
    obtain ⟨b, hb⟩ := PriorityQueue.top_ne_none _ hne
    have hbt := (hinv1 b (PriorityQueue.mem_of_top _ b hb)).2
    unfold timedLoop beamLoop
    simp only [hex, hb]
    by_cases hdone : isDone c b = true
    · rw [if_pos hdone, if_pos hdone]
      exact ⟨rfl, b, rfl⟩
    · rw [if_neg hdone, if_neg hdone]
      have hT1 : T + 1 < c.END_TURN := by
        have : ¬ b.turn_ = c.END_TURN := by
          intro h
          apply hdone
          unfold isDone
          rw [h]
          exact beq_self_eq_true _
        omega
      exact ih d (t + 1) polls1 _ b b (T + 1) hne hinv1 hT1
        (by push_cast at hfuel ⊢; omega) (by push_cast at hd ⊢; omega)

/-- C7: on the 30 x 30 grid, for a root with the agent in bounds and `turn_ < END_TURN` and
`beam_width ≥ 1`, when `isTimeOver()` answers false at every poll the deadline-bounded search
returns an action (given fuel for `END_TURN - turn_` depth levels), and it is the action
`beamSearchAction` returns for every `beam_depth ≥ END_TURN - turn_`. -/
theorem timed_never_over_eq_fixed (s : MazeState) (timeOver : Nat → Bool)
    (beam_width beam_depth fuel : Nat)
    (hb : agentInBounds beamConsts s) (ht : s.turn_ < beamConsts.END_TURN)
    (hw : 1 ≤ beam_width) (hover : ∀ k, timeOver k = false)
    (hd : beamConsts.END_TURN - s.turn_ ≤ beam_depth)
    (hfuel : beamConsts.END_TURN - s.turn_ ≤ fuel) :
    beamSearchActionWithTimeThreshold beamConsts fuel timeOver s beam_width =
        beamSearchAction beamConsts s beam_width beam_depth ∧
    ∃ a, beamSearchAction beamConsts s beam_width beam_depth = some a := by
  have hinv : ∀ y ∈ PriorityQueue.push [] s, agentInBounds beamConsts y ∧ y.turn_ = s.turn_ := by
    intro y hy
    rw [PriorityQueue.push_nil, List.mem_singleton] at hy
    subst hy
    exact ⟨hb, rfl⟩
  obtain ⟨heq, r, hr⟩ := timedLoop_eq_beamLoop beamConsts beamConsts_dims timeOver hover
    beam_width hw fuel beam_depth 0 0 (PriorityQueue.push [] s) defaultState defaultState
    s.turn_ (by rw [PriorityQueue.push_nil]; exact List.cons_ne_nil _ _) hinv ht hfuel hd
  unfold beamSearchActionWithTimeThreshold beamSearchAction
  rw [heq, hr]
  exact ⟨rfl, r.first_action_, rfl⟩

/-- Instance of C7 at `sampleState` (turn 0) with beam width 2, beam depth 100 and a time
keeper that never answers true. -/
theorem timed_never_over_eq_fixed_witness :
    beamSearchActionWithTimeThreshold beamConsts 100 (fun _ => false) sampleState 2 =
        beamSearchAction beamConsts sampleState 2 100 ∧
    ∃ a, beamSearchAction beamConsts sampleState 2 100 = some a :=
  timed_never_over_eq_fixed sampleState (fun _ => false) 2 100 100 sampleState_inBounds
    (by decide) (by decide) (fun _ => rfl) (by decide) (by decide)

end CollectNum

namespace CollectNum

/-! ## Score of a sequence of moves -/

theorem run_cons (s : MazeState) (a : Int) (rest : List Int) :
    run s (a :: rest) = run (advance s a) rest := rfl

theorem run_append_singleton (s : MazeState) (pre : List Int) (a : Int) :
    run s (pre ++ [a]) = advance (run s pre) a := by
  unfold run
  rw [List.foldl_append]
  rfl

/-- Changing a summand to zero at one point lowers a finite sum by the former summand when the
point belongs to the index set. -/
theorem sum_zeroed_at (S : Finset (Int × Int)) (f g : Int × Int → Int) (p : Int × Int)
    (hne : ∀ q, q ≠ p → g q = f q) (hp : g p = 0) :
    ∑ q in S, g q = ∑ q in S, f q - (if p ∈ S then f p else 0) := by
  by_cases h : p ∈ S
  · rw [if_pos h, ← Finset.add_sum_erase S g h, ← Finset.add_sum_erase S f h, hp]
    have : ∑ q in S.erase p, g q = ∑ q in S.erase p, f q :=
      Finset.sum_congr rfl (fun q hq => hne q (Finset.ne_of_mem_erase hq))
    rw [this]
    ring
  · rw [if_neg h, sub_zero]
    exact Finset.sum_congr rfl (fun q hq => hne q (fun hqp => h (hqp ▸ hq)))

/-- As long as the 32-bit score cannot wrap, the score gained over a sequence of moves is the
sum over the distinct cells entered of the positive part of the value of the cell at the
start. -/
theorem run_score_eq_sum (s : MazeState) (actions : List Int)
    (hmin : INT_MIN ≤ s.game_score_)
    (hmax : s.game_score_ + ∑ p in (path s actions).toFinset, max (s.points_ p.1 p.2) 0 ≤
      INT_MAX) :
    (run s actions).game_score_ - s.game_score_ =
      ∑ p in (path s actions).toFinset, max (s.points_ p.1 p.2) 0 := by
  induction actions generalizing s with
  | nil => simp [run, path]
  | cons a rest ih =>
    rw [run_cons]
    have hsum : ∑ p in (path (advance s a) rest).toFinset,
          max ((advance s a).points_ p.1 p.2) 0 =
        ∑ p in (path (advance s a) rest).toFinset, max (s.points_ p.1 p.2) 0 -
          (if ((advance s a).character_.y_, (advance s a).character_.x_) ∈
              (path (advance s a) rest).toFinset
            then max (s.points_ (advance s a).character_.y_ (advance s a).character_.x_) 0
            else 0) :=
      sum_zeroed_at (path (advance s a) rest).toFinset
        (fun p => max (s.points_ p.1 p.2) 0)
        (fun p => max ((advance s a).points_ p.1 p.2) 0)
        ((advance s a).character_.y_, (advance s a).character_.x_)
        (by
          intro q hq
          simp only []
          rw [advance_points, if_neg]
          rintro ⟨hy, hx⟩
          apply hq
          rw [advance_y, advance_x, ← hy, ← hx])
        (by
          simp only []
          rw [advance_points, advance_y, advance_x, if_pos ⟨rfl, rfl⟩]
          exact max_eq_right (min_le_right _ _))
    have hpath : path s (a :: rest) =
        ((advance s a).character_.y_, (advance s a).character_.x_) ::
          path (advance s a) rest := rfl
    rw [hpath, List.toFinset_cons] at hmax ⊢
    have hnonneg : (0 : Int) ≤
        ∑ p in (path (advance s a) rest).toFinset, max (s.points_ p.1 p.2) 0 :=
      Finset.sum_nonneg (fun p _ => le_max_right _ _)
    have hv : (0 : Int) ≤ max (s.points_ (s.character_.y_ + dy a) (s.character_.x_ + dx a)) 0 :=
      le_max_right _ _
    by_cases hmem : ((advance s a).character_.y_, (advance s a).character_.x_) ∈
        (path (advance s a) rest).toFinset
    · rw [Finset.insert_eq_of_mem hmem] at hmax ⊢
      rw [if_pos hmem] at hsum
      have hsingle : max (s.points_ (advance s a).character_.y_ (advance s a).character_.x_) 0 ≤
          ∑ p in (path (advance s a) rest).toFinset, max (s.points_ p.1 p.2) 0 :=
        Finset.single_le_sum (f := fun p : Int × Int => max (s.points_ p.1 p.2) 0)
          (fun p _ => le_max_right _ _) hmem
      simp only [advance_y, advance_x] at hsum hsingle
      have hgain := advance_game_score_of_fits s a hmin (by omega)
      have h1 := ih (advance s a) (by omega) (by omega)
      omega
    · rw [Finset.sum_insert hmem] at hmax ⊢
      rw [if_neg hmem] at hsum
      simp only [advance_y, advance_x] at hmax ⊢
      have hgain := advance_game_score_of_fits s a hmin (by omega)
      have h1 := ih (advance s a) (by omega) (by omega)
      omega

theorem path_inGrid (c : Consts) (s : MazeState) (actions : List Int)
    (hl : legalSeq c s actions) : ∀ p ∈ path s actions, inGrid c p.1 p.2 := by
  induction actions generalizing s with
  | nil => intro p hp; simp [path] at hp
  | cons a rest ih =>
    intro p hp
    obtain ⟨ha, hrest⟩ := hl
    rcases List.mem_cons.mp hp with h | h
    · rw [h]
      exact advance_inBounds c s a ha
    · exact ih (advance s a) hrest p h

/-- C8 (as amended): for a state with the agent in bounds, a sequence of actions each legal
where it is applied, and a `game_score_` (a 32-bit `int`) that stays at most `INT_MAX` when the
sum below is added to it, the total increase of `game_score_` equals the sum, over the set of
distinct cells entered, of the positive value the cell held at the start (a cell holding no
positive value adds nothing, a cell entered several times counts once); on a non-negative grid
this is the sum of the values themselves. -/
theorem run_score_distinct_cells (c : Consts) (s : MazeState) (actions : List Int)
    (_hb : agentInBounds c s) (hl : legalSeq c s actions)
    (hmin : INT_MIN ≤ s.game_score_)
    (hmax : s.game_score_ + ∑ p in (path s actions).toFinset, max (s.points_ p.1 p.2) 0 ≤
      INT_MAX) :
    (run s actions).game_score_ - s.game_score_ =
        ∑ p in (path s actions).toFinset, max (s.points_ p.1 p.2) 0 ∧
    (nonNegGrid c s →
      (run s actions).game_score_ - s.game_score_ =
        ∑ p in (path s actions).toFinset, s.points_ p.1 p.2) := by
  refine ⟨run_score_eq_sum s actions hmin hmax, fun hg => ?_⟩
  rw [run_score_eq_sum s actions hmin hmax]
  apply Finset.sum_congr rfl
  intro p hp
  exact max_eq_left (hg p.1 p.2 (path_inGrid c s actions hl p (List.mem_toFinset.mp hp)))

end CollectNum

namespace CollectNum

/-- Instance of C8 at `sampleState` with the moves right, left, right, down: the cell `(1, 2)`
is entered twice, three distinct cells of value 1 are entered and the score grows by 3. -/
theorem run_score_distinct_cells_witness :
    (path sampleState [0, 1, 0, 2] = [(1, 2), (1, 1), (1, 2), (2, 2)] ∧
      (run sampleState [0, 1, 0, 2]).game_score_ - sampleState.game_score_ = 3) ∧
    (run sampleState [0, 1, 0, 2]).game_score_ - sampleState.game_score_ =
        ∑ p in (path sampleState [0, 1, 0, 2]).toFinset, max (sampleState.points_ p.1 p.2) 0 ∧
    (nonNegGrid beamConsts sampleState →
      (run sampleState [0, 1, 0, 2]).game_score_ - sampleState.game_score_ =
        ∑ p in (path sampleState [0, 1, 0, 2]).toFinset, sampleState.points_ p.1 p.2) :=
  ⟨⟨by decide, by decide⟩,
    run_score_distinct_cells beamConsts sampleState [0, 1, 0, 2] sampleState_inBounds
      (by decide) (by decide) (by decide)⟩

/-- C8 (as stated) fails at `overflowState`, a state of the 30 x 30 grid with the agent in
bounds at `(1, 1)`, every cell holding `1` and `game_score_ = 2147483647`: the single legal move
`0` enters the cell `(1, 2)`, whose value is `1`, but the 32-bit score wraps to `-2147483648`, so
the increase of `game_score_` is `-4294967295` and not the sum `1` over the cells entered. -/
theorem run_score_wraps :
    agentInBounds beamConsts overflowState ∧ legalSeq beamConsts overflowState [0] ∧
    path overflowState [0] = [(1, 2)] ∧
    ∑ p in (path overflowState [0]).toFinset, max (overflowState.points_ p.1 p.2) 0 = 1 ∧
    (run overflowState [0]).game_score_ - overflowState.game_score_ = -4294967295 ∧
    (run overflowState [0]).game_score_ - overflowState.game_score_ ≠
      ∑ p in (path overflowState [0]).toFinset, max (overflowState.points_ p.1 p.2) 0 := by
  have hp : path overflowState [0] = [(1, 2)] := by decide
  have hsum : ∑ p in (path overflowState [0]).toFinset,
      max (overflowState.points_ p.1 p.2) 0 = 1 := by
    rw [hp, List.toFinset_cons, List.toFinset_nil, insert_emptyc_eq, Finset.sum_singleton]
    decide
  have hgain : (run overflowState [0]).game_score_ - overflowState.game_score_ =
      -4294967295 := by decide
  refine ⟨overflowState_inBounds, by decide, hp, hsum, hgain, ?_⟩
  rw [hsum, hgain]
  decide

end CollectNum

namespace CollectNum

/-! ## Re-entering a cell -/

end CollectNum

namespace HeuristicGame

/-! ## `getScore` ends on every state with `turn_ ≤ END_TURN` -/

theorem setCharacter_turn (s : AutoMoveMazeState) (i : Fin CHARACTER_N) (y x : Int) :
    (setCharacter s i y x).turn_ = s.turn_ := rfl

theorem movePlayer_turn (s : AutoMoveMazeState) (i : Fin CHARACTER_N) :
    (movePlayer s i).turn_ = s.turn_ := rfl

theorem collect_turn (s : AutoMoveMazeState) (i : Fin CHARACTER_N) :
    (collect s i).turn_ = s.turn_ := rfl

theorem foldl_turn {ι : Type} (f : AutoMoveMazeState → ι → AutoMoveMazeState)
    (hf : ∀ s i, (f s i).turn_ = s.turn_) (l : List ι) (s : AutoMoveMazeState) :
    (l.foldl f s).turn_ = s.turn_ := by
  induction l generalizing s with
  | nil => rfl
  | cons a l ih => rw [List.foldl_cons, ih, hf]

/-- One auto-play step adds exactly one to `turn_`. -/
theorem autoAdvance_turn (s : AutoMoveMazeState) : (advance s).turn_ = s.turn_ + 1 := by
  unfold advance
  simp only []
  rw [foldl_turn collect collect_turn, foldl_turn movePlayer movePlayer_turn]

theorem clearStartCells_turn (s : AutoMoveMazeState) : (clearStartCells s).turn_ = s.turn_ := by
  unfold clearStartCells
  apply foldl_turn
  intro _ _
  rfl

theorem transition_turn (mt : Nat → Nat) (k : Nat) (s : AutoMoveMazeState) :
    (transition mt k s).1.turn_ = s.turn_ := rfl

theorem init_turn (mt : Nat → Nat) (k : Nat) (s : AutoMoveMazeState) :
    (init mt k s).1.turn_ = s.turn_ := by
  unfold init
  generalize List.finRange CHARACTER_N = l
  have key : ∀ (l : List (Fin CHARACTER_N)) (st : AutoMoveMazeState × Nat),
      (l.foldl (fun (st : AutoMoveMazeState × Nat) character_id =>
        (setCharacter st.1 character_id ((mt st.2 : Int) % H) ((mt (st.2 + 1) : Int) % W),
          st.2 + 2)) st).1.turn_ = st.1.turn_ := by
    intro l
    induction l with
    | nil => intro st; rfl
    | cons a l ih => intro st; rw [List.foldl_cons, ih]; rfl
  exact key l (s, k)

theorem getScoreLoop_some (fuel : Nat) (s : AutoMoveMazeState)
    (h : s.turn_ + fuel = END_TURN) : ∃ r, getScoreLoop fuel s = some r := by
  induction fuel generalizing s with
  | zero =>
    refine ⟨s, ?_⟩
    have hd : isDone s = true := by
      unfold isDone
      have : s.turn_ = END_TURN := by simpa using h
      rw [this]
      exact beq_self_eq_true _
    unfold getScoreLoop
    rw [if_pos hd]
  | succ fuel ih =>
    unfold getScoreLoop
    split
    · exact ⟨s, rfl⟩
    · apply ih
      rw [autoAdvance_turn]
      push_cast at h
      omega

/-- On a state with `turn_ ≤ END_TURN` the rollout of `getScore` ends and yields a score. -/
theorem getScore_some (s : AutoMoveMazeState) (h : s.turn_ ≤ END_TURN) :
    ∃ score, getScore s = some score := by
  obtain ⟨r, hr⟩ := getScoreLoop_some (END_TURN - s.turn_).toNat (clearStartCells s)
    (by rw [clearStartCells_turn, Int.toNat_of_nonneg (by omega)]; omega)
  exact ⟨r.game_score_, by unfold getScore; rw [hr]; rfl⟩

/-! ## `hillClimb` keeps the first best configuration -/

theorem hillClimbLoop_succ (mt : Nat → Nat) (i : Nat) (v : ClimbVars) :
    hillClimbLoop mt (i + 1) v = (hillClimbLoop mt i v).bind (hillClimbStep mt) := by
  induction i generalizing v with
  | zero =>
    have h0 : hillClimbLoop mt 0 v = some v := rfl
    rw [h0, Option.some_bind, hillClimbLoop]
    cases hillClimbStep mt v with
    | none => rfl
    | some v1 => rfl
  | succ i ih =>
    rw [hillClimbLoop]
    cases h : hillClimbStep mt v with
    | none =>
      have h1 : hillClimbLoop mt (i + 1) v = none := by rw [hillClimbLoop, h]
      rw [h1]
      rfl
    | some v1 =>
      have h1 : hillClimbLoop mt (i + 1) v = hillClimbLoop mt i v1 := by rw [hillClimbLoop, h]
      rw [h1]
      exact ih v1

/-- The variables after `n + 1` iterations are those after `n` iterations followed by one more
run of the body of the loop. -/
theorem hillClimbVars_succ (mt : Nat → Nat) (k : Nat) (s : AutoMoveMazeState) (n : Nat) :
    hillClimbVars mt k s (n + 1) = (hillClimbVars mt k s n).bind (hillClimbStep mt) := by
  unfold hillClimbVars
  cases hillClimbStart mt k s with
  | none => rfl
  | some v => exact hillClimbLoop_succ mt n v

theorem hillClimbStep_spec (mt : Nat → Nat) (v : ClimbVars) (next_score : Int)
    (h : getScore (transition mt v.drawn v.now_state).1 = some next_score) :
    hillClimbStep mt v =
      some (if next_score > v.best_score then
          { now_state := (transition mt v.drawn v.now_state).1
            best_score := next_score
            drawn := (transition mt v.drawn v.now_state).2 }
        else { v with drawn := (transition mt v.drawn v.now_state).2 }) := by
  unfold hillClimbStep
  simp only [h]
  split <;> rfl

/-- The invariant of the loop of `hillClimb` after `n` iterations. -/
theorem hillClimbVars_inv (mt : Nat → Nat) (k : Nat) (s : AutoMoveMazeState) (n : Nat)
    (ht : s.turn_ ≤ END_TURN) :
    ∃ v, hillClimbVars mt k s n = some v ∧
      v.now_state.turn_ = s.turn_ ∧
      getScore v.now_state = some v.best_score ∧
      ∃ i, i ≤ n ∧ candidate mt k s i = some v.now_state ∧
        (∀ j, j ≤ n → ∃ cj sj, candidate mt k s j = some cj ∧ getScore cj = some sj ∧
          sj ≤ v.best_score) ∧
        (∀ j, j < i → ∃ cj sj, candidate mt k s j = some cj ∧ getScore cj = some sj ∧
          sj < v.best_score) := by
  induction n with
  | zero =>
    obtain ⟨score, hscore⟩ := getScore_some (init mt k s).1 (by rw [init_turn]; exact ht)
    refine ⟨{ now_state := (init mt k s).1, best_score := score, drawn := (init mt k s).2 },
      ?_, init_turn mt k s, hscore, 0, le_refl 0, rfl, ?_, ?_⟩
    · unfold hillClimbVars hillClimbStart
      simp only [hscore]
      rfl
    · intro j hj
      have : j = 0 := by omega
      subst this
      exact ⟨(init mt k s).1, score, rfl, hscore, le_refl _⟩
    · intro j hj
      omega
  | succ n ih =>
    obtain ⟨v, hv, hturn, hbest, i, hi, hcand, hmax, hfirst⟩ := ih
    obtain ⟨ns, hns⟩ := getScore_some (transition mt v.drawn v.now_state).1
      (by rw [transition_turn, hturn]; exact ht)
    have hcn : candidate mt k s (n + 1) = some (transition mt v.drawn v.now_state).1 := by
      show (hillClimbVars mt k s n).map
        (fun v => (transition mt v.drawn v.now_state).1) = _
      rw [hv]
      rfl
    rw [hillClimbVars_succ, hv]
    simp only [Option.some_bind]
    rw [hillClimbStep_spec mt v ns hns]
    by_cases hgt : ns > v.best_score
    · rw [if_pos hgt]
      refine ⟨_, rfl, ?_, hns, n + 1, le_refl _, hcn, ?_, ?_⟩
      · simp only []
        rw [transition_turn, hturn]
      · intro j hj
        rcases Nat.lt_or_ge j (n + 1) with hlt | hge
        · obtain ⟨cj, sj, h1, h2, h3⟩ := hmax j (by omega)
          exact ⟨cj, sj, h1, h2, by simp only []; omega⟩
        · have : j = n + 1 := by omega
          subst this
          exact ⟨_, ns, hcn, hns, le_refl _⟩
      · intro j hj
        obtain ⟨cj, sj, h1, h2, h3⟩ := hmax j (by omega)
        exact ⟨cj, sj, h1, h2, by simp only []; omega⟩
    · rw [if_neg hgt]
      refine ⟨_, rfl, hturn, hbest, i, by omega, hcand, ?_, hfirst⟩
      intro j hj
      rcases Nat.lt_or_ge j (n + 1) with hlt | hge
      · exact hmax j (by omega)
      · have : j = n + 1 := by omega
        subst this
        exact ⟨_, ns, hcn, hns, by simp only []; omega⟩

/-- C10: for a state with `turn_ ≤ END_TURN` (the constructor sets `turn_ = 0` and nothing but
the rollout inside `getScore` changes it), every iteration count `n` and every stream of
generator outputs, `hillClimb` returns a configuration; it is one of the configurations
`c0, ..., cn` generated by `init()` and the `n` calls of `transition()`, its score is at least
the score of each of them, and every configuration generated before it scores strictly less. -/
theorem hillClimb_first_best (mt : Nat → Nat) (k : Nat) (s : AutoMoveMazeState) (n : Nat)
    (ht : s.turn_ ≤ END_TURN) :
    ∃ r best, hillClimb mt k s n = some r ∧ getScore r = some best ∧
      ∃ i, i ≤ n ∧ candidate mt k s i = some r ∧
        (∀ j, j ≤ n → ∃ cj sj, candidate mt k s j = some cj ∧ getScore cj = some sj ∧
          sj ≤ best) ∧
        (∀ j, j < i → ∃ cj sj, candidate mt k s j = some cj ∧ getScore cj = some sj ∧
          sj < best) := by
  obtain ⟨v, hv, _, hbest, i, hi, hcand, hmax, hfirst⟩ := hillClimbVars_inv mt k s n ht
  refine ⟨v.now_state, v.best_score, ?_, hbest, i, hi, hcand, hmax, hfirst⟩
  unfold hillClimb
  rw [hv]
  rfl

/-- Instance of C10 at `sampleAuto` with ten iterations and the generator outputs
`0, 1, 2, ...`. -/
theorem hillClimb_first_best_witness :
    ∃ r best, hillClimb (fun k => k) 0 sampleAuto 10 = some r ∧ getScore r = some best ∧
      ∃ i, i ≤ 10 ∧ candidate (fun k => k) 0 sampleAuto i = some r ∧
        (∀ j, j ≤ 10 → ∃ cj sj, candidate (fun k => k) 0 sampleAuto j = some cj ∧
          getScore cj = some sj ∧ sj ≤ best) ∧
        (∀ j, j < i → ∃ cj sj, candidate (fun k => k) 0 sampleAuto j = some cj ∧
          getScore cj = some sj ∧ sj < best) :=
  hillClimb_first_best (fun k => k) 0 sampleAuto 10 (by decide)

end HeuristicGame

namespace HeuristicGame

/-! ## The fuel of `getScore` -/

/-- More fuel does not change a result of the rollout loop. -/
theorem getScoreLoop_fuel_mono (fuel extra : Nat) (s r : AutoMoveMazeState)
    (h : getScoreLoop fuel s = some r) : getScoreLoop (fuel + extra) s = some r := by
  induction fuel generalizing s with
  | zero =>
    unfold getScoreLoop at h
    split at h
    · next hd =>
      cases extra with
      | zero => unfold getScoreLoop; rw [if_pos hd]; exact h
      | succ e =>
        rw [Nat.zero_add]
        unfold getScoreLoop
        rw [if_pos hd]
        exact h
    · exact absurd h (by simp)
  | succ fuel ih =>
    have e : fuel + 1 + extra = (fuel + extra) + 1 := by omega
    rw [e]
    unfold getScoreLoop at h ⊢
    split at h
    · next hd => rw [if_pos hd]; exact h
    · next hd => rw [if_neg hd]; exact ih _ h

/-- Past `END_TURN` the rollout loop of `getScore` never ends, whatever the fuel. -/
theorem getScoreLoop_none_of_gt (fuel : Nat) (s : AutoMoveMazeState) (h : END_TURN < s.turn_) :
    getScoreLoop fuel s = none := by
  induction fuel generalizing s with
  | zero =>
    have hd : ¬ isDone s = true := by
      unfold isDone
      simp only [beq_iff_eq]
      omega
    unfold getScoreLoop
    rw [if_neg hd]
  | succ fuel ih =>
    have hd : ¬ isDone s = true := by
      unfold isDone
      simp only [beq_iff_eq]
      omega
    unfold getScoreLoop
    rw [if_neg hd]
    apply ih
    rw [autoAdvance_turn]
    omega

end HeuristicGame

namespace HeuristicGame

/-! ## `hillClimb`: monotone best score, zero iterations, `transition` -/

theorem hillClimb_eq_map (mt : Nat → Nat) (k : Nat) (s : AutoMoveMazeState) (n : Nat)
    (v : ClimbVars) (h : hillClimbVars mt k s n = some v) :
    hillClimb mt k s n = some v.now_state := by
  unfold hillClimb
  rw [h]
  rfl

/-- One run of the body of the loop does not lower `best_score`. -/
theorem hillClimbStep_best_le (mt : Nat → Nat) (v v1 : ClimbVars)
    (h : hillClimbStep mt v = some v1) : v.best_score ≤ v1.best_score := by
  unfold hillClimbStep at h
  simp only [] at h
  split at h
  · exact absurd h (by simp)
  · next ns _ =>
    split at h
    · next hgt =>
      simp only [Option.some.injEq] at h
      rw [← h]
      exact le_of_lt hgt
    · simp only [Option.some.injEq] at h
      rw [← h]

/-- C11: for a state with `turn_ ≤ END_TURN` (the constructor sets `turn_ = 0`), the same
generator outputs and every `n`: after `n` and after `n + 1` iterations `best_score` equals
`getScore()` of `now_state`, the state `hillClimb` returns; `best_score` does not decrease from
iteration `n` to `n + 1`, and it is at least the score of the configuration `init()` produced. -/
theorem hillClimb_score_monotone (mt : Nat → Nat) (k : Nat) (s : AutoMoveMazeState) (n : Nat)
    (ht : s.turn_ ≤ END_TURN) :
    ∃ (vn vn1 : ClimbVars) (s0 : Int),
      hillClimbVars mt k s n = some vn ∧ hillClimbVars mt k s (n + 1) = some vn1 ∧
      hillClimb mt k s n = some vn.now_state ∧ hillClimb mt k s (n + 1) = some vn1.now_state ∧
      getScore vn.now_state = some vn.best_score ∧
      getScore vn1.now_state = some vn1.best_score ∧
      getScore (init mt k s).1 = some s0 ∧
      s0 ≤ vn.best_score ∧ vn.best_score ≤ vn1.best_score := by
  obtain ⟨vn, hvn, _, hbn, _, _, _, hmax, _⟩ := hillClimbVars_inv mt k s n ht
  obtain ⟨vn1, hvn1, _, hbn1, _⟩ := hillClimbVars_inv mt k s (n + 1) ht
  obtain ⟨c0, s0, hc0, hs0, hle0⟩ := hmax 0 (Nat.zero_le n)
  have hc : c0 = (init mt k s).1 := by
    have : candidate mt k s 0 = some (init mt k s).1 := rfl
    rw [this] at hc0
    exact (Option.some.inj hc0).symm
  subst hc
  have hstep : hillClimbStep mt vn = some vn1 := by
    have := hillClimbVars_succ mt k s n
    rw [hvn, hvn1, Option.some_bind] at this
    exact this.symm
  exact ⟨vn, vn1, s0, hvn, hvn1, hillClimb_eq_map mt k s n vn hvn,
    hillClimb_eq_map mt k s (n + 1) vn1 hvn1, hbn, hbn1, hs0, hle0,
    hillClimbStep_best_le mt vn vn1 hstep⟩

/-- Instance of C11 at `sampleAuto` with the generator outputs `0, 1, 2, ...` and `n = 4`. -/
theorem hillClimb_score_monotone_witness :
    ∃ (vn vn1 : ClimbVars) (s0 : Int),
      hillClimbVars (fun k => k) 0 sampleAuto 4 = some vn ∧
      hillClimbVars (fun k => k) 0 sampleAuto (4 + 1) = some vn1 ∧
      hillClimb (fun k => k) 0 sampleAuto 4 = some vn.now_state ∧
      hillClimb (fun k => k) 0 sampleAuto (4 + 1) = some vn1.now_state ∧
      getScore vn.now_state = some vn.best_score ∧
      getScore vn1.now_state = some vn1.best_score ∧
      getScore (init (fun k => k) 0 sampleAuto).1 = some s0 ∧
      s0 ≤ vn.best_score ∧ vn.best_score ≤ vn1.best_score :=
  hillClimb_score_monotone (fun k => k) 0 sampleAuto 4 (by decide)

theorem finRange_characters :
    List.finRange CHARACTER_N = [⟨0, by decide⟩, ⟨1, by decide⟩, ⟨2, by decide⟩] := by
  decide

/-- A property of the three agents holds for all of them when it holds for each index. -/
theorem forall_character (P : Fin CHARACTER_N → Prop) (h0 : P ⟨0, by decide⟩)
    (h1 : P ⟨1, by decide⟩) (h2 : P ⟨2, by decide⟩) : ∀ i, P i := by
  intro i
  obtain ⟨v, hv⟩ := i
  have hv3 : v < 3 := hv
  interval_cases v
  · exact h0
  · exact h1
  · exact h2

/-- What `init()` does: agent `i` is placed at row `mt (k + 2 i) mod H` and column
`mt (k + 2 i + 1) mod W`, six outputs are consumed and nothing else changes. -/
theorem init_spec (mt : Nat → Nat) (k : Nat) (s : AutoMoveMazeState) :
    (∀ i : Fin CHARACTER_N, (init mt k s).1.characters_ i =
      { y_ := (mt (k + 2 * i.val) : Int) % H, x_ := (mt (k + 2 * i.val + 1) : Int) % W }) ∧
    (init mt k s).2 = k + 2 * CHARACTER_N ∧
    (init mt k s).1.points_ = s.points_ ∧
    (init mt k s).1.turn_ = s.turn_ ∧
    (init mt k s).1.game_score_ = s.game_score_ ∧
    (init mt k s).1.evaluated_score_ = s.evaluated_score_ := by
  unfold init
  rw [finRange_characters]
  simp only [List.foldl_cons, List.foldl_nil]
  refine ⟨?_, rfl, rfl, rfl, rfl, rfl⟩
  apply forall_character <;> simp [setCharacter, Function.update, Fin.ext_iff]

/-- C12: for a state with `turn_ ≤ END_TURN`, `hillClimb(state, 0)` returns the state `init()`
makes of the input: agent `i` at `(mt (k + 2 i) mod H, mt (k + 2 i + 1) mod W)`, the grid,
`turn_`, `game_score_` and `evaluated_score_` of the input; so its `getScore()` is the score of
the initial random configuration. -/
theorem hillClimb_zero (mt : Nat → Nat) (k : Nat) (s : AutoMoveMazeState)
    (ht : s.turn_ ≤ END_TURN) :
    ∃ r score, hillClimb mt k s 0 = some r ∧ r = (init mt k s).1 ∧
      (∀ i : Fin CHARACTER_N, r.characters_ i =
        { y_ := (mt (k + 2 * i.val) : Int) % H, x_ := (mt (k + 2 * i.val + 1) : Int) % W }) ∧
      r.points_ = s.points_ ∧ r.turn_ = s.turn_ ∧ r.game_score_ = s.game_score_ ∧
      r.evaluated_score_ = s.evaluated_score_ ∧
      getScore r = some score ∧ getScore (init mt k s).1 = some score := by
  obtain ⟨score, hscore⟩ := getScore_some (init mt k s).1 (by rw [init_turn]; exact ht)
  obtain ⟨h1, _, h3, h4, h5, h6⟩ := init_spec mt k s
  refine ⟨(init mt k s).1, score, ?_, rfl, h1, h3, h4, h5, h6, hscore, hscore⟩
  unfold hillClimb hillClimbVars hillClimbStart
  simp only [hscore]
  rfl

/-- Instance of C12 at `sampleAuto` with the generator outputs `0, 1, 2, ...`. -/
theorem hillClimb_zero_witness :
    ∃ r score, hillClimb (fun k => k) 0 sampleAuto 0 = some r ∧
      r = (init (fun k => k) 0 sampleAuto).1 ∧
      (∀ i : Fin CHARACTER_N, r.characters_ i =
        { y_ := (((fun k => k) (0 + 2 * i.val) : Nat) : Int) % H,
          x_ := (((fun k => k) (0 + 2 * i.val + 1) : Nat) : Int) % W }) ∧
      r.points_ = sampleAuto.points_ ∧ r.turn_ = sampleAuto.turn_ ∧
      r.game_score_ = sampleAuto.game_score_ ∧
      r.evaluated_score_ = sampleAuto.evaluated_score_ ∧
      getScore r = some score ∧ getScore (init (fun k => k) 0 sampleAuto).1 = some score :=
  hillClimb_zero (fun k => k) 0 sampleAuto (by decide)

end HeuristicGame

namespace HeuristicGame

theorem emod_inGrid (a b : Nat) : inGrid ((a : Int) % H) ((b : Int) % W) := by
  unfold inGrid H W
  omega

/-- C16: `transition()` places the agent with index `r mod CHARACTER_N`, `r` the next output of
the generator, at the cell given by the two outputs after it, which is inside the grid; the
other agents, every grid cell, `turn_`, `game_score_` and `evaluated_score_` are unchanged, and
three outputs are consumed. -/
theorem transition_frame (mt : Nat → Nat) (k : Nat) (s : AutoMoveMazeState) :
    (transition mt k s).1.characters_ ⟨mt k % CHARACTER_N, Nat.mod_lt _ (by decide)⟩ =
      { y_ := (mt (k + 1) : Int) % H, x_ := (mt (k + 2) : Int) % W } ∧
    inGrid ((mt (k + 1) : Int) % H) ((mt (k + 2) : Int) % W) ∧
    (∀ j : Fin CHARACTER_N, j.val ≠ mt k % CHARACTER_N →
      (transition mt k s).1.characters_ j = s.characters_ j) ∧
    (transition mt k s).1.points_ = s.points_ ∧
    (transition mt k s).1.turn_ = s.turn_ ∧
    (transition mt k s).1.game_score_ = s.game_score_ ∧
    (transition mt k s).1.evaluated_score_ = s.evaluated_score_ ∧
    (transition mt k s).2 = k + 3 := by
  refine ⟨?_, emod_inGrid _ _, ?_, rfl, rfl, rfl, rfl, rfl⟩
  · unfold transition setCharacter
    simp only [Function.update_same]
  · intro j hj
    unfold transition setCharacter
    simp only []
    apply Function.update_noteq
    intro h
    apply hj
    rw [h]

end HeuristicGame

namespace HeuristicGame

open CollectNum (Coord dx dy INF setPoint)

/-! ## One auto-play step -/

theorem movePlayerStep_eq (s : AutoMoveMazeState) (ch : Coord) (best : Int × Int) (a : Int) :
    movePlayerStep s ch best a =
      if inGrid (ch.y_ + dy a) (ch.x_ + dx a) then
        if s.points_ (ch.y_ + dy a) (ch.x_ + dx a) > best.1 then
          (s.points_ (ch.y_ + dy a) (ch.x_ + dx a), a)
        else best
      else best := rfl

/-- The loop of `movePlayer` started with `(bp, ba)`: either no in-grid neighbour beats `bp` and
the pair is unchanged, or the result is the first action of the list whose in-grid target holds
the largest value. -/
theorem movePlayerFold_spec (s : AutoMoveMazeState) (ch : Coord) (l : List Int) (bp ba : Int) :
    ((∀ a ∈ l, inGrid (ch.y_ + dy a) (ch.x_ + dx a) →
          s.points_ (ch.y_ + dy a) (ch.x_ + dx a) ≤ bp) ∧
        l.foldl (movePlayerStep s ch) (bp, ba) = (bp, ba)) ∨
    (∃ pre post : List Int,
        l = pre ++ (l.foldl (movePlayerStep s ch) (bp, ba)).2 :: post ∧
        inGrid (ch.y_ + dy (l.foldl (movePlayerStep s ch) (bp, ba)).2)
          (ch.x_ + dx (l.foldl (movePlayerStep s ch) (bp, ba)).2) ∧
        bp < s.points_ (ch.y_ + dy (l.foldl (movePlayerStep s ch) (bp, ba)).2)
          (ch.x_ + dx (l.foldl (movePlayerStep s ch) (bp, ba)).2) ∧
        (∀ a ∈ pre, inGrid (ch.y_ + dy a) (ch.x_ + dx a) →
          s.points_ (ch.y_ + dy a) (ch.x_ + dx a) <
            s.points_ (ch.y_ + dy (l.foldl (movePlayerStep s ch) (bp, ba)).2)
              (ch.x_ + dx (l.foldl (movePlayerStep s ch) (bp, ba)).2)) ∧
        (∀ a ∈ post, inGrid (ch.y_ + dy a) (ch.x_ + dx a) →
          s.points_ (ch.y_ + dy a) (ch.x_ + dx a) ≤
            s.points_ (ch.y_ + dy (l.foldl (movePlayerStep s ch) (bp, ba)).2)
              (ch.x_ + dx (l.foldl (movePlayerStep s ch) (bp, ba)).2))) := by
  induction l generalizing bp ba with
  | nil => left; exact ⟨by simp, rfl⟩
  | cons a l ih =>
    rw [List.foldl_cons, movePlayerStep_eq]
    by_cases hin : inGrid (ch.y_ + dy a) (ch.x_ + dx a)
    · rw [if_pos hin]
      by_cases h : s.points_ (ch.y_ + dy a) (ch.x_ + dx a) > bp
      · rw [if_pos h]
        right
        rcases ih (s.points_ (ch.y_ + dy a) (ch.x_ + dx a)) a with
          ⟨hall, heq⟩ | ⟨pre, post, hl, h1, h2, h3, h4⟩
        · rw [heq]
          exact ⟨[], l, rfl, hin, h, by simp, hall⟩
        · refine ⟨a :: pre, post, ?_, h1, lt_trans h h2, ?_, h4⟩
          · rw [List.cons_append, ← hl]
          · intro b hb hbin
            rcases List.mem_cons.mp hb with rfl | hb
            · exact h2
            · exact h3 b hb hbin
      · rw [if_neg h]
        rcases ih bp ba with ⟨hall, heq⟩ | ⟨pre, post, hl, h1, h2, h3, h4⟩
        · left
          refine ⟨?_, heq⟩
          intro b hb hbin
          rcases List.mem_cons.mp hb with rfl | hb
          · exact not_lt.mp h
          · exact hall b hb hbin
        · right
          refine ⟨a :: pre, post, ?_, h1, h2, ?_, h4⟩
          · rw [List.cons_append, ← hl]
          · intro b hb hbin
            rcases List.mem_cons.mp hb with rfl | hb
            · exact lt_of_le_of_lt (not_lt.mp h) h2
            · exact h3 b hb hbin
    · rw [if_neg hin]
      rcases ih bp ba with ⟨hall, heq⟩ | ⟨pre, post, hl, h1, h2, h3, h4⟩
      · left
        refine ⟨?_, heq⟩
        intro b hb hbin
        rcases List.mem_cons.mp hb with rfl | hb
        · exact absurd hbin hin
        · exact hall b hb hbin
      · right
        refine ⟨a :: pre, post, ?_, h1, h2, ?_, h4⟩
        · rw [List.cons_append, ← hl]
        · intro b hb hbin
          rcases List.mem_cons.mp hb with rfl | hb
          · exact absurd hbin hin
          · exact h3 b hb hbin

/-- In a strictly increasing list that splits as `pre ++ a :: post`, the elements below `a`
are those of `pre`. -/
theorem mem_pre_of_lt (l pre post : List Int) (a b : Int) (hs : l.Sorted (· < ·))
    (hl : l = pre ++ a :: post) (hb : b ∈ l) (hlt : b < a) : b ∈ pre := by
  subst hl
  rcases List.mem_append.mp hb with h | h
  · exact h
  · exfalso
    have hp := (List.pairwise_append.mp hs).2.1
    rcases List.mem_cons.mp h with h1 | h1
    · omega
    · have := (List.pairwise_cons.mp hp).1 b h1
      omega

/-- The action chosen by `movePlayer` for an agent inside the grid, all grid values being above
`-INF`: it is one of `0..3`, its target is inside the grid and holds the largest value among the
in-grid targets, and every action before it has a strictly smaller in-grid target. -/
theorem bestNeighbour_spec (s : AutoMoveMazeState) (ch : Coord) (hin : inGrid ch.y_ ch.x_)
    (hpts : pointsAboveMinusInf s) :
    (0 ≤ (bestNeighbour s ch).2 ∧ (bestNeighbour s ch).2 ≤ 3) ∧
    inGrid (ch.y_ + dy (bestNeighbour s ch).2) (ch.x_ + dx (bestNeighbour s ch).2) ∧
    (∀ b : Int, 0 ≤ b → b ≤ 3 → inGrid (ch.y_ + dy b) (ch.x_ + dx b) →
      s.points_ (ch.y_ + dy b) (ch.x_ + dx b) ≤
        s.points_ (ch.y_ + dy (bestNeighbour s ch).2) (ch.x_ + dx (bestNeighbour s ch).2)) ∧
    (∀ b : Int, 0 ≤ b → b < (bestNeighbour s ch).2 → inGrid (ch.y_ + dy b) (ch.x_ + dx b) →
      s.points_ (ch.y_ + dy b) (ch.x_ + dx b) <
        s.points_ (ch.y_ + dy (bestNeighbour s ch).2) (ch.x_ + dx (bestNeighbour s ch).2)) := by
  have hmem : ∀ b : Int, 0 ≤ b → b ≤ 3 → b ∈ ([0, 1, 2, 3] : List Int) := by
    intro b h0 h3
    have : b = 0 ∨ b = 1 ∨ b = 2 ∨ b = 3 := by omega
    rcases this with rfl | rfl | rfl | rfl <;> simp
  have hsorted : ([0, 1, 2, 3] : List Int).Sorted (· < ·) := by decide
  unfold bestNeighbour
  have key := movePlayerFold_spec s ch [0, 1, 2, 3] (-INF) 0
  generalize ([0, 1, 2, 3] : List Int).foldl (movePlayerStep s ch) (-INF, 0) = r at key ⊢
  rcases key with ⟨hall, _⟩ | ⟨pre, post, hl, h1, _, h3, h4⟩
  · exfalso
    obtain ⟨hy0, hy1, hx0, hx1⟩ := hin
    unfold H at hy1
    unfold W at hx1
    by_cases hx : ch.x_ + 1 < 5
    · have hg : inGrid (ch.y_ + dy 0) (ch.x_ + dx 0) := by
        have e1 : dy 0 = 0 := by decide
        have e2 : dx 0 = 1 := by decide
        rw [e1, e2]
        unfold inGrid H W
        omega
      have := hall 0 (by simp) hg
      have := hpts _ _ hg
      omega
    · have hg : inGrid (ch.y_ + dy 1) (ch.x_ + dx 1) := by
        have e1 : dy 1 = 0 := by decide
        have e2 : dx 1 = -1 := by decide
        rw [e1, e2]
        unfold inGrid H W
        omega
      have := hall 1 (by simp) hg
      have := hpts _ _ hg
      omega
  · have hain : r.2 ∈ ([0, 1, 2, 3] : List Int) := by
      rw [hl]; simp
    refine ⟨?_, h1, ?_, ?_⟩
    · simp only [List.mem_cons, List.mem_singleton, List.not_mem_nil, or_false] at hain
      omega
    · intro b hb0 hb3 hbin
      have hb := hmem b hb0 hb3
      rw [hl] at hb
      rcases List.mem_append.mp hb with h | h
      · exact le_of_lt (h3 b h hbin)
      · rcases List.mem_cons.mp h with h | h
        · rw [h]
        · exact h4 b h hbin
    · intro b hb0 hblt hbin
      have ha3 : r.2 ≤ 3 := by
        simp only [List.mem_cons, List.mem_singleton, List.not_mem_nil, or_false] at hain
        omega
      exact h3 b (mem_pre_of_lt _ pre post _ b hsorted hl (hmem b hb0 (by omega)) hblt) hbin

end HeuristicGame

namespace HeuristicGame

open CollectNum (Coord dx dy INF setPoint)

theorem movePlayerStep_congr (s s1 : AutoMoveMazeState) (h : s1.points_ = s.points_) :
    movePlayerStep s1 = movePlayerStep s := by
  funext ch best a
  rw [movePlayerStep_eq, movePlayerStep_eq, h]

theorem destination_congr (s s1 : AutoMoveMazeState) (h : s1.points_ = s.points_)
    (ch : Coord) : destination s1 ch = destination s ch := by
  unfold destination bestNeighbour
  rw [movePlayerStep_congr s s1 h]

theorem movePlayer_eq (s : AutoMoveMazeState) (i : Fin CHARACTER_N) :
    movePlayer s i =
      { s with characters_ := Function.update s.characters_ i (destination s (s.characters_ i)) } :=
  rfl

/-- The first loop of `advance` over a list of distinct agents: the agents of the list stand on
their destinations, computed from the grid at the start, nothing else changes. -/
theorem foldl_movePlayer (l : List (Fin CHARACTER_N)) (hl : l.Nodup) (s : AutoMoveMazeState) :
    (l.foldl movePlayer s).points_ = s.points_ ∧
    (l.foldl movePlayer s).game_score_ = s.game_score_ ∧
    (∀ i, (l.foldl movePlayer s).characters_ i =
      if i ∈ l then destination s (s.characters_ i) else s.characters_ i) := by
  induction l generalizing s with
  | nil => exact ⟨rfl, rfl, fun i => by simp⟩
  | cons j l ih =>
    obtain ⟨hj, hl1⟩ := List.nodup_cons.mp hl
    rw [List.foldl_cons]
    obtain ⟨h1, h2, h3⟩ := ih hl1 (movePlayer s j)
    refine ⟨h1, h2, ?_⟩
    intro i
    rw [h3 i, destination_congr s (movePlayer s j) rfl, movePlayer_eq]
    simp only []
    by_cases hil : i ∈ l
    · have hij : i ≠ j := fun h => hj (h ▸ hil)
      rw [if_pos hil, if_pos (List.mem_cons_of_mem j hil), Function.update_noteq hij]
    · rw [if_neg hil]
      by_cases hij : i = j
      · subst hij
        rw [if_pos (List.mem_cons_self i l), Function.update_same]
      · rw [Function.update_noteq hij, if_neg]
        intro h
        rcases List.mem_cons.mp h with h | h
        · exact hij h
        · exact hil h

/-- The second loop of `advance` over a list of agents: their cells are credited, each cell
once, and left at zero. -/
theorem foldl_collect (l : List (Fin CHARACTER_N)) (s : AutoMoveMazeState) :
    (l.foldl collect s).characters_ = s.characters_ ∧
    (l.foldl collect s).turn_ = s.turn_ ∧
    (l.foldl collect s).game_score_ =
      s.game_score_ + ∑ p in (l.map (position s)).toFinset, s.points_ p.1 p.2 ∧
    (∀ y x, (l.foldl collect s).points_ y x =
      if (y, x) ∈ (l.map (position s)).toFinset then 0 else s.points_ y x) := by
  induction l generalizing s with
  | nil => exact ⟨rfl, rfl, by simp, fun y x => by simp⟩
  | cons i l ih =>
    rw [List.foldl_cons]
    obtain ⟨h1, h2, h3, h4⟩ := ih (collect s i)
    have hpos : position (collect s i) = position s := rfl
    rw [hpos] at h3 h4
    have hsum := CollectNum.sum_zeroed_at (l.map (position s)).toFinset
      (fun p => s.points_ p.1 p.2) (fun p => (collect s i).points_ p.1 p.2) (position s i)
      (by
        intro q hq
        show setPoint s.points_ (s.characters_ i).y_ (s.characters_ i).x_ 0 q.1 q.2 = _
        unfold setPoint
        rw [if_neg]
        rintro ⟨hy, hx⟩
        apply hq
        exact Prod.ext hy hx)
      (by
        show setPoint s.points_ (s.characters_ i).y_ (s.characters_ i).x_ 0
          (s.characters_ i).y_ (s.characters_ i).x_ = 0
        unfold setPoint
        rw [if_pos ⟨rfl, rfl⟩])
    simp only [] at hsum
    refine ⟨h1, h2, ?_, ?_⟩
    · rw [h3, hsum, List.map_cons, List.toFinset_cons]
      have hc : (collect s i).game_score_ =
          s.game_score_ + s.points_ (position s i).1 (position s i).2 := rfl
      rw [hc]
      by_cases hmem : position s i ∈ (l.map (position s)).toFinset
      · rw [Finset.insert_eq_of_mem hmem, if_pos hmem]
        ring
      · rw [Finset.sum_insert hmem, if_neg hmem]
        ring
    · intro y x
      rw [h4 y x, List.map_cons, List.toFinset_cons]
      have hc : (collect s i).points_ y x =
          if y = (s.characters_ i).y_ ∧ x = (s.characters_ i).x_ then 0 else s.points_ y x := rfl
      by_cases hyx : (y, x) = position s i
      · rw [if_pos (Finset.mem_insert.mpr (Or.inl hyx))]
        split
        · rfl
        · rw [hc, if_pos]
          exact ⟨congrArg Prod.fst hyx, congrArg Prod.snd hyx⟩
      · by_cases hmem : (y, x) ∈ (l.map (position s)).toFinset
        · rw [if_pos hmem, if_pos (Finset.mem_insert.mpr (Or.inr hmem))]
        · rw [if_neg hmem, if_neg (fun h => (Finset.mem_insert.mp h).elim hyx hmem), hc,
            if_neg]
          rintro ⟨hy, hx⟩
          apply hyx
          exact Prod.ext hy hx

/-- One auto-play step: every agent stands on its destination, chosen from the grid at the
start of the step; then the occupied cells are credited, each once, and cleared; `turn_` grows
by one. -/
theorem autoAdvance_spec (s : AutoMoveMazeState) :
    (∀ i, (advance s).characters_ i = destination s (s.characters_ i)) ∧
    (advance s).turn_ = s.turn_ + 1 ∧
    (advance s).game_score_ =
      s.game_score_ + ∑ p in occupied (advance s), s.points_ p.1 p.2 ∧
    (∀ y x, (advance s).points_ y x =
      if (y, x) ∈ occupied (advance s) then 0 else s.points_ y x) := by
  obtain ⟨m1, m2, m3⟩ := foldl_movePlayer (List.finRange CHARACTER_N) (List.nodup_finRange _) s
  obtain ⟨c1, _, c3, c4⟩ := foldl_collect (List.finRange CHARACTER_N)
    ((List.finRange CHARACTER_N).foldl movePlayer s)
  have hch : (advance s).characters_ =
      ((List.finRange CHARACTER_N).foldl movePlayer s).characters_ := c1
  have hpos : position (advance s) =
      position ((List.finRange CHARACTER_N).foldl movePlayer s) := by
    funext i
    unfold position
    rw [hch]
  refine ⟨?_, autoAdvance_turn s, ?_, ?_⟩
  · intro i
    rw [hch, m3 i, if_pos (List.mem_finRange i)]
  · unfold occupied
    rw [hpos]
    have : (advance s).game_score_ =
        ((List.finRange CHARACTER_N).foldl collect
          ((List.finRange CHARACTER_N).foldl movePlayer s)).game_score_ := rfl
    rw [this, c3, m2, m1]
  · intro y x
    unfold occupied
    rw [hpos]
    have : (advance s).points_ =
        ((List.finRange CHARACTER_N).foldl collect
          ((List.finRange CHARACTER_N).foldl movePlayer s)).points_ := rfl
    rw [this, c4 y x, m1]

theorem autoAdvance_agentsInGrid (s : AutoMoveMazeState) (hin : agentsInGrid s)
    (hpts : pointsAboveMinusInf s) : agentsInGrid (advance s) := by
  intro i
  rw [(autoAdvance_spec s).1 i]
  exact (bestNeighbour_spec s (s.characters_ i) (hin i) hpts).2.1

theorem autoAdvance_pointsAbove (s : AutoMoveMazeState) (hpts : pointsAboveMinusInf s) :
    pointsAboveMinusInf (advance s) := by
  intro y x hyx
  rw [(autoAdvance_spec s).2.2.2 y x]
  split
  · unfold INF; decide
  · exact hpts y x hyx

end HeuristicGame

namespace HeuristicGame

open CollectNum (Coord dx dy INF setPoint)

/-- The copy `getScore` starts from: the cells occupied by the agents hold zero, nothing else
differs from the state. -/
theorem clearStartCells_spec (s : AutoMoveMazeState) :
    (clearStartCells s).characters_ = s.characters_ ∧
    (clearStartCells s).game_score_ = s.game_score_ ∧
    (∀ y x, (clearStartCells s).points_ y x =
      if (y, x) ∈ occupied s then 0 else s.points_ y x) := by
  have key : ∀ (l : List (Fin CHARACTER_N)) (tmp : AutoMoveMazeState),
      (l.foldl (fun tmp_state character_id =>
        { tmp_state with
          points_ := setPoint tmp_state.points_ (s.characters_ character_id).y_
            (s.characters_ character_id).x_ 0 }) tmp).characters_ = tmp.characters_ ∧
      (l.foldl (fun tmp_state character_id =>
        { tmp_state with
          points_ := setPoint tmp_state.points_ (s.characters_ character_id).y_
            (s.characters_ character_id).x_ 0 }) tmp).game_score_ = tmp.game_score_ ∧
      (∀ y x, (l.foldl (fun tmp_state character_id =>
        { tmp_state with
          points_ := setPoint tmp_state.points_ (s.characters_ character_id).y_
            (s.characters_ character_id).x_ 0 }) tmp).points_ y x =
        if (y, x) ∈ (l.map (position s)).toFinset then 0 else tmp.points_ y x) := by
    intro l
    induction l with
    | nil => intro tmp; exact ⟨rfl, rfl, fun y x => by simp⟩
    | cons i l ih =>
      intro tmp
      rw [List.foldl_cons]
      obtain ⟨h1, h2, h3⟩ := ih
        { tmp with
          points_ := setPoint tmp.points_ (s.characters_ i).y_ (s.characters_ i).x_ 0 }
      refine ⟨h1, h2, ?_⟩
      intro y x
      rw [h3 y x, List.map_cons, List.toFinset_cons]
      by_cases hmem : (y, x) ∈ (l.map (position s)).toFinset
      · rw [if_pos hmem, if_pos (Finset.mem_insert.mpr (Or.inr hmem))]
      · rw [if_neg hmem]
        show setPoint tmp.points_ (s.characters_ i).y_ (s.characters_ i).x_ 0 y x = _
        unfold setPoint
        by_cases hyx : (y, x) = position s i
        · rw [if_pos (Finset.mem_insert.mpr (Or.inl hyx)), if_pos]
          exact ⟨congrArg Prod.fst hyx, congrArg Prod.snd hyx⟩
        · rw [if_neg (fun h => (Finset.mem_insert.mp h).elim hyx hmem), if_neg]
          rintro ⟨hy, hx⟩
          exact hyx (Prod.ext hy hx)
  exact key (List.finRange CHARACTER_N) s

theorem clearStartCells_pointsAbove (s : AutoMoveMazeState) (hpts : pointsAboveMinusInf s) :
    pointsAboveMinusInf (clearStartCells s) := by
  intro y x hyx
  rw [(clearStartCells_spec s).2.2 y x]
  split
  · unfold INF; decide
  · exact hpts y x hyx

theorem clearStartCells_agentsInGrid (s : AutoMoveMazeState) (hin : agentsInGrid s) :
    agentsInGrid (clearStartCells s) := by
  intro i
  rw [(clearStartCells_spec s).1]
  exact hin i

theorem sampleAuto_agentsInGrid : agentsInGrid sampleAuto := by
  decide

theorem sampleAuto_nonNeg : nonNegGrid sampleAuto := by
  intro y x h
  show 0 ≤ y + 1
  have := h.1
  omega

theorem pointsAbove_of_nonNeg (s : AutoMoveMazeState) (h : nonNegGrid s) :
    pointsAboveMinusInf s := by
  intro y x hyx
  have := h y x hyx
  unfold INF
  omega

end HeuristicGame

namespace HeuristicGame

open CollectNum (Coord dx dy INF setPoint)

/-! ## The score of a rollout -/

theorem getScoreLoop_eq_iterate (fuel : Nat) (s : AutoMoveMazeState)
    (h : s.turn_ + fuel = END_TURN) : getScoreLoop fuel s = some (advance^[fuel] s) := by
  induction fuel generalizing s with
  | zero =>
    have hd : isDone s = true := by
      unfold isDone
      have : s.turn_ = END_TURN := by simpa using h
      rw [this]
      exact beq_self_eq_true _
    unfold getScoreLoop
    rw [if_pos hd]
    rfl
  | succ fuel ih =>
    have hd : ¬ isDone s = true := by
      unfold isDone
      simp only [beq_iff_eq]
      push_cast at h
      omega
    unfold getScoreLoop
    rw [if_neg hd, Function.iterate_succ_apply]
    apply ih
    rw [autoAdvance_turn]
    push_cast at h
    omega

/-- A sum of values that were cleared on the set `O` is the sum of the former values over the
part of the index set outside `O`. -/
theorem sum_cleared (V O : Finset (Int × Int)) (f g : Int × Int → Int)
    (hg : ∀ p, g p = if p ∈ O then 0 else f p) :
    ∑ p in V, g p = ∑ p in V \ O, f p := by
  rw [Finset.sdiff_eq_filter, Finset.sum_filter]
  apply Finset.sum_congr rfl
  intro p _
  rw [hg p]
  by_cases h : p ∈ O
  · rw [if_pos h, if_neg (not_not.mpr h)]
  · rw [if_neg h, if_pos h]

theorem sum_union_sdiff (V O : Finset (Int × Int)) (f : Int × Int → Int) :
    ∑ p in O ∪ V, f p = ∑ p in O, f p + ∑ p in V \ O, f p := by
  rw [← Finset.union_sdiff_self_eq_union, Finset.sum_union Finset.disjoint_sdiff]

/-- The score gained over `n` auto-play steps is the sum, over the set of cells occupied after
one of these steps, of the value the cell held before the first of them. -/
theorem iterate_advance_score (n : Nat) (s : AutoMoveMazeState) :
    (advance^[n] s).game_score_ =
      s.game_score_ + ∑ p in visitedAfter n s, s.points_ p.1 p.2 := by
  induction n generalizing s with
  | zero => simp [visitedAfter]
  | succ n ih =>
    obtain ⟨_, _, h3, h4⟩ := autoAdvance_spec s
    rw [Function.iterate_succ_apply, ih (advance s), h3]
    have h5 := sum_cleared (visitedAfter n (advance s)) (occupied (advance s))
      (fun p => s.points_ p.1 p.2) (fun p => (advance s).points_ p.1 p.2)
      (fun p => h4 p.1 p.2)
    have h6 := sum_union_sdiff (visitedAfter n (advance s)) (occupied (advance s))
      (fun p => s.points_ p.1 p.2)
    simp only [] at h5 h6
    have h7 : visitedAfter (n + 1) s = occupied (advance s) ∪ visitedAfter n (advance s) := rfl
    rw [h7, h6, h5]
    ring

/-- The value of `getScore()` on a state with `turn_ ≤ END_TURN`: the score of the state plus
the values of the cells that are occupied after one of the remaining auto-play steps and were
not occupied at the start (those are cleared without credit). -/
theorem getScore_eq_sum (s : AutoMoveMazeState) (ht : s.turn_ ≤ END_TURN) :
    getScore s = some (s.game_score_ +
      ∑ p in visitedAfter (END_TURN - s.turn_).toNat (clearStartCells s) \ occupied s,
        s.points_ p.1 p.2) := by
  obtain ⟨_, c2, c3⟩ := clearStartCells_spec s
  unfold getScore
  rw [getScoreLoop_eq_iterate _ _
    (by rw [clearStartCells_turn, Int.toNat_of_nonneg (by omega)]; omega)]
  simp only [Option.map_some']
  rw [iterate_advance_score, c2]
  have h := sum_cleared (visitedAfter (END_TURN - s.turn_).toNat (clearStartCells s))
    (occupied s) (fun p => s.points_ p.1 p.2) (fun p => (clearStartCells s).points_ p.1 p.2)
    (fun p => c3 p.1 p.2)
  simp only [] at h
  rw [h]

end HeuristicGame

namespace HeuristicGame

open CollectNum (Coord dx dy INF setPoint)

theorem mem_occupied (s : AutoMoveMazeState) (p : Int × Int) :
    p ∈ occupied s ↔ ∃ i, position s i = p := by
  unfold occupied
  simp [List.mem_finRange]

theorem visitedAfter_inGrid (n : Nat) (s : AutoMoveMazeState) (hin : agentsInGrid s)
    (hpts : pointsAboveMinusInf s) : ∀ p ∈ visitedAfter n s, inGrid p.1 p.2 := by
  induction n generalizing s with
  | zero => intro p hp; simp [visitedAfter] at hp
  | succ n ih =>
    intro p hp
    have h1 := autoAdvance_agentsInGrid s hin hpts
    have h2 := autoAdvance_pointsAbove s hpts
    rcases Finset.mem_union.mp hp with h | h
    · obtain ⟨i, hi⟩ := (mem_occupied _ p).mp h
      rw [← hi]
      exact h1 i
    · exact ih (advance s) h1 h2 p h

/-- C14 (as amended): for a state at turn 0 with `game_score_ = 0`, a non-negative grid and all
agents inside the grid, `getScore()` equals the sum of the grid values of the state over the set
of distinct cells that some agent occupies after one of the `END_TURN` auto-play steps and that
no agent occupies in the initial placement; all these cells are inside the grid. The cells of
the initial placement are cleared by `getScore()` without credit. -/
theorem getScore_sum_without_start_cells (s : AutoMoveMazeState) (hturn : s.turn_ = 0)
    (hscore : s.game_score_ = 0) (hg : nonNegGrid s) (hin : agentsInGrid s) :
    getScore s = some
      (∑ p in visitedAfter END_TURN.toNat (clearStartCells s) \ occupied s,
        s.points_ p.1 p.2) ∧
    (∀ p ∈ visitedAfter END_TURN.toNat (clearStartCells s), inGrid p.1 p.2) := by
  constructor
  · have h := getScore_eq_sum s (by rw [hturn]; decide)
    rw [hscore, hturn, zero_add, sub_zero] at h
    exact h
  · exact visitedAfter_inGrid _ _ (clearStartCells_agentsInGrid s hin)
      (clearStartCells_pointsAbove s (pointsAbove_of_nonNeg s hg))

/-- Instance of the amended C14 at `sampleAuto`. -/
theorem getScore_sum_without_start_cells_witness :
    getScore sampleAuto = some
      (∑ p in visitedAfter END_TURN.toNat (clearStartCells sampleAuto) \ occupied sampleAuto,
        sampleAuto.points_ p.1 p.2) ∧
    (∀ p ∈ visitedAfter END_TURN.toNat (clearStartCells sampleAuto), inGrid p.1 p.2) :=
  getScore_sum_without_start_cells sampleAuto rfl rfl sampleAuto_nonNeg sampleAuto_agentsInGrid

set_option maxRecDepth 100000 in
/-- C14 (as stated) fails at `sampleAuto`, a state at turn 0 with score 0, a non-negative grid
(the cell in row `y` holds `y + 1`) and all agents at `(0, 0)`: the agents visit `(0, 0)`,
`(1, 0)`, `(2, 0)`, `(3, 0)`, `(4, 0)`, `(4, 1)`, whose values sum to 20, while `getScore()`
is 19, the start cell `(0, 0)` not being credited. -/
theorem getScore_omits_start_cells :
    sampleAuto.turn_ = 0 ∧ sampleAuto.game_score_ = 0 ∧ nonNegGrid sampleAuto ∧
    agentsInGrid sampleAuto ∧
    getScore sampleAuto = some 19 ∧
    ∑ p in occupied sampleAuto ∪ visitedAfter END_TURN.toNat (clearStartCells sampleAuto),
      sampleAuto.points_ p.1 p.2 = 20 ∧
    getScore sampleAuto ≠ some
      (∑ p in occupied sampleAuto ∪ visitedAfter END_TURN.toNat (clearStartCells sampleAuto),
        sampleAuto.points_ p.1 p.2) :=
  ⟨rfl, rfl, sampleAuto_nonNeg, sampleAuto_agentsInGrid, by decide, by decide, by decide⟩

end HeuristicGame

namespace CollectNum

/-! ## The constructor `MazeState(const int seed)` -/

theorem fillCell_start (mt : Nat → Nat) (cy cx : Int) (st : (Int → Int → Int) × Nat)
    (cell : Int × Int) : (fillCell mt cy cx st cell).1 cy cx = st.1 cy cx := by
  unfold fillCell
  split
  · rfl
  · next h =>
    simp only [setPoint]
    rw [if_neg]
    rintro ⟨hy, hx⟩
    exact h ⟨hy.symm, hx.symm⟩

/-- The loops of the constructor never write the cell of the agent. -/
theorem foldl_fillCell_start (mt : Nat → Nat) (cy cx : Int) (l : List (Int × Int))
    (st : (Int → Int → Int) × Nat) :
    (l.foldl (fillCell mt cy cx) st).1 cy cx = st.1 cy cx := by
  induction l generalizing st with
  | nil => rfl
  | cons a l ih => rw [List.foldl_cons, ih, fillCell_start]

theorem fillCell_range (mt : Nat → Nat) (cy cx : Int) (st : (Int → Int → Int) × Nat)
    (cell : Int × Int) (y x : Int) (h : 0 ≤ st.1 y x ∧ st.1 y x ≤ 9) :
    0 ≤ (fillCell mt cy cx st cell).1 y x ∧ (fillCell mt cy cx st cell).1 y x ≤ 9 := by
  unfold fillCell
  split
  · exact h
  · simp only [setPoint]
    split
    · omega
    · exact h

theorem foldl_fillCell_range (mt : Nat → Nat) (cy cx : Int) (l : List (Int × Int))
    (st : (Int → Int → Int) × Nat) (y x : Int) (h : 0 ≤ st.1 y x ∧ st.1 y x ≤ 9) :
    0 ≤ (l.foldl (fillCell mt cy cx) st).1 y x ∧ (l.foldl (fillCell mt cy cx) st).1 y x ≤ 9 := by
  induction l generalizing st with
  | nil => exact h
  | cons a l ih =>
    rw [List.foldl_cons]
    exact ih _ (fillCell_range mt cy cx st a y x h)

/-- Every cell of the list other than the cell of the agent holds a value in `0..9` after the
loops of the constructor. -/
theorem foldl_fillCell_assigned (mt : Nat → Nat) (cy cx : Int) (l : List (Int × Int))
    (st : (Int → Int → Int) × Nat) (y x : Int) (hmem : (y, x) ∈ l)
    (hne : ¬ (y = cy ∧ x = cx)) :
    0 ≤ (l.foldl (fillCell mt cy cx) st).1 y x ∧ (l.foldl (fillCell mt cy cx) st).1 y x ≤ 9 := by
  induction l generalizing st with
  | nil => simp at hmem
  | cons a l ih =>
    rw [List.foldl_cons]
    rcases List.mem_cons.mp hmem with h | h
    · apply foldl_fillCell_range
      subst h
      have e : ∀ v : Int, setPoint st.1 y x v y x = v := by
        intro v
        unfold setPoint
        rw [if_pos ⟨rfl, rfl⟩]
      unfold fillCell
      rw [if_neg hne]
      show 0 ≤ setPoint st.1 y x _ y x ∧ setPoint st.1 y x _ y x ≤ 9
      rw [e]
      omega
    · exact ih _ h

theorem mem_gridCells (c : Consts) (y x : Int) (h : inGrid c y x) : (y, x) ∈ gridCells c := by
  obtain ⟨hy0, hy1, hx0, hx1⟩ := h
  have hy : y.toNat < c.H.toNat := by omega
  have hx : x.toNat < c.W.toNat := by omega
  unfold gridCells
  apply List.mem_flatMap.mpr
  refine ⟨y.toNat, List.mem_range.mpr hy, ?_⟩
  apply List.mem_map.mpr
  refine ⟨x.toNat, List.mem_range.mpr hx, ?_⟩
  rw [Int.toNat_of_nonneg hy0, Int.toNat_of_nonneg hx0]

/-- What the constructor establishes: the agent is inside the grid, `turn_` and `game_score_`
are zero, every cell other than the cell of the agent holds a value in `0..9`, and the cell of
the agent holds what the storage held before. -/
theorem ofSeed_spec (c : Consts) (hH : 0 < c.H) (hW : 0 < c.W) (mt : Nat → Nat)
    (storage : Int → Int → Int) :
    agentInBounds c (MazeState.ofSeed c mt storage) ∧
    (MazeState.ofSeed c mt storage).turn_ = 0 ∧
    (MazeState.ofSeed c mt storage).game_score_ = 0 ∧
    (∀ y x : Int, inGrid c y x →
      ¬ (y = (MazeState.ofSeed c mt storage).character_.y_ ∧
          x = (MazeState.ofSeed c mt storage).character_.x_) →
      0 ≤ (MazeState.ofSeed c mt storage).points_ y x ∧
        (MazeState.ofSeed c mt storage).points_ y x ≤ 9) ∧
    (MazeState.ofSeed c mt storage).points_ (MazeState.ofSeed c mt storage).character_.y_
        (MazeState.ofSeed c mt storage).character_.x_ =
      storage (MazeState.ofSeed c mt storage).character_.y_
        (MazeState.ofSeed c mt storage).character_.x_ := by
  refine ⟨?_, rfl, rfl, ?_, ?_⟩
  · show inGrid c ((mt 0 : Int) % c.H) ((mt 1 : Int) % c.W)
    exact ⟨Int.emod_nonneg _ (by omega), Int.emod_lt_of_pos _ hH,
      Int.emod_nonneg _ (by omega), Int.emod_lt_of_pos _ hW⟩
  · intro y x hyx hne
    exact foldl_fillCell_assigned mt _ _ (gridCells c) (storage, 2) y x
      (mem_gridCells c y x hyx) hne
  · exact foldl_fillCell_start mt _ _ (gridCells c) (storage, 2)

/-- C15 (evaluation of the code): on the grids of both sources the constructor puts the agent
inside the grid, sets `turn_ = 0` and `game_score_ = 0` and gives every other cell a value in
`0..9`, but it never writes the cell of the agent, which keeps what the storage held. With the
generator outputs `0, 1, 2, ...` and a storage filled with `12345` the agent is at `(0, 1)` and
that cell holds `12345`, not `0`. -/
theorem ofSeed_start_cell_uninitialised :
    (∀ (c : Consts), c = beamConsts ∨ c = smallConsts →
      ∀ (mt : Nat → Nat) (storage : Int → Int → Int),
      agentInBounds c (MazeState.ofSeed c mt storage) ∧
      (MazeState.ofSeed c mt storage).turn_ = 0 ∧
      (MazeState.ofSeed c mt storage).game_score_ = 0 ∧
      (∀ y x : Int, inGrid c y x →
        ¬ (y = (MazeState.ofSeed c mt storage).character_.y_ ∧
            x = (MazeState.ofSeed c mt storage).character_.x_) →
        0 ≤ (MazeState.ofSeed c mt storage).points_ y x ∧
          (MazeState.ofSeed c mt storage).points_ y x ≤ 9) ∧
      (MazeState.ofSeed c mt storage).points_ (MazeState.ofSeed c mt storage).character_.y_
          (MazeState.ofSeed c mt storage).character_.x_ =
        storage (MazeState.ofSeed c mt storage).character_.y_
          (MazeState.ofSeed c mt storage).character_.x_) ∧
    (MazeState.ofSeed beamConsts (fun k => k) (fun _ _ => 12345)).character_ =
      { y_ := 0, x_ := 1 } ∧
    (MazeState.ofSeed beamConsts (fun k => k) (fun _ _ => 12345)).points_
        (MazeState.ofSeed beamConsts (fun k => k) (fun _ _ => 12345)).character_.y_
        (MazeState.ofSeed beamConsts (fun k => k) (fun _ _ => 12345)).character_.x_ =
      12345 := by
  have hc : (MazeState.ofSeed beamConsts (fun k => k) (fun _ _ => 12345)).character_ =
      { y_ := 0, x_ := 1 } := by
    show ({ y_ := ((0 : Nat) : Int) % beamConsts.H, x_ := ((1 : Nat) : Int) % beamConsts.W } :
      Coord) = _
    decide
  refine ⟨?_, hc, ?_⟩
  · intro c hc mt storage
    rcases hc with rfl | rfl
    · exact ofSeed_spec beamConsts (by decide) (by decide) mt storage
    · exact ofSeed_spec smallConsts (by decide) (by decide) mt storage
  · exact (ofSeed_spec beamConsts (by decide) (by decide) (fun k => k)
      (fun _ _ => 12345)).2.2.2.2

end CollectNum

namespace CollectNum

/-! ## `randomAction` -/

theorem count_congr_iff (p q : Nat → Prop) [DecidablePred p] [DecidablePred q]
    (h : ∀ r, p r ↔ q r) (n : Nat) : Nat.count p n = Nat.count q n := by
  rw [Nat.count_eq_card_filter_range, Nat.count_eq_card_filter_range]
  congr 1
  exact Finset.filter_congr (fun r _ => h r)

theorem legalActions_nodup (c : Consts) (s : MazeState) : (legalActions c s).Nodup :=
  (legalActions_sorted c s).nodup

/-- With two rows and two columns at least, an agent inside the grid has two, three or four
legal actions. -/
theorem legalActions_length (c : Consts) (hH : 2 ≤ c.H) (hW : 2 ≤ c.W) (s : MazeState)
    (hb : agentInBounds c s) :
    (legalActions c s).length = 2 ∨ (legalActions c s).length = 3 ∨
      (legalActions c s).length = 4 := by
  obtain ⟨hy0, hy1, hx0, hx1⟩ := hb
  have e0 : dx 0 = 1 ∧ dy 0 = 0 := by decide
  have e1 : dx 1 = -1 ∧ dy 1 = 0 := by decide
  have e2 : dx 2 = 0 ∧ dy 2 = 1 := by decide
  have e3 : dx 3 = 0 ∧ dy 3 = -1 := by decide
  unfold legalActions
  simp only [List.filter_cons, List.filter_nil, e0.1, e0.2, e1.1, e1.2, e2.1, e2.2, e3.1, e3.2,
    decide_eq_true_eq]
  split_ifs <;> simp only [List.length_cons, List.length_nil] <;> first | omega | simp

/-- The action at position `i` of `legalActions()` is returned for exactly the outputs `r` with
`r mod n = i`, and these are `2^32 / n` of the 32-bit outputs, plus one when
`i < 2^32 mod n`. -/
theorem selections_eq (c : Consts) (s : MazeState) (i : Nat) (a : Int)
    (hi : (legalActions c s)[i]? = some a) :
    selections c s a =
      2 ^ 32 / (legalActions c s).length +
        if i < 2 ^ 32 % (legalActions c s).length then 1 else 0 := by
  obtain ⟨hlt, hget⟩ := List.getElem?_eq_some_iff.mp hi
  have hn : 0 < (legalActions c s).length := by omega
  have hiff : ∀ r : Nat, randomAction c s r = some a ↔ r ≡ i [MOD (legalActions c s).length] := by
    intro r
    unfold randomAction Nat.ModEq
    rw [Nat.mod_eq_of_lt hlt, List.getElem?_eq_some_iff]
    constructor
    · rintro ⟨h1, h2⟩
      rw [← hget] at h2
      exact (legalActions_nodup c s).getElem_inj_iff.mp h2
    · intro h
      refine ⟨Nat.mod_lt _ hn, ?_⟩
      rw [← hget]
      exact (legalActions_nodup c s).getElem_inj_iff.mpr h
  unfold selections
  rw [count_congr_iff _ _ hiff, Nat.count_modEq_card _ hn, Nat.mod_eq_of_lt hlt]

theorem edgeState_inBounds : agentInBounds beamConsts edgeState := by
  decide

theorem edgeState_legal : legalActions beamConsts edgeState = [0, 1, 2] := by
  decide

/-- C17 (as amended): with two rows and two columns at least and the agent in bounds, the number
`n` of legal actions is 2, 3 or 4, `randomAction` returns `legalActions()[r mod n]`, and the
action at position `i` is selected by `2^32 / n` of the `2^32` outputs `r`, plus one when
`i < 2^32 mod n`: by `2^31` each for `n = 2`, by `2^30` each for `n = 4`, and for `n = 3` by
1431655766 outputs for the first legal action and 1431655765 for each of the other two. -/
theorem randomAction_distribution (c : Consts) (s : MazeState) (hH : 2 ≤ c.H) (hW : 2 ≤ c.W)
    (hb : agentInBounds c s) :
    ((legalActions c s).length = 2 ∨ (legalActions c s).length = 3 ∨
      (legalActions c s).length = 4) ∧
    (∀ r : Nat, ∃ a, randomAction c s r = some a ∧
      (legalActions c s)[r % (legalActions c s).length]? = some a ∧ a ∈ legalActions c s) ∧
    (∀ (i : Nat) (a : Int), (legalActions c s)[i]? = some a →
      selections c s a =
        2 ^ 32 / (legalActions c s).length +
          if i < 2 ^ 32 % (legalActions c s).length then 1 else 0) ∧
    ((legalActions c s).length = 2 → ∀ a ∈ legalActions c s, selections c s a = 2147483648) ∧
    ((legalActions c s).length = 4 → ∀ a ∈ legalActions c s, selections c s a = 1073741824) ∧
    ((legalActions c s).length = 3 → ∀ (i : Nat) (a : Int), (legalActions c s)[i]? = some a →
      selections c s a = if i = 0 then 1431655766 else 1431655765) := by
  have hlen := legalActions_length c hH hW s hb
  refine ⟨hlen, ?_, fun i a hi => selections_eq c s i a hi, ?_, ?_, ?_⟩
  · intro r
    have hn : 0 < (legalActions c s).length := by omega
    have hlt := Nat.mod_lt r hn
    refine ⟨(legalActions c s)[r % (legalActions c s).length], ?_, ?_, List.getElem_mem _⟩
    · unfold randomAction
      exact List.getElem?_eq_getElem hlt
    · exact List.getElem?_eq_getElem hlt
  · intro h2 a ha
    obtain ⟨i, hi⟩ := List.mem_iff_getElem?.mp ha
    rw [selections_eq c s i a hi, h2]
    norm_num
  · intro h4 a ha
    obtain ⟨i, hi⟩ := List.mem_iff_getElem?.mp ha
    rw [selections_eq c s i a hi, h4]
    norm_num
  · intro h3 i a hi
    rw [selections_eq c s i a hi, h3]
    have e : (2 : Nat) ^ 32 % 3 = 1 := by norm_num
    have e2 : (2 : Nat) ^ 32 / 3 = 1431655765 := by norm_num
    rw [e, e2]
    by_cases h0 : i = 0
    · rw [if_pos h0, if_pos (by omega)]
    · rw [if_neg h0, if_neg (by omega)]

/-- Instance of the amended C17 at `edgeState`, which has the three legal actions `0, 1, 2`. -/
theorem randomAction_distribution_witness :
    ((legalActions beamConsts edgeState).length = 2 ∨
      (legalActions beamConsts edgeState).length = 3 ∨
      (legalActions beamConsts edgeState).length = 4) ∧
    (∀ r : Nat, ∃ a, randomAction beamConsts edgeState r = some a ∧
      (legalActions beamConsts edgeState)[r % (legalActions beamConsts edgeState).length]? =
        some a ∧ a ∈ legalActions beamConsts edgeState) ∧
    (∀ (i : Nat) (a : Int), (legalActions beamConsts edgeState)[i]? = some a →
      selections beamConsts edgeState a =
        2 ^ 32 / (legalActions beamConsts edgeState).length +
          if i < 2 ^ 32 % (legalActions beamConsts edgeState).length then 1 else 0) ∧
    ((legalActions beamConsts edgeState).length = 2 →
      ∀ a ∈ legalActions beamConsts edgeState, selections beamConsts edgeState a = 2147483648) ∧
    ((legalActions beamConsts edgeState).length = 4 →
      ∀ a ∈ legalActions beamConsts edgeState, selections beamConsts edgeState a = 1073741824) ∧
    ((legalActions beamConsts edgeState).length = 3 →
      ∀ (i : Nat) (a : Int), (legalActions beamConsts edgeState)[i]? = some a →
      selections beamConsts edgeState a = if i = 0 then 1431655766 else 1431655765) :=
  randomAction_distribution beamConsts edgeState (by decide) (by decide) edgeState_inBounds

/-- C17 (as stated) fails at `edgeState`, an in-bounds state of the 30 x 30 grid with the three
legal actions `0, 1, 2`: action `0` is selected by 1431655766 of the `2^32` outputs, action `1`
by 1431655765, so the legal actions are not selected by the same number of outputs. -/
theorem randomAction_not_uniform :
    agentInBounds beamConsts edgeState ∧
    legalActions beamConsts edgeState = [0, 1, 2] ∧
    selections beamConsts edgeState 0 = 1431655766 ∧
    selections beamConsts edgeState 1 = 1431655765 ∧
    selections beamConsts edgeState 0 ≠ selections beamConsts edgeState 1 := by
  have h0 := selections_eq beamConsts edgeState 0 0 (by rw [edgeState_legal]; rfl)
  have h1 := selections_eq beamConsts edgeState 1 1 (by rw [edgeState_legal]; rfl)
  rw [edgeState_legal] at h0 h1
  have e0 : selections beamConsts edgeState 0 = 1431655766 := by
    rw [h0]; norm_num
  have e1 : selections beamConsts edgeState 1 = 1431655765 := by
    rw [h1]; norm_num
  exact ⟨edgeState_inBounds, edgeState_legal, e0, e1, by rw [e0, e1]; decide⟩

end CollectNum

namespace CollectNum

/-! ## Deadline-bounded beam search under arbitrary answers of the time keeper -/

theorem PriorityQueue.pop_singleton (x : MazeState) : PriorityQueue.pop [x] = [] := by
  unfold PriorityQueue.pop
  simp

/-- The loop over `i` of the deadline-bounded search either returns from the function, a poll
having answered true, or builds the frontier the fixed-budget search builds. -/
theorem expandBeamTimed_cases (c : Consts) (timeOver : Nat → Bool) (t n polls : Nat)
    (now next : PriorityQueue) :
    expandBeamTimed c timeOver t n polls now next = none ∨
    ∃ polls1, expandBeamTimed c timeOver t n polls now next =
      some (expandBeam c t n now next, polls1) := by
  induction n generalizing polls now next with
  | zero => exact Or.inr ⟨polls, rfl⟩
  | succ n ih =>
    unfold expandBeamTimed expandBeam
    by_cases h : timeOver polls = true
    · rw [if_pos h]; exact Or.inl rfl
    · rw [if_neg h]
      cases PriorityQueue.top now with
      | none => exact Or.inr ⟨polls + 1, rfl⟩
      | some now_state => exact ih _ _ _

/-- At depth level 0 the time keeper is polled before the root is expanded (poll 0) and, for a
beam width of two or more, once more before the emptied queue ends the loop (poll 1); the
function returns during this level exactly when one of these polls answers true. -/
theorem expandBeamTimed_root (c : Consts) (timeOver : Nat → Bool) (beam_width : Nat)
    (hw : 1 ≤ beam_width) (s : MazeState) :
    expandBeamTimed c timeOver 0 beam_width 0 (PriorityQueue.push [] s) [] = none ↔
      (timeOver 0 = true ∨ (2 ≤ beam_width ∧ timeOver 1 = true)) := by
  obtain ⟨w, rfl⟩ : ∃ w, beam_width = w + 1 := ⟨beam_width - 1, by omega⟩
  rw [PriorityQueue.push_nil]
  unfold expandBeamTimed
  by_cases h0 : timeOver 0 = true
  · rw [if_pos h0]
    exact ⟨fun _ => Or.inl h0, fun _ => rfl⟩
  · rw [if_neg h0]
    simp only [PriorityQueue.top, List.head?_cons, PriorityQueue.pop_singleton]
    cases w with
    | zero =>
      unfold expandBeamTimed
      constructor
      · intro h; exact absurd h (by simp)
      · rintro (h | ⟨h, _⟩)
        · exact absurd h h0
        · omega
    | succ w =>
      unfold expandBeamTimed
      by_cases h1 : timeOver 1 = true
      · rw [if_pos h1]
        exact ⟨fun _ => Or.inr ⟨by omega, h1⟩, fun _ => rfl⟩
      · rw [if_neg h1]
        simp only [PriorityQueue.top, List.head?_nil]
        constructor
        · intro h; exact absurd h (by simp)
        · rintro (h | ⟨_, h⟩)
          · exact absurd h h0
          · exact absurd h h1

/-- From a frontier whose nodes all carry a legal root action on, with the end of the episode
within the fuel, the deadline-bounded loop returns a node that carries a legal root action,
whatever the time keeper answers. -/
theorem timedLoop_legal (c : Consts) (hc : 2 ≤ c.H ∨ 2 ≤ c.W) (root : MazeState)
    (timeOver : Nat → Bool) (beam_width : Nat) (hw : 0 < beam_width)
    (fuel t polls : Nat) (now : PriorityQueue) (best : MazeState) (T : Int)
    (hnow : now ≠ [])
    (hinv : ∀ y ∈ now, frontierInv c root (t + 1) y ∧ y.turn_ = T)
    (hT : T < c.END_TURN) (hfuel : c.END_TURN - T ≤ fuel)
    (hbest : best.first_action_ ∈ legalActions c root) :
    ∃ r, timedLoop c timeOver beam_width fuel (t + 1) polls now best = some r ∧
      r.first_action_ ∈ legalActions c root := by
  induction fuel generalizing t polls now best T with
  | zero => exfalso; simp at hfuel; omega
  | succ fuel ih =>
    unfold timedLoop
    rcases expandBeamTimed_cases c timeOver (t + 1) beam_width polls now [] with
      hnone | ⟨polls1, hsome⟩
    · rw [hnone]
      exact ⟨best, rfl, hbest⟩
    · rw [hsome]
      simp only []
      have hne := expandBeam_ne_nil c (t + 1) beam_width now [] hw hnow
        (fun p hp => legalActions_ne_nil c hc p (hinv p hp).1.1)
      have hinv1 := frontierInv_expand c root (t + 1) beam_width now (fun y hy => (hinv y hy).1)
      have hturn1 := expandBeam_turn c (t + 1) beam_width now T
        (fun y hy => ⟨(hinv y hy).1.1, (hinv y hy).2⟩)
      obtain ⟨b, hb⟩ := PriorityQueue.top_ne_none _ hne
      have hbmem := PriorityQueue.mem_of_top _ b hb
      have hbf : b.first_action_ ∈ legalActions c root := by
        have := (hinv1 b hbmem).2
        rw [if_neg (Nat.succ_ne_zero _)] at this
        exact this
      rw [hb]
      simp only []
      by_cases hdone : isDone c b = true
      · rw [if_pos hdone]
        exact ⟨b, rfl, hbf⟩
      · rw [if_neg hdone]
        have hT1 : T + 1 < c.END_TURN := by
          have hbt := (hturn1 b hbmem).2
          have : ¬ b.turn_ = c.END_TURN := by
            intro h
            apply hdone
            unfold isDone
            rw [h]
            exact beq_self_eq_true _
          omega
        exact ih (t + 1) polls1 _ b (T + 1) hne
          (fun y hy => ⟨hinv1 y hy, (hturn1 y hy).2⟩) hT1
          (by push_cast at hfuel ⊢; omega) hbf

/-- The result of the deadline-bounded search from a root in bounds before the end of the
episode: the sentinel of the default-constructed `best_state` when a poll of depth level 0
answers true, a node carrying a legal root action otherwise. -/
theorem timedLoop_root (c : Consts) (hc : 2 ≤ c.H ∨ 2 ≤ c.W) (s : MazeState)
    (timeOver : Nat → Bool) (beam_width fuel : Nat) (hb : agentInBounds c s)
    (ht : s.turn_ < c.END_TURN) (hw : 1 ≤ beam_width) (hfuel : c.END_TURN - s.turn_ ≤ fuel) :
    (expandBeamTimed c timeOver 0 beam_width 0 (PriorityQueue.push [] s) [] = none →
      timedLoop c timeOver beam_width fuel 0 0 (PriorityQueue.push [] s) defaultState =
        some defaultState) ∧
    (expandBeamTimed c timeOver 0 beam_width 0 (PriorityQueue.push [] s) [] ≠ none →
      ∃ r, timedLoop c timeOver beam_width fuel 0 0 (PriorityQueue.push [] s) defaultState =
          some r ∧ r.first_action_ ∈ legalActions c s) := by
  obtain ⟨fuel, rfl⟩ : ∃ f, fuel = f + 1 := ⟨fuel - 1, by omega⟩
  constructor
  · intro hnone
    unfold timedLoop
    rw [hnone]
  · intro hsome
    rcases expandBeamTimed_cases c timeOver 0 beam_width 0 (PriorityQueue.push [] s) [] with
      hnone | ⟨polls1, hex⟩
    · exact absurd hnone hsome
    · have hnow : PriorityQueue.push [] s ≠ [] := by
        rw [PriorityQueue.push_nil]; exact List.cons_ne_nil _ _
      have hroot := frontierInv_root c s hb
      have hturn0 : ∀ y ∈ PriorityQueue.push [] s, agentInBounds c y ∧ y.turn_ = s.turn_ := by
        intro y hy
        rw [PriorityQueue.push_nil, List.mem_singleton] at hy
        subst hy
        exact ⟨hb, rfl⟩
      have hne := expandBeam_ne_nil c 0 beam_width _ [] hw hnow
        (fun p hp => legalActions_ne_nil c hc p (hroot p hp).1)
      have hinv1 := frontierInv_expand c s 0 beam_width _ hroot
      have hturn1 := expandBeam_turn c 0 beam_width _ s.turn_ hturn0
      obtain ⟨b, hbtop⟩ := PriorityQueue.top_ne_none _ hne
      have hbmem := PriorityQueue.mem_of_top _ b hbtop
      have hbf : b.first_action_ ∈ legalActions c s := by
        have := (hinv1 b hbmem).2
        rw [if_neg (Nat.succ_ne_zero _)] at this
        exact this
      unfold timedLoop
      rw [hex]
      simp only [hbtop]
      by_cases hdone : isDone c b = true
      · rw [if_pos hdone]
        exact ⟨b, rfl, hbf⟩
      · rw [if_neg hdone]
        have hT1 : s.turn_ + 1 < c.END_TURN := by
          have hbt := (hturn1 b hbmem).2
          have : ¬ b.turn_ = c.END_TURN := by
            intro h
            apply hdone
            unfold isDone
            rw [h]
            exact beq_self_eq_true _
          omega
        exact timedLoop_legal c hc s timeOver beam_width hw fuel 0 polls1 _ b (s.turn_ + 1)
          hne (fun y hy => ⟨hinv1 y hy, (hturn1 y hy).2⟩) hT1
          (by push_cast at hfuel ⊢; omega) hbf

/-- C18: on the 30 x 30 grid, for a root with the agent in bounds and `turn_ < END_TURN`,
`beam_width ≥ 1` and any answers of `isTimeOver()`, the deadline-bounded search returns `-1` or
a legal action of the root. It returns `-1` exactly when the loop over `i` of depth level 0
ends by a poll that answers true, that is when poll 0, made before the root is expanded,
answers true, or `beam_width ≥ 2` and poll 1, made after the root has been expanded, does. -/
theorem timed_sentinel_or_legal (s : MazeState) (timeOver : Nat → Bool)
    (beam_width fuel : Nat) (hb : agentInBounds beamConsts s)
    (ht : s.turn_ < beamConsts.END_TURN) (hw : 1 ≤ beam_width)
    (hfuel : beamConsts.END_TURN - s.turn_ ≤ fuel) :
    ∃ a, beamSearchActionWithTimeThreshold beamConsts fuel timeOver s beam_width = some a ∧
      (a = -1 ∨ a ∈ legalActions beamConsts s) ∧
      (a = -1 ↔
        expandBeamTimed beamConsts timeOver 0 beam_width 0 (PriorityQueue.push [] s) [] =
          none) ∧
      (a = -1 ↔ (timeOver 0 = true ∨ (2 ≤ beam_width ∧ timeOver 1 = true))) := by
  obtain ⟨h1, h2⟩ := timedLoop_root beamConsts beamConsts_dims s timeOver beam_width fuel hb ht
    hw hfuel
  have hroot := expandBeamTimed_root beamConsts timeOver beam_width hw s
  unfold beamSearchActionWithTimeThreshold
  by_cases hnone :
      expandBeamTimed beamConsts timeOver 0 beam_width 0 (PriorityQueue.push [] s) [] = none
  · rw [h1 hnone]
    refine ⟨-1, rfl, Or.inl rfl, ⟨fun _ => hnone, fun _ => rfl⟩,
      ⟨fun _ => hroot.mp hnone, fun _ => rfl⟩⟩
  · obtain ⟨r, hr, hmem⟩ := h2 hnone
    rw [hr]
    have hne : r.first_action_ ≠ -1 := by
      intro h
      have := ((mem_legalActions beamConsts s _).mp hmem).1.1
      omega
    refine ⟨r.first_action_, rfl, Or.inr hmem, ⟨fun h => absurd h hne, fun h => absurd h hnone⟩,
      ⟨fun h => absurd h hne, fun h => absurd (hroot.mpr h) hnone⟩⟩

/-- Instance of C18 at `sampleState` with beam width 2, a time keeper that answers true from
poll 1 on, and fuel for the 100 levels of the episode. -/
theorem timed_sentinel_or_legal_witness :
    ∃ a, beamSearchActionWithTimeThreshold beamConsts 100 (fun k => decide (1 ≤ k))
        sampleState 2 = some a ∧
      (a = -1 ∨ a ∈ legalActions beamConsts sampleState) ∧
      (a = -1 ↔
        expandBeamTimed beamConsts (fun k => decide (1 ≤ k)) 0 2 0
          (PriorityQueue.push [] sampleState) [] = none) ∧
      (a = -1 ↔ ((fun k => decide (1 ≤ k)) 0 = true ∨
        (2 ≤ 2 ∧ (fun k => decide (1 ≤ k)) 1 = true))) :=
  timed_sentinel_or_legal sampleState (fun k => decide (1 ≤ k)) 2 100 sampleState_inBounds
    (by decide) (by decide) (by decide)

end CollectNum

namespace CollectNum

/-! ## Termination of the deadline-bounded beam search -/

/-- More fuel does not change a result of the deadline-bounded loop. -/
theorem timedLoop_fuel_mono (c : Consts) (timeOver : Nat → Bool) (beam_width : Nat)
    (fuel extra t polls : Nat) (now : PriorityQueue) (best r : MazeState)
    (h : timedLoop c timeOver beam_width fuel t polls now best = some r) :
    timedLoop c timeOver beam_width (fuel + extra) t polls now best = some r := by
  induction fuel generalizing t polls now best with
  | zero => unfold timedLoop at h; exact absurd h (by simp)
  | succ fuel ih =>
    have e : fuel + 1 + extra = (fuel + extra) + 1 := by omega
    rw [e]
    unfold timedLoop at h ⊢
    cases hex : expandBeamTimed c timeOver t beam_width polls now [] with
    | none => rw [hex] at h; exact h
    | some pr =>
      obtain ⟨next_beam, polls1⟩ := pr
      rw [hex] at h
      simp only [] at h ⊢
      cases htop : PriorityQueue.top next_beam with
      | none => rw [htop] at h; exact absurd h (by simp)
      | some b =>
        rw [htop] at h
        simp only [] at h ⊢
        by_cases hdone : isDone c b = true
        · rw [if_pos hdone] at h ⊢; exact h
        · rw [if_neg hdone] at h ⊢; exact ih _ _ _ _ h

/-- Every frontier is non-empty, and the nodes of the frontier of depth level `t` are in bounds
and `t` turns later than the root. -/
theorem frontierAt_inv (c : Consts) (hc : 2 ≤ c.H ∨ 2 ≤ c.W) (beam_width : Nat)
    (hw : 0 < beam_width) (s : MazeState) (hb : agentInBounds c s) (t : Nat) :
    frontierAt c beam_width s t ≠ [] ∧
    ∀ y ∈ frontierAt c beam_width s t, agentInBounds c y ∧ y.turn_ = s.turn_ + t := by
  induction t with
  | zero =>
    unfold frontierAt
    rw [PriorityQueue.push_nil]
    refine ⟨List.cons_ne_nil _ _, ?_⟩
    intro y hy
    rw [List.mem_singleton] at hy
    subst hy
    exact ⟨hb, by simp⟩
  | succ t ih =>
    obtain ⟨hne, hinv⟩ := ih
    have h1 := expandBeam_ne_nil c t beam_width (frontierAt c beam_width s t) [] hw hne
      (fun p hp => legalActions_ne_nil c hc p (hinv p hp).1)
    have h2 := expandBeam_turn c t beam_width (frontierAt c beam_width s t) (s.turn_ + t) hinv
    refine ⟨h1, ?_⟩
    intro y hy
    obtain ⟨h3, h4⟩ := h2 y hy
    exact ⟨h3, by rw [h4]; push_cast; ring⟩

/-- C19: on the 30 x 30 grid, for a root with the agent in bounds and `turn_ < END_TURN` and
`beam_width ≥ 1`, whatever `isTimeOver()` answers: the deadline-bounded search returns with fuel
for `END_TURN - turn_` depth levels, and more fuel gives the same result; every frontier is
non-empty and its nodes at depth level `t` are in bounds with `turn_` equal to that of the root
plus `t`, hence at most `END_TURN` up to level `END_TURN - turn_`, where the best node
`isDone()`; and each run of the loop over `i` either returns from the function or produces the
next frontier. -/
theorem timed_terminates (s : MazeState) (timeOver : Nat → Bool) (beam_width : Nat)
    (hb : agentInBounds beamConsts s) (ht : s.turn_ < beamConsts.END_TURN)
    (hw : 1 ≤ beam_width) :
    (∃ a,
      beamSearchActionWithTimeThreshold beamConsts (beamConsts.END_TURN - s.turn_).toNat
        timeOver s beam_width = some a ∧
      ∀ fuel, (beamConsts.END_TURN - s.turn_).toNat ≤ fuel →
        beamSearchActionWithTimeThreshold beamConsts fuel timeOver s beam_width = some a) ∧
    (∀ t : Nat, frontierAt beamConsts beam_width s t ≠ [] ∧
      ∀ y ∈ frontierAt beamConsts beam_width s t,
        agentInBounds beamConsts y ∧ y.turn_ = s.turn_ + t) ∧
    (∀ t : Nat, (t : Int) ≤ beamConsts.END_TURN - s.turn_ →
      ∀ y ∈ frontierAt beamConsts beam_width s t, y.turn_ ≤ beamConsts.END_TURN) ∧
    (∀ b, PriorityQueue.top
        (frontierAt beamConsts beam_width s (beamConsts.END_TURN - s.turn_).toNat) = some b →
      isDone beamConsts b = true) ∧
    (∀ t polls : Nat,
      expandBeamTimed beamConsts timeOver t beam_width polls
          (frontierAt beamConsts beam_width s t) [] = none ∨
      ∃ polls1, expandBeamTimed beamConsts timeOver t beam_width polls
          (frontierAt beamConsts beam_width s t) [] =
        some (frontierAt beamConsts beam_width s (t + 1), polls1)) := by
  have hN : beamConsts.END_TURN - s.turn_ ≤ ((beamConsts.END_TURN - s.turn_).toNat : Int) := by
    rw [Int.toNat_of_nonneg (by omega)]
  have hinv := frontierAt_inv beamConsts beamConsts_dims beam_width hw s hb
  refine ⟨?_, hinv, ?_, ?_, ?_⟩
  · obtain ⟨h1, h2⟩ := timedLoop_root beamConsts beamConsts_dims s timeOver beam_width
      (beamConsts.END_TURN - s.turn_).toNat hb ht hw hN
    have hsome : ∃ r, timedLoop beamConsts timeOver beam_width
        (beamConsts.END_TURN - s.turn_).toNat 0 0 (PriorityQueue.push [] s) defaultState =
          some r := by
      by_cases hnone : expandBeamTimed beamConsts timeOver 0 beam_width 0
          (PriorityQueue.push [] s) [] = none
      · exact ⟨defaultState, h1 hnone⟩
      · obtain ⟨r, hr, _⟩ := h2 hnone
        exact ⟨r, hr⟩
    obtain ⟨r, hr⟩ := hsome
    refine ⟨r.first_action_, ?_, ?_⟩
    · unfold beamSearchActionWithTimeThreshold
      rw [hr]
      rfl
    · intro fuel hfuel
      obtain ⟨extra, rfl⟩ : ∃ e, fuel = (beamConsts.END_TURN - s.turn_).toNat + e :=
        ⟨fuel - (beamConsts.END_TURN - s.turn_).toNat, by omega⟩
      unfold beamSearchActionWithTimeThreshold
      rw [timedLoop_fuel_mono beamConsts timeOver beam_width _ extra 0 0 _ _ r hr]
      rfl
  · intro t htN y hy
    rw [((hinv t).2 y hy).2]
    omega
  · intro b hbtop
    have hmem := PriorityQueue.mem_of_top _ b hbtop
    have hturn := ((hinv _).2 b hmem).2
    rw [Int.toNat_of_nonneg (by omega)] at hturn
    unfold isDone
    rw [hturn]
    simp
  · intro t polls
    exact expandBeamTimed_cases beamConsts timeOver t beam_width polls _ []

/-- Instance of C19 at `sampleState` with beam width 2 and a time keeper that never answers
true. -/
theorem timed_terminates_witness :
    (∃ a,
      beamSearchActionWithTimeThreshold beamConsts
        (beamConsts.END_TURN - sampleState.turn_).toNat (fun _ => false) sampleState 2 =
          some a ∧
      ∀ fuel, (beamConsts.END_TURN - sampleState.turn_).toNat ≤ fuel →
        beamSearchActionWithTimeThreshold beamConsts fuel (fun _ => false) sampleState 2 =
          some a) ∧
    (∀ t : Nat, frontierAt beamConsts 2 sampleState t ≠ [] ∧
      ∀ y ∈ frontierAt beamConsts 2 sampleState t,
        agentInBounds beamConsts y ∧ y.turn_ = sampleState.turn_ + t) ∧
    (∀ t : Nat, (t : Int) ≤ beamConsts.END_TURN - sampleState.turn_ →
      ∀ y ∈ frontierAt beamConsts 2 sampleState t, y.turn_ ≤ beamConsts.END_TURN) ∧
    (∀ b, PriorityQueue.top
        (frontierAt beamConsts 2 sampleState
          (beamConsts.END_TURN - sampleState.turn_).toNat) = some b →
      isDone beamConsts b = true) ∧
    (∀ t polls : Nat,
      expandBeamTimed beamConsts (fun _ => false) t 2 polls
          (frontierAt beamConsts 2 sampleState t) [] = none ∨
      ∃ polls1, expandBeamTimed beamConsts (fun _ => false) t 2 polls
          (frontierAt beamConsts 2 sampleState t) [] =
        some (frontierAt beamConsts 2 sampleState (t + 1), polls1)) :=
  timed_terminates sampleState (fun _ => false) 2 sampleState_inBounds (by decide) (by decide)

end CollectNum

namespace CollectNum

/-! ## The priority queue as a multiset: `push` adds one element, `pop` removes the top -/

theorem perm_cons_eraseIdx (v : List MazeState) (i : Nat) (h : i < v.length) :
    v.Perm (v[i] :: v.eraseIdx i) := by
  have h1 : v = v.take i ++ v[i] :: v.drop (i + 1) := by
    rw [← List.drop_eq_getElem_cons h, List.take_append_drop]
  rw [List.eraseIdx_eq_take_drop_succ]
  conv_lhs => rw [h1]
  exact List.perm_middle

theorem eraseIdx_set_self (v : List MazeState) (i : Nat) (x : MazeState) :
    (v.set i x).eraseIdx i = v.eraseIdx i := by
  induction v generalizing i with
  | nil => rfl
  | cons a l ih =>
    cases i with
    | zero => rfl
    | succ i => simp only [List.set_cons_succ, List.eraseIdx_cons_succ, ih]

/-- Moving the hole from `i` to `j`, by copying the element at `j` into `i`, keeps the elements
outside the hole. -/
theorem move_hole_perm (v : List MazeState) (i j : Nat) (d : MazeState) (hi : i < v.length)
    (hj : j < v.length) : ((v.set i (v.getD j d)).eraseIdx j).Perm (v.eraseIdx i) := by
  rw [List.getD_eq_getElem v d hj]
  by_cases hij : i = j
  · subst hij
    rw [eraseIdx_set_self]
  · have hj1 : j < (v.set i v[j]).length := by rw [List.length_set]; exact hj
    have hi1 : i < (v.set i v[j]).length := by rw [List.length_set]; exact hi
    have p1 := perm_cons_eraseIdx (v.set i v[j]) j hj1
    have p2 := perm_cons_eraseIdx (v.set i v[j]) i hi1
    rw [List.getElem_set_ne hij] at p1
    rw [List.getElem_set_self, eraseIdx_set_self] at p2
    exact (p1.symm.trans p2).cons_inv

/-- The sift-up puts `val` into the vector in place of the element at the hole. -/
theorem pushHeapByIndex_perm (v : List MazeState) (hole : Nat) (val : MazeState)
    (h : hole < v.length) : (pushHeapByIndex v hole val).Perm (val :: v.eraseIdx hole) := by
  induction hole using Nat.strong_induction_on generalizing v with
  | _ hole ih =>
    have hstop : (v.set hole val).Perm (val :: v.eraseIdx hole) := by
      have hl : hole < (v.set hole val).length := by rw [List.length_set]; exact h
      have p := perm_cons_eraseIdx (v.set hole val) hole hl
      rw [List.getElem_set_self, eraseIdx_set_self] at p
      exact p
    rw [pushHeapByIndex]
    split
    · next hpos =>
      split
      · have hp : (hole - 1) / 2 < hole := by omega
        have hlen : (hole - 1) / 2 < (v.set hole (v.getD ((hole - 1) / 2) val)).length := by
          rw [List.length_set]; omega
        refine (ih ((hole - 1) / 2) hp _ hlen).trans ?_
        exact List.Perm.cons val (move_hole_perm v hole ((hole - 1) / 2) val h (by omega))
      · exact hstop
    · exact hstop

/-- The first loop of `pop_heap` moves the hole down and keeps the elements outside it. -/
theorem siftHoleDown_perm (v : List MazeState) (hole bottom : Nat) (val : MazeState)
    (h : hole < v.length) (hb : bottom ≤ v.length) :
    (siftHoleDown v hole bottom val).2 < v.length ∧
    (siftHoleDown v hole bottom val).1.length = v.length ∧
    ((siftHoleDown v hole bottom val).1.eraseIdx (siftHoleDown v hole bottom val).2).Perm
      (v.eraseIdx hole) := by
  generalize hn : bottom - hole = n
  induction n using Nat.strong_induction_on generalizing v hole with
  | _ n ih =>
    subst hn
    rw [siftHoleDown]
    split
    · next hlt =>
      split
      · have h1 : 2 * hole + 1 < v.length := by omega
        obtain ⟨a1, a2, a3⟩ := ih (bottom - (2 * hole + 1)) (by omega)
          (v.set hole (v.getD (2 * hole + 1) val)) (2 * hole + 1)
          (by rw [List.length_set]; exact h1) (by rw [List.length_set]; exact hb) rfl
        rw [List.length_set] at a1 a2
        exact ⟨a1, a2, a3.trans (move_hole_perm v hole (2 * hole + 1) val h h1)⟩
      · have h1 : 2 * hole + 2 < v.length := by omega
        obtain ⟨a1, a2, a3⟩ := ih (bottom - (2 * hole + 2)) (by omega)
          (v.set hole (v.getD (2 * hole + 2) val)) (2 * hole + 2)
          (by rw [List.length_set]; exact h1) (by rw [List.length_set]; exact hb) rfl
        rw [List.length_set] at a1 a2
        exact ⟨a1, a2, a3.trans (move_hole_perm v hole (2 * hole + 2) val h h1)⟩
    · exact ⟨h, rfl, List.Perm.refl _⟩

/-- The hole-based `pop_heap` puts `val` into the vector in place of the element at the hole. -/
theorem popHeapHoleByIndex_perm (v : List MazeState) (hole bottom : Nat) (val : MazeState)
    (h : hole < v.length) (hb : bottom ≤ v.length) :
    (popHeapHoleByIndex v hole bottom val).Perm (val :: v.eraseIdx hole) := by
  obtain ⟨a1, a2, a3⟩ := siftHoleDown_perm v hole bottom val h hb
  unfold popHeapHoleByIndex
  simp only []
  split
  · have hb1 : bottom - 1 < (siftHoleDown v hole bottom val).1.length := by omega
    have hl : bottom - 1 <
        ((siftHoleDown v hole bottom val).1.set (siftHoleDown v hole bottom val).2
          ((siftHoleDown v hole bottom val).1.getD (bottom - 1) val)).length := by
      rw [List.length_set]; exact hb1
    refine (pushHeapByIndex_perm _ _ val hl).trans ?_
    apply List.Perm.cons
    exact (move_hole_perm _ _ (bottom - 1) val (by omega) hb1).trans a3
  · refine (pushHeapByIndex_perm _ _ val (by omega)).trans ?_
    exact List.Perm.cons val a3

namespace PriorityQueue

/-- The member `push` adds `x` to the elements of the queue. -/
theorem push_perm (q : PriorityQueue) (x : MazeState) : (push q x).Perm (x :: q) := by
  unfold push
  refine (pushHeapByIndex_perm (q ++ [x]) q.length x (by simp)).trans ?_
  rw [List.eraseIdx_append_of_length_le (le_refl _), Nat.sub_self]
  simp

/-- The member `pop` removes the top from the elements of the queue. -/
theorem pop_perm (r : MazeState) (rest : List MazeState) : (pop (r :: rest)).Perm rest := by
  rcases List.eq_nil_or_concat rest with rfl | ⟨L, b, rfl⟩
  · rw [pop_singleton]
  · have hq : r :: L.concat b = (r :: L) ++ [b] := by simp
    unfold pop
    rw [hq, List.getLast?_concat]
    simp only [List.length_append, List.length_cons, List.length_singleton, List.dropLast_concat]
    rw [if_pos (by omega)]
    refine (popHeapHoleByIndex_perm (r :: L) 0 _ b (by simp) (by simp)).trans ?_
    rw [List.eraseIdx_zero, List.tail_cons, List.concat_eq_append]
    exact (List.perm_append_singleton b L).symm

theorem mem_push_iff (q : PriorityQueue) (x y : MazeState) :
    y ∈ push q x ↔ y = x ∨ y ∈ q := by
  rw [(push_perm q x).mem_iff, List.mem_cons]

/-- Every element of a queue is its top or stays in the queue after `pop`. -/
theorem top_or_mem_pop (q : PriorityQueue) (y : MazeState) (hy : y ∈ q) :
    top q = some y ∨ y ∈ pop q := by
  cases q with
  | nil => simp at hy
  | cons r rest =>
    rcases List.mem_cons.mp hy with h | h
    · left; rw [h]; rfl
    · right; exact (pop_perm r rest).mem_iff.mpr h

end PriorityQueue

end CollectNum

namespace CollectNum

/-! ## A beam wide enough expands every node -/

theorem foldl_push_mem_iff (f : Int → MazeState) (l : List Int) (q : PriorityQueue)
    (y : MazeState) :
    y ∈ l.foldl (fun beam action => PriorityQueue.push beam (f action)) q ↔
      y ∈ q ∨ ∃ a ∈ l, y = f a := by
  induction l generalizing q with
  | nil => simp
  | cons a l ih =>
    rw [List.foldl_cons, ih, PriorityQueue.mem_push_iff]
    constructor
    · rintro ((h | h) | ⟨b, hb, hyb⟩)
      · exact Or.inr ⟨a, List.mem_cons_self a l, h⟩
      · exact Or.inl h
      · exact Or.inr ⟨b, List.mem_cons_of_mem a hb, hyb⟩
    · rintro (h | ⟨b, hb, hyb⟩)
      · exact Or.inl (Or.inr h)
      · rcases List.mem_cons.mp hb with rfl | hb
        · exact Or.inl (Or.inl hyb)
        · exact Or.inr ⟨b, hb, hyb⟩

theorem pushChildren_mem_iff (c : Consts) (t : Nat) (p : MazeState) (next : PriorityQueue)
    (y : MazeState) :
    y ∈ pushChildren c t p next ↔ y ∈ next ∨ ∃ a ∈ legalActions c p, y = nextState t p a :=
  foldl_push_mem_iff (nextState t p) (legalActions c p) next y

theorem expandBeam_mono (c : Consts) (t n : Nat) (now next : PriorityQueue) (y : MazeState)
    (hy : y ∈ next) : y ∈ expandBeam c t n now next := by
  induction n generalizing now next with
  | zero => exact hy
  | succ n ih =>
    unfold expandBeam
    split
    · exact hy
    · exact ih _ _ ((pushChildren_mem_iff c t _ next y).mpr (Or.inl hy))

/-- When the beam width is at least the size of the frontier, every child of every node of
the frontier is in the next frontier. -/
theorem expandBeam_complete (c : Consts) (t n : Nat) (now next : PriorityQueue)
    (hn : now.length ≤ n) (p : MazeState) (hp : p ∈ now) (a : Int)
    (ha : a ∈ legalActions c p) : nextState t p a ∈ expandBeam c t n now next := by
  induction n generalizing now next with
  | zero =>
    have : now = [] := List.eq_nil_of_length_eq_zero (by omega)
    rw [this] at hp
    simp at hp
  | succ n ih =>
    unfold expandBeam
    rcases PriorityQueue.top_or_mem_pop now p hp with htop | hpop
    · rw [htop]
      simp only []
      apply expandBeam_mono
      exact (pushChildren_mem_iff c t p next _).mpr (Or.inr ⟨a, ha, rfl⟩)
    · obtain ⟨r, hr⟩ := PriorityQueue.top_ne_none now (List.ne_nil_of_mem hp)
      rw [hr]
      simp only []
      apply ih
      · rw [PriorityQueue.length_pop]; omega
      · exact hpop

theorem legalActions_length_le (c : Consts) (s : MazeState) : (legalActions c s).length ≤ 4 := by
  unfold legalActions
  exact List.length_filter_le _ _

/-- Every node has at most four children. -/
theorem expandBeam_length_le_four (c : Consts) (t n : Nat) (now next : PriorityQueue) :
    (expandBeam c t n now next).length ≤ next.length + 4 * now.length := by
  induction n generalizing now next with
  | zero => unfold expandBeam; omega
  | succ n ih =>
    unfold expandBeam
    cases htop : PriorityQueue.top now with
    | none => simp only []; omega
    | some now_state =>
      simp only []
      have h1 := ih (PriorityQueue.pop now) (pushChildren c t now_state next)
      rw [pushChildren_length, PriorityQueue.length_pop] at h1
      have h2 := legalActions_length_le c now_state
      have h3 : 0 < now.length := List.length_pos.mpr
        (List.ne_nil_of_mem (PriorityQueue.mem_of_top now now_state htop))
      omega

theorem frontierAt_length_le (c : Consts) (beam_width : Nat) (s : MazeState) (t : Nat) :
    (frontierAt c beam_width s t).length ≤ 4 ^ t := by
  induction t with
  | zero =>
    unfold frontierAt
    rw [PriorityQueue.push_nil]
    simp
  | succ t ih =>
    have h := expandBeam_length_le_four c t beam_width (frontierAt c beam_width s t) []
    have e : 4 ^ (t + 1) = 4 * 4 ^ t := by ring
    show (expandBeam c t beam_width (frontierAt c beam_width s t) []).length ≤ 4 ^ (t + 1)
    rw [e]
    simp only [List.length_nil] at h
    omega

theorem rootMax_nil : rootMax [] := by
  intro r hr
  simp [PriorityQueue.top] at hr

theorem rootMax_foldl_push (f : Int → MazeState) (l : List Int) (q : PriorityQueue)
    (hq : rootMax q) :
    rootMax (l.foldl (fun beam action => PriorityQueue.push beam (f action)) q) := by
  induction l generalizing q with
  | nil => exact hq
  | cons a l ih =>
    rw [List.foldl_cons]
    exact ih _ (PriorityQueue.rootMax_push q (f a) hq)

/-- The next frontier is built by pushes only, so its top is a node of largest
`evaluated_score_`. -/
theorem rootMax_expandBeam (c : Consts) (t n : Nat) (now next : PriorityQueue)
    (hq : rootMax next) : rootMax (expandBeam c t n now next) := by
  induction n generalizing now next with
  | zero => exact hq
  | succ n ih =>
    unfold expandBeam
    split
    · exact hq
    · exact ih _ _ (rootMax_foldl_push _ _ next hq)

end CollectNum

namespace CollectNum

/-! ## Un-pruned beam search is an exhaustive lookahead -/

theorem advance_congr (y z : MazeState) (a : Int) (h1 : y.points_ = z.points_)
    (h2 : y.turn_ = z.turn_) (h3 : y.character_ = z.character_)
    (h4 : y.game_score_ = z.game_score_) :
    (advance y a).points_ = (advance z a).points_ ∧
    (advance y a).turn_ = (advance z a).turn_ ∧
    (advance y a).character_ = (advance z a).character_ ∧
    (advance y a).game_score_ = (advance z a).game_score_ := by
  unfold advance
  simp only [h1, h2, h3, h4]
  split <;> exact ⟨rfl, rfl, rfl, rfl⟩

theorem legalActions_congr (c : Consts) (y z : MazeState) (h : y.character_ = z.character_) :
    legalActions c y = legalActions c z := by
  unfold legalActions
  rw [h]

theorem legalSeq_append_singleton (c : Consts) (s : MazeState) (l : List Int) (a : Int) :
    legalSeq c s (l ++ [a]) ↔ legalSeq c s l ∧ a ∈ legalActions c (run s l) := by
  induction l generalizing s with
  | nil =>
    show (a ∈ legalActions c s ∧ True) ↔ (True ∧ a ∈ legalActions c s)
    tauto
  | cons b l ih =>
    show (b ∈ legalActions c s ∧ legalSeq c (advance s b) (l ++ [a])) ↔
      ((b ∈ legalActions c s ∧ legalSeq c (advance s b) l) ∧
        a ∈ legalActions c (run (advance s b) l))
    rw [ih]
    tauto

theorem reaches_root (s : MazeState) : reaches s [] s :=
  ⟨rfl, rfl, rfl, rfl, fun h => absurd rfl h⟩

/-- The child of a node reached by `l` reaches `l` followed by the action of the child. -/
theorem reaches_nextState (s : MazeState) (l : List Int) (y : MazeState) (a : Int)
    (h : reaches s l y) : reaches s (l ++ [a]) (nextState l.length y a) := by
  obtain ⟨h1, h2, h3, h4, h5⟩ := h
  obtain ⟨g1, g2, g3, g4⟩ := advance_congr y (run s l) a h1 h2 h3 h4
  unfold reaches
  rw [run_append_singleton]
  refine ⟨?_, ?_, ?_, ?_, ?_⟩
  · rw [nextState_points]; exact g1
  · rw [nextState_turn, ← advance_turn]; exact g2
  · rw [nextState_character]; exact g3
  · rw [nextState_game_score]; exact g4
  · intro _
    refine ⟨by rw [nextState_evaluated_score]; exact g4, ?_⟩
    rw [nextState_first_action]
    cases l with
    | nil => rfl
    | cons b l =>
      have hb := (h5 (List.cons_ne_nil b l)).2
      rw [if_neg (by simp)]
      exact hb

/-- Every node of the frontier of depth level `t` is reached by `t` successively legal
actions. -/
theorem frontierAt_sound (c : Consts) (beam_width : Nat) (s : MazeState) (t : Nat) :
    ∀ y ∈ frontierAt c beam_width s t,
      ∃ l : List Int, l.length = t ∧ legalSeq c s l ∧ reaches s l y := by
  induction t with
  | zero =>
    intro y hy
    unfold frontierAt at hy
    rw [PriorityQueue.push_nil, List.mem_singleton] at hy
    subst hy
    exact ⟨[], rfl, trivial, reaches_root y⟩
  | succ t ih =>
    intro y hy
    rcases expandBeam_mem c t beam_width (frontierAt c beam_width s t) [] y hy with
      h | ⟨p, hp, a, ha, rfl⟩
    · simp at h
    · obtain ⟨l, hl, hleg, hreach⟩ := ih p hp
      refine ⟨l ++ [a], by simp [hl], ?_, ?_⟩
      · rw [legalSeq_append_singleton]
        refine ⟨hleg, ?_⟩
        rw [← legalActions_congr c p (run s l) hreach.2.2.1]
        exact ha
      · rw [← hl]
        exact reaches_nextState s l p a hreach

/-- With a beam width of at least `4 ^ (d - 1)` the frontier of every depth level `t ≤ d`
holds a node for every sequence of `t` successively legal actions. -/
theorem frontierAt_complete (c : Consts) (beam_width : Nat) (s : MazeState) (d : Nat)
    (hw : 4 ^ (d - 1) ≤ beam_width) (t : Nat) (ht : t ≤ d) :
    ∀ l : List Int, l.length = t → legalSeq c s l →
      ∃ y ∈ frontierAt c beam_width s t, reaches s l y := by
  induction t with
  | zero =>
    intro l hl _
    have : l = [] := List.eq_nil_of_length_eq_zero hl
    subst this
    refine ⟨s, ?_, reaches_root s⟩
    unfold frontierAt
    rw [PriorityQueue.push_nil]
    exact List.mem_singleton.mpr rfl
  | succ t ih =>
    intro l hl hleg
    rcases List.eq_nil_or_concat l with rfl | ⟨l1, a, rfl⟩
    · simp at hl
    · rw [List.concat_eq_append] at hl hleg ⊢
      have hl1 : l1.length = t := by simpa using hl
      obtain ⟨hleg1, ha⟩ := (legalSeq_append_singleton c s l1 a).mp hleg
      obtain ⟨p, hp, hreach⟩ := ih (by omega) l1 hl1 hleg1
      have hsize : (frontierAt c beam_width s t).length ≤ beam_width := by
        have h1 := frontierAt_length_le c beam_width s t
        have h2 : 4 ^ t ≤ 4 ^ (d - 1) := Nat.pow_le_pow_right (by decide) (by omega)
        omega
      have hap : a ∈ legalActions c p := by
        rw [legalActions_congr c p (run s l1) hreach.2.2.1]
        exact ha
      refine ⟨nextState t p a, ?_, ?_⟩
      · exact expandBeam_complete c t beam_width _ [] hsize p hp a hap
      · rw [← hl1]
        exact reaches_nextState s l1 p a hreach

/-- When the depth budget ends no later than the episode, the fixed-budget loop runs through
all its depth levels and reports the top of the last frontier. -/
theorem beamLoop_frontierAt (c : Consts) (hc : 2 ≤ c.H ∨ 2 ≤ c.W) (beam_width : Nat)
    (hw : 0 < beam_width) (s : MazeState) (hb : agentInBounds c s) (d : Nat)
    (hturn : s.turn_ + d ≤ c.END_TURN) (n t : Nat) (best : MazeState) (hn : 0 < n)
    (htn : t + n = d) :
    beamLoop c beam_width n t (frontierAt c beam_width s t) best =
      PriorityQueue.top (frontierAt c beam_width s d) := by
  induction n generalizing t best with
  | zero => omega
  | succ n ih =>
    obtain ⟨hne, hinv⟩ := frontierAt_inv c hc beam_width hw s hb (t + 1)
    obtain ⟨b, hbtop⟩ := PriorityQueue.top_ne_none _ hne
    have hnext : expandBeam c t beam_width (frontierAt c beam_width s t) [] =
        frontierAt c beam_width s (t + 1) := rfl
    unfold beamLoop
    simp only [hnext, hbtop]
    by_cases hn0 : n = 0
    · subst hn0
      have htd : t + 1 = d := by omega
      rw [← htd, hbtop]
      split
      · rfl
      · unfold beamLoop; rfl
    · have hbt := (hinv b (PriorityQueue.mem_of_top _ b hbtop)).2
      have hdone : ¬ isDone c b = true := by
        unfold isDone
        simp only [beq_iff_eq]
        rw [hbt]
        push_cast
        omega
      rw [if_neg hdone]
      exact ih (t + 1) b (by omega) (by omega)

theorem beamSearchAction_exhaustive (c : Consts) (hc : 2 ≤ c.H ∨ 2 ≤ c.W) (s : MazeState)
    (beam_width d : Nat) (hb : agentInBounds c s) (hd : 1 ≤ d)
    (hturn : s.turn_ + d ≤ c.END_TURN) (hw : 4 ^ (d - 1) ≤ beam_width) :
    ∃ (a : Int) (l : List Int), beamSearchAction c s beam_width d = some a ∧
      l.length = d ∧ legalSeq c s l ∧ l.head? = some a ∧
      ∀ m : List Int, m.length = d → legalSeq c s m →
        (run s m).game_score_ ≤ (run s l).game_score_ := by
  have hw0 : 0 < beam_width := lt_of_lt_of_le (Nat.pos_pow_of_pos _ (by decide)) hw
  obtain ⟨hne, _⟩ := frontierAt_inv c hc beam_width hw0 s hb d
  obtain ⟨b, hbtop⟩ := PriorityQueue.top_ne_none _ hne
  have hloop := beamLoop_frontierAt c hc beam_width hw0 s hb d hturn d 0 defaultState
    (by omega) (by omega)
  have hbmem := PriorityQueue.mem_of_top _ b hbtop
  obtain ⟨l, hl, hleg, hreach⟩ := frontierAt_sound c beam_width s d b hbmem
  have hlne : l ≠ [] := by
    intro h
    rw [h] at hl
    simp at hl
    omega
  obtain ⟨_, _, _, _, h5⟩ := hreach
  obtain ⟨hev, hhead⟩ := h5 hlne
  obtain ⟨d1, rfl⟩ : ∃ d1, d = d1 + 1 := ⟨d - 1, by omega⟩
  have hmax : rootMax (frontierAt c beam_width s (d1 + 1)) :=
    rootMax_expandBeam c d1 beam_width _ [] rootMax_nil
  refine ⟨b.first_action_, l, ?_, hl, hleg, hhead, ?_⟩
  · unfold beamSearchAction
    have h0 : frontierAt c beam_width s 0 = PriorityQueue.push [] s := rfl
    rw [← h0, hloop, hbtop]
    rfl
  · intro m hm hmleg
    obtain ⟨y, hy, hyreach⟩ := frontierAt_complete c beam_width s (d1 + 1) hw (d1 + 1)
      (le_refl _) m hm hmleg
    have hmne : m ≠ [] := by
      intro h
      rw [h] at hm
      simp at hm
    have hyev := (hyreach.2.2.2.2 hmne).1
    have hle := hmax b hbtop y hy
    rw [← hyev, ← hev]
    exact hle

/-- C20: on the 30 x 30 grid, for a root with the agent in bounds and a non-negative grid, a
depth `d ≥ 1` with `turn_ + d ≤ END_TURN` and `beam_width ≥ 4 ^ (d - 1)`, `beamSearchAction`
returns the first action of a sequence of `d` successively legal actions whose resulting
`game_score_` is at least that of every sequence of `d` successively legal actions from the
root. -/
theorem beamSearchAction_unpruned_optimal (s : MazeState) (beam_width d : Nat)
    (hb : agentInBounds beamConsts s) (_hg : nonNegGrid beamConsts s) (hd : 1 ≤ d)
    (hturn : s.turn_ + d ≤ beamConsts.END_TURN) (hw : 4 ^ (d - 1) ≤ beam_width) :
    ∃ (a : Int) (l : List Int), beamSearchAction beamConsts s beam_width d = some a ∧
      l.length = d ∧ legalSeq beamConsts s l ∧ l.head? = some a ∧
      ∀ m : List Int, m.length = d → legalSeq beamConsts s m →
        (run s m).game_score_ ≤ (run s l).game_score_ :=
  beamSearchAction_exhaustive beamConsts beamConsts_dims s beam_width d hb hd hturn hw

/-- Instance of C20 at `sampleState` with depth 2 and beam width 4. -/
theorem beamSearchAction_unpruned_optimal_witness :
    ∃ (a : Int) (l : List Int), beamSearchAction beamConsts sampleState 4 2 = some a ∧
      l.length = 2 ∧ legalSeq beamConsts sampleState l ∧ l.head? = some a ∧
      ∀ m : List Int, m.length = 2 → legalSeq beamConsts sampleState m →
        (run sampleState m).game_score_ ≤ (run sampleState l).game_score_ :=
  beamSearchAction_unpruned_optimal sampleState 4 2 sampleState_inBounds
    (sampleState_nonNeg beamConsts) (by decide) (by decide) (by decide)

end CollectNum

namespace HeuristicGame

open CollectNum (Coord dx dy INF setPoint)

/-! ## What every constructed `AutoMoveMazeState` satisfies

The data members are private: a state comes from the constructor and is changed from outside
only by `setCharacter`, `init` and `transition`, which leave `points_` and `turn_` alone. So
`turn_ = 0` and all grid values are in `1..9` for every state a caller can hold, and the rollout
inside `getScore` only clears cells; the hypotheses `turn_ ≤ END_TURN` and
`pointsAboveMinusInf` of the statements above hold for all of them. -/

theorem foldl_fillAutoCell_range (mt : Nat → Nat) (l : List (Int × Int))
    (st : (Int → Int → Int) × Nat) (y x : Int)
    (h : ((y, x) ∈ l ∨ (1 ≤ st.1 y x ∧ st.1 y x ≤ 9))) :
    1 ≤ (l.foldl (fillAutoCell mt) st).1 y x ∧ (l.foldl (fillAutoCell mt) st).1 y x ≤ 9 := by
  induction l generalizing st with
  | nil =>
    rcases h with h | h
    · simp at h
    · exact h
  | cons a l ih =>
    rw [List.foldl_cons]
    apply ih
    by_cases hmem : (y, x) ∈ l
    · exact Or.inl hmem
    · right
      show 1 ≤ setPoint st.1 a.1 a.2 _ y x ∧ setPoint st.1 a.1 a.2 _ y x ≤ 9
      unfold setPoint
      split
      · omega
      · rcases h with h | h
        · rcases List.mem_cons.mp h with h1 | h1
          · next hne =>
            exfalso
            apply hne
            rw [← h1]
            exact ⟨rfl, rfl⟩
          · exact absurd h1 hmem
        · exact h

/-- The constructor yields `turn_ = 0`, `game_score_ = 0`, all agents at `(0, 0)` and a value
in `1..9` in every cell of the grid. -/
theorem autoOfSeed_invariant (mt : Nat → Nat) :
    (AutoMoveMazeState.ofSeed mt).turn_ = 0 ∧
    (AutoMoveMazeState.ofSeed mt).game_score_ = 0 ∧
    agentsInGrid (AutoMoveMazeState.ofSeed mt) ∧
    (∀ y x : Int, inGrid y x →
      1 ≤ (AutoMoveMazeState.ofSeed mt).points_ y x ∧
        (AutoMoveMazeState.ofSeed mt).points_ y x ≤ 9) := by
  refine ⟨rfl, rfl, ?_, ?_⟩
  · intro i
    show inGrid 0 0
    decide
  · intro y x hyx
    have hmem : (y, x) ∈ CollectNum.gridCells { H := H, W := W, END_TURN := END_TURN } :=
      CollectNum.mem_gridCells { H := H, W := W, END_TURN := END_TURN } y x hyx
    exact foldl_fillAutoCell_range mt _ (fun _ _ => 0, 0) y x (Or.inl hmem)

/-- The hypotheses used for `hillClimb`, `getScore` and `advance` hold for a constructed state
after any placement of the agents by `setCharacter`, `init` or `transition`. -/
theorem constructed_hypotheses (mt : Nat → Nat) (s : AutoMoveMazeState)
    (hp : s.points_ = (AutoMoveMazeState.ofSeed mt).points_)
    (ht : s.turn_ = (AutoMoveMazeState.ofSeed mt).turn_) :
    s.turn_ ≤ END_TURN ∧ pointsAboveMinusInf s ∧ nonNegGrid s ∧
    (∀ (i : Fin CHARACTER_N) (y x : Int),
      (setCharacter s i y x).points_ = s.points_ ∧ (setCharacter s i y x).turn_ = s.turn_) ∧
    (∀ (m : Nat → Nat) (k : Nat),
      (init m k s).1.points_ = s.points_ ∧ (init m k s).1.turn_ = s.turn_ ∧
      (transition m k s).1.points_ = s.points_ ∧ (transition m k s).1.turn_ = s.turn_) := by
  obtain ⟨h1, _, _, h4⟩ := autoOfSeed_invariant mt
  have hnn : nonNegGrid s := by
    intro y x hyx
    rw [hp]
    have := (h4 y x hyx).1
    omega
  refine ⟨?_, pointsAbove_of_nonNeg s hnn, hnn, fun i y x => ⟨rfl, rfl⟩, ?_⟩
  · rw [ht, h1]
    decide
  · intro m k
    obtain ⟨_, _, i3, i4, _⟩ := init_spec m k s
    exact ⟨i3, i4, rfl, rfl⟩

end HeuristicGame
